import Mathlib

/-!
# notion2hugo: the content conversion engine

A shallow embedding of the Go sources

* `pkg/converter/notion/metadata.go`  (metadata processor),
* `pkg/converter/notion/blocks.go`    (block renderer and rich-text formatter),
* `pkg/converter/media/local.go`, `pkg/converter/media/s3.go` (media handlers),
* `pkg/converter/hugo/converter.go`   (document assembler, filename resolver),

followed by theorems about them.

Conventions.  A Go `string` is a Lean `String`; a Go `error` is an
`Option String` (`none` is `nil`, `some msg` carries the message); a Go
`(T, error)` pair is an `Except String T` or a pair; a run-time panic (nil
dereference, failed type assertion) is the `Fault.panic` outcome.  The
`io.Writer` handed to the renderer is the `bytes.Buffer` of `Convert`, whose
writes cannot fail, so the buffer is a `String` that only grows.  Network,
file system, clock, template engine and the transliteration library are
oracles collected in `MediaEnv` and `HostEnv`.
-/

namespace Notion2Hugo

deriving instance DecidableEq for Except

/-! ## Go standard library: `strings` -/

/-- Go `strings.HasPrefix` on character lists. -/
def hasPrefixChars : List Char → List Char → Bool
  | _, [] => true
  | [], _ :: _ => false
  | c :: cs, p :: ps => c == p && hasPrefixChars cs ps

/-- Go `strings.HasPrefix`. -/
def hasPrefix (s pre : String) : Bool := hasPrefixChars s.data pre.data

/-- Go `strings.HasSuffix`. -/
def hasSuffix (s suf : String) : Bool := hasPrefixChars s.data.reverse suf.data.reverse

/-- Go `strings.Contains` on character lists: some tail of `s` starts with `sub`. -/
def containsChars : List Char → List Char → Bool
  | [], sub => sub.isEmpty
  | c :: cs, sub => hasPrefixChars (c :: cs) sub || containsChars cs sub

/-- Go `strings.Contains`. -/
def contains (s sub : String) : Bool := containsChars s.data sub.data

/-- The loop of Go `strings.Split` for a non-empty separator: `skip` counts the
characters of a separator occurrence still to be dropped, `cur` is the piece
being collected (reversed). -/
def splitGo (sep : List Char) : List Char → Nat → List Char → List (List Char)
  | [], _, cur => [cur.reverse]
  | _ :: cs, skip + 1, cur => splitGo sep cs skip cur
  | c :: cs, 0, cur =>
    if hasPrefixChars (c :: cs) sep then
      cur.reverse :: splitGo sep cs (sep.length - 1) []
    else
      splitGo sep cs 0 (c :: cur)

/-- Go `strings.Split(s, sep)` for a non-empty `sep` (the only use in the sources). -/
def split (s sep : String) : List String :=
  (splitGo sep.data s.data 0 []).map String.mk

/-- Go `strings.Join`. -/
def join (parts : List String) (sep : String) : String := sep.intercalate parts

/-- Go `strings.Repeat`. -/
def strRepeat (s : String) : Nat → String
  | 0 => ""
  | n + 1 => s ++ strRepeat s n

/-- Go `strings.TrimSuffix`. -/
def trimSuffix (s suf : String) : String :=
  if hasSuffix s suf then String.mk (s.data.take (s.data.length - suf.data.length)) else s

/-- Go `strings.Trim(s, cutset)` for a one-character cutset. -/
def trimChar (s : List Char) (c : Char) : List Char :=
  ((s.dropWhile (fun x => x == c)).reverse.dropWhile (fun x => x == c)).reverse

/-- Go `strings.ReplaceAll` for one-character old and new strings. -/
def replaceChar (s : String) (old new : Char) : String :=
  String.mk (s.data.map (fun c => if c == old then new else c))

/-- Go `strings.ToLower`, restricted to the ASCII letters.  The sources use it
only to test for the suffix `.pdf`, and no character outside ASCII lower-cases
to one of `.`, `p`, `d`, `f`, so the test is the same. -/
def toLower (s : String) : String := String.mk (s.data.map Char.toLower)

/-! ## Go standard library: `path/filepath` (slash-separated paths) -/

/-- Splits a path at every slash. -/
def pathElems (s : List Char) : List (List Char) := splitGo ['/'] s 0 []

/-- The element stack of `filepath.Clean`: `.` and empty elements vanish, `..`
removes the element before it, is dropped at the root and kept otherwise. -/
def cleanStack (rooted : Bool) : List (List Char) → List (List Char) → List (List Char)
  | [], stack => stack.reverse
  | e :: es, stack =>
    if e = [] ∨ e = ['.'] then cleanStack rooted es stack
    else if e = ['.', '.'] then
      match stack with
      | top :: below =>
        if top = ['.', '.'] then cleanStack rooted es (e :: stack)
        else cleanStack rooted es below
      | [] => if rooted then cleanStack rooted es [] else cleanStack rooted es [e]
    else cleanStack rooted es (e :: stack)

/-- Go `filepath.Clean`. -/
def filepathClean (path : String) : String :=
  let rooted := hasPrefixChars path.data ['/']
  let body := "/".intercalate ((cleanStack rooted (pathElems path.data) []).map String.mk)
  let out := (if rooted then "/" else "") ++ body
  if out = "" then "." else out

/-- Go `filepath.Join`: empty elements are ignored, the rest is joined by a
slash and cleaned; no non-empty element gives the empty string. -/
def filepathJoin (elems : List String) : String :=
  let nonEmpty := elems.filter (fun e => e ≠ "")
  if nonEmpty = [] then "" else filepathClean ("/".intercalate nonEmpty)

/-- Go `filepath.Base`: the last element of the path, after removing trailing
slashes; `.` for the empty path and `/` for a path of slashes only. -/
def filepathBase (path : String) : String :=
  if path = "" then "."
  else
    let stripped := (path.data.reverse.dropWhile (fun c => c == '/')).reverse
    let last := (stripped.reverse.takeWhile (fun c => c != '/')).reverse
    if last = [] then "/" else String.mk last

/-- Go `filepath.Ext`: the suffix of the last path element starting at its final
dot, empty when that element has no dot. -/
def filepathExt (path : String) : String :=
  let lastElem := path.data.reverse.takeWhile (fun c => c != '/')
  if lastElem.contains '.' then
    String.mk ('.' :: (lastElem.takeWhile (fun c => c != '.')).reverse)
  else ""

/-- Go `filepath.Dir`: everything up to the last slash, cleaned. -/
def filepathDir (path : String) : String :=
  filepathClean (String.mk (path.data.reverse.dropWhile (fun c => c != '/')).reverse)

/-! ## Data model (`github.com/jomei/notionapi`, as far as the sources read it) -/

/-- Type `notionapi.Link`. -/
structure Link where
  Url : String
  deriving DecidableEq, Repr

/-- Type `notionapi.Text`: the content of a run and its optional link target. -/
structure Text where
  Content : String
  Link : Option Link := none
  deriving DecidableEq, Repr

/-- Type `notionapi.Annotations`: the independent style flags of a run. -/
structure Annotations where
  Bold : Bool := false
  Italic : Bool := false
  Strikethrough : Bool := false
  Code : Bool := false
  deriving DecidableEq, Repr

/-- Type `notionapi.RichText`, one run of inline text.  `Type` is the run kind
(`"text"`, `"mention"`, `"equation"`); a run of any kind carries the content,
flags and link fields. -/
structure RichText where
  «Type» : String
  Text : Text
  Annotations : Annotations := {}
  deriving DecidableEq, Repr

/-- Constant `notionapi.ObjectTypeText`. -/
def ObjectTypeText : String := "text"

/-- Type `notionapi.FileObject`. -/
structure FileObject where
  URL : String
  deriving DecidableEq, Repr

/-- The shape shared by `notionapi.Image`, `notionapi.Video` and
`notionapi.BlockFile`: a caption, the variant tag (`"file"` or `"external"`) and
the two optional (pointer) parts. -/
structure MediaObject where
  Caption : List RichText := []
  «Type» : String
  File : Option FileObject := none
  External : Option FileObject := none
  deriving DecidableEq, Repr

/-- Method `notionapi.Image.GetURL`. -/
def MediaObject.GetURL (i : MediaObject) : String :=
  match i.File, i.External with
  | some f, _ => f.URL
  | none, some e => e.URL
  | none, none => ""

/-- Type `notionapi.Icon`; `Emoji` is a pointer in the source. -/
structure Icon where
  «Type» : String
  Emoji : Option String := none
  deriving DecidableEq, Repr

/-- The property values `notionapi.Properties` can hold, by dynamic type.
`other` stands for every property type the sources never assert (number, date,
people, url, ...). -/
inductive Property where
  | title (Title : List RichText)
  | richText (RichText : List RichText)
  | select (Name : String)
  | multiSelect (Names : List String)
  | status (Name : String)
  | checkbox (Checkbox : Bool)
  | other (kind : String)
  deriving DecidableEq, Repr

/-- A Go `map[string]Property`: a key is absent when it maps to `none`. -/
abbrev Properties := String → Option Property

/-- Deleting a key from a property map. -/
def Properties.erase (m : Properties) (key : String) : Properties :=
  fun k => if k = key then none else m k

/-- Type `notionapi.Page`, as far as it is read.  The two timestamps are carried
in their RFC 3339 rendering, the only form in which the sources use them;
`CreatedByName` is `page.CreatedBy.Name`. -/
structure Page where
  ID : String
  CreatedTime : String
  LastEditedTime : String
  CreatedByName : String := ""
  Cover : Option MediaObject := none
  Properties : Properties := fun _ => none

/-- A Go `map[string]string`, the category mapping of the configuration. -/
abbrev CategoryMap := String → Option String

/-- Type `converter.Config`, the fields the engine reads. -/
structure Config where
  CategoryMap : CategoryMap := fun _ => none
  StatusDraft : String := ""
  ImageMaxWidth : Int := 0
  ImageQuality : Int := 0
  ImageFormats : List String := []

/-! ## Metadata processor (`notion/metadata.go`) -/

/-- The `map[string]interface{}` built by `ProcessMetadata`: one optional field
per key the function can set (`none` = key absent). -/
structure Metadata where
  title : Option String := none
  date : Option String := none
  lastmod : Option String := none
  cover : Option String := none
  categories : Option (List String) := none
  category_dir : Option String := none
  tags : Option (List String) := none
  author : Option String := none
  draft : Option Bool := none
  description : Option String := none
  meta_title : Option String := none
  toc : Option Bool := none
  comments : Option Bool := none
  slug : Option String := none
  deriving DecidableEq, Repr

/-- Type `MetadataProcessor`: the copied configuration. -/
structure MetadataProcessor where
  CategoryMap : CategoryMap
  StatusDraft : String

/-- Function `NewMetadataProcessor`. -/
def NewMetadataProcessor (config : Config) : MetadataProcessor :=
  { CategoryMap := config.CategoryMap, StatusDraft := config.StatusDraft }

/-- The loop of `processRichText` (`metadata.go` 162-166): the content of every
text-kind run is appended to `parts`. -/
def processRichTextParts : List RichText → List String → List String
  | [], parts => parts
  | t :: rest, parts =>
    if t.Type = ObjectTypeText then processRichTextParts rest (parts ++ [t.Text.Content])
    else processRichTextParts rest parts

/-- Function `processRichText` of `metadata.go`, the plain-text extractor. -/
def processRichText (text : List RichText) : String :=
  join (processRichTextParts text []) ""

/-- The loop over a multi-select category property (`metadata.go` 84-93): each
name is looked up in turn, the original and the mapped names are collected, and
the first name without a mapping ends the function (`none`). -/
def mapCategories (m : CategoryMap) :
    List String → List String → List String → Option (List String × List String)
  | [], original, mapped => some (original, mapped)
  | cat :: rest, original, mapped =>
    match m cat with
    | some dir => mapCategories m rest (original ++ [cat]) (mapped ++ [dir])
    | none => none

/-- Category resolution of `ProcessMetadata` (`metadata.go` 63-94): `none` is the
early `return nil, nil`, `some (originalCategories, mappedCategories)` otherwise.
The single-select `Category` is consulted first and `Categories` only when
`Category` is not a select property. -/
def resolveCategories (p : MetadataProcessor) (page : Page) :
    Option (List String × List String) :=
  match page.Properties "Category" with
  | some (.select name) =>
    if name ≠ "" then
      match p.CategoryMap name with
      | some mapped => some ([name], [mapped])
      | none => none
    else some ([], [])
  | _ =>
    match page.Properties "Categories" with
    | some (.multiSelect names) => mapCategories p.CategoryMap names [] []
    | _ => some ([], [])

/-- Method `MetadataProcessor.processOptionalFields`. -/
def processOptionalFields (page : Page) (metadata : Metadata) : Metadata :=
  let metadata := match page.Properties "Toc" with
    | some (.checkbox b) => { metadata with toc := some b }
    | _ => metadata
  let metadata := match page.Properties "Comments" with
    | some (.checkbox b) => { metadata with comments := some b }
    | _ => metadata
  match page.Properties "Slug" with
  | some (.richText rt) =>
    if rt.length > 0 then { metadata with slug := some (processRichText rt) } else metadata
  | _ => metadata

/-- Step `metadata.go` 52-54: the title. -/
def setTitle (page : Page) (metadata : Metadata) : Metadata :=
  match page.Properties "Name" with
  | some (.title t) => { metadata with title := some (processRichText t) }
  | _ => metadata

/-- Step `metadata.go` 59-61: the cover image. -/
def setCover (page : Page) (metadata : Metadata) : Metadata :=
  match page.Cover with
  | some cover => { metadata with cover := some cover.GetURL }
  | none => metadata

/-- Step `metadata.go` 96-99: the category keys.  `mappedCategories[0]` exists
whenever `originalCategories` is non-empty, the two lists growing together. -/
def setCategories (originalCategories mappedCategories : List String) (metadata : Metadata) :
    Metadata :=
  if originalCategories.length > 0 then
    { metadata with categories := some originalCategories,
                    category_dir := mappedCategories.head? }
  else metadata

/-- Step `metadata.go` 102-110: the tags. -/
def setTags (page : Page) (metadata : Metadata) : Metadata :=
  match page.Properties "Tags" with
  | some (.multiSelect tags) =>
    if tags.length > 0 then { metadata with tags := some tags } else metadata
  | _ => metadata

/-- Step `metadata.go` 115-117: the draft flag. -/
def setDraft (p : MetadataProcessor) (page : Page) (metadata : Metadata) : Metadata :=
  match page.Properties "Status" with
  | some (.status name) => { metadata with draft := some (name == p.StatusDraft) }
  | _ => metadata

/-- Step `metadata.go` 120-125: the description. -/
def setDescription (page : Page) (metadata : Metadata) : Metadata :=
  match page.Properties "Description" with
  | some (.richText rt) =>
    let description := processRichText rt
    if description ≠ "" then { metadata with description := some description } else metadata
  | _ => metadata

/-- Step `metadata.go` 128-132: the meta title. -/
def setMetaTitle (page : Page) (metadata : Metadata) : Metadata :=
  match page.Properties "Meta Title" with
  | some (.richText rt) =>
    if rt.length > 0 then { metadata with meta_title := some (processRichText rt) }
    else metadata
  | _ => metadata

/-- Method `MetadataProcessor.ProcessMetadata`: the returned map (`none` is the
nil map) and the returned error.  The debug prints are not modelled. -/
def MetadataProcessor.ProcessMetadata (p : MetadataProcessor) (page : Page) :
    Option Metadata × Option String :=
  let metadata : Metadata := {}
  let metadata := setTitle page metadata
  let metadata := { metadata with date := some page.CreatedTime }
  let metadata := { metadata with lastmod := some page.LastEditedTime }
  let metadata := setCover page metadata
  match resolveCategories p page with
  | none => (none, none)
  | some (originalCategories, mappedCategories) =>
    let metadata := setCategories originalCategories mappedCategories metadata
    let metadata := setTags page metadata
    let metadata := { metadata with author := some page.CreatedByName }
    let metadata := setDraft p page metadata
    let metadata := setDescription page metadata
    let metadata := setMetaTitle page metadata
    (some (processOptionalFields page metadata), none)

/-! ## Media handlers (`media/local.go`, `media/s3.go`) -/

/-- What `http.Get` hands back, as far as it is read: the `Content-Type` header. -/
structure Response where
  contentType : String
  deriving DecidableEq, Repr

/-- The outside world of the media handlers.  Each oracle answers for the
argument it is called with; `none` from a file-system or upload oracle is
success, `some msg` the error. -/
structure MediaEnv where
  httpGet : String → Except String Response
  readAll : String → Option String := fun _ => none
  mkdirAll : String → Option String := fun _ => none
  create : String → Option String := fun _ => none
  copy : String → Option String := fun _ => none
  putObject : String → Option String := fun _ => none
  unixNano : Nat := 0

/-- Type `media.LocalHandler`. -/
structure LocalHandler where
  savePath : String
  urlPrefix : String
  category : String := ""
  article : String := ""
  deriving DecidableEq, Repr

/-- Function `NewLocalHandler`. -/
def NewLocalHandler (savePath urlPrefix : String) : LocalHandler :=
  { savePath := savePath, urlPrefix := urlPrefix }

/-- Method `LocalHandler.SetContext`. -/
def LocalHandler.SetContext (h : LocalHandler) (category article : String) : LocalHandler :=
  { h with category := category, article := article }

/-- The extension chosen from the declared content type (both handlers). -/
def extForContentType (contentType : String) : String :=
  if contentType = "image/jpeg" then ".jpg"
  else if contentType = "image/png" then ".png"
  else if contentType = "image/gif" then ".gif"
  else if contentType = "video/mp4" then ".mp4"
  else ".bin"

/-- The file name `LocalHandler.SaveMedia` derives (`local.go` 34, 44-59) from
the URL and the response. -/
def LocalHandler.filename (url : String) (resp : Response) : String :=
  let cleanURL := (split url "?").headD ""
  let filename := filepathBase cleanURL
  if filename = "" ∨ filepathExt filename = "" then
    "image-" ++ toString filename.utf8ByteSize ++ extForContentType resp.contentType
  else filename

/-- The path below `savePath` under which `LocalHandler.SaveMedia` stores the
file (`local.go` 62-65). -/
def LocalHandler.relativePath (h : LocalHandler) (filename : String) : String :=
  if h.category ≠ "" ∧ h.article ≠ "" then filepathJoin [h.category, h.article, filename]
  else filename

/-- The result of a save together with the path (or object key) the asset was
written under, when the save got as far as writing. -/
structure SaveOutcome where
  result : Except String String
  stored : Option String := none
  deriving DecidableEq

/-- Method `LocalHandler.SaveMedia`. -/
def LocalHandler.SaveMedia (env : MediaEnv) (h : LocalHandler) (url : String) : SaveOutcome :=
  match env.httpGet url with
  | .error e => { result := .error ("下载文件失败: " ++ e) }
  | .ok resp =>
    let filename := LocalHandler.filename url resp
    let relativePath := h.relativePath filename
    let fullPath := filepathJoin [h.savePath, relativePath]
    match env.mkdirAll (filepathDir fullPath) with
    | some e => { result := .error ("创建目录失败: " ++ e) }
    | none =>
      match env.create fullPath with
      | some e => { result := .error ("创建文件失败: " ++ e) }
      | none =>
        match env.copy fullPath with
        | some e => { result := .error ("保存文件失败: " ++ e), stored := some fullPath }
        | none =>
          { result := .ok (h.urlPrefix ++ "/" ++ replaceChar relativePath '\\' '/'),
            stored := some fullPath }

/-- Type `media.S3Handler` (the SDK client is the `putObject` oracle). -/
structure S3Handler where
  bucket : String
  pathPrefix : String
  urlPrefix : String
  deriving DecidableEq, Repr

/-- The file name `S3Handler.SaveMedia` derives (`s3.go` 55-69). -/
def S3Handler.filename (env : MediaEnv) (url : String) (resp : Response) : String :=
  let filename := filepathBase url
  if filename = "" ∨ ¬ contains filename "." then
    toString env.unixNano ++ extForContentType resp.contentType
  else filename

/-- Method `S3Handler.SaveMedia`. -/
def S3Handler.SaveMedia (env : MediaEnv) (h : S3Handler) (url : String) : SaveOutcome :=
  match env.httpGet url with
  | .error e => { result := .error ("下载文件失败: " ++ e) }
  | .ok resp =>
    match env.readAll url with
    | some e => { result := .error ("读取内容失败: " ++ e) }
    | none =>
      let filename := S3Handler.filename env url resp
      let s3Path := filepathJoin [h.pathPrefix, filename]
      let s3Path := if ¬ hasPrefix s3Path "/" then "/" ++ s3Path else s3Path
      match env.putObject s3Path with
      | some e => { result := .error ("上传到 S3 失败: " ++ e) }
      | none => { result := .ok (h.urlPrefix ++ "/" ++ filename), stored := some s3Path }

/-- A value of the interface `converter.MediaHandler`: one of the two handlers
of the repository, or any other implementation, given by its `SaveMedia`. -/
inductive MediaHandler where
  | localHandler (h : LocalHandler)
  | s3Handler (h : S3Handler)
  | custom (save : String → Except String String)

/-- Interface method `MediaHandler.SaveMedia`, by dynamic type. -/
def MediaHandler.SaveMedia (env : MediaEnv) : MediaHandler → String → Except String String
  | .localHandler h, url => (h.SaveMedia env url).result
  | .s3Handler h, url => (h.SaveMedia env url).result
  | .custom save, url => save url

/-- Methods `LocalHandler.SupportedTypes` and `S3Handler.SupportedTypes`. -/
def SupportedTypes : List String :=
  ["image/jpeg", "image/png", "image/gif", "image/webp", "video/mp4", "video/webm",
   "audio/mpeg", "audio/wav", "application/pdf"]

/-! ## Block renderer (`notion/blocks.go`) -/

/-- A value of the interface `notionapi.Block`, by dynamic type, with the fields
the sources read or fill.  `Other` is every block type outside the list. -/
inductive Block where
  | Heading1 (RichText : List RichText)
  | Heading2 (RichText : List RichText)
  | Heading3 (RichText : List RichText)
  | Paragraph (RichText : List RichText) (Children : List Block)
  | BulletedListItem (RichText : List RichText) (Children : List Block)
  | NumberedListItem (RichText : List RichText) (Children : List Block)
  | ToDo (RichText : List RichText) (Checked : Bool) (Children : List Block)
  | Toggle (RichText : List RichText) (Children : List Block)
  | Quote (RichText : List RichText) (Children : List Block)
  | Code (RichText : List RichText) (Language : String)
  | Callout (RichText : List RichText) (Icon : Option Icon) (Children : List Block)
  | Image (Image : MediaObject)
  | Video (Video : MediaObject)
  | File (File : MediaObject)
  | Bookmark (URL : String) (Caption : List RichText)
  | Equation (Expression : String)
  | Divider
  | Table (Children : List Block)
  | TableRow (Cells : List (List RichText))
  | ColumnList (Children : List Block)
  | Column (Children : List Block)
  | Other (kind : String)

/-- How a call ends when it does not return `nil`: with a Go `error`, or with a
run-time panic. -/
inductive Fault where
  | error (msg : String)
  | panic (msg : String)
  deriving DecidableEq, Repr

/-- The panic of reading a field through a nil pointer. -/
def nilDereference : Fault :=
  .panic "runtime error: invalid memory address or nil pointer dereference"

/-- The panic of a failed single-value type assertion. -/
def interfaceConversion : Fault :=
  .panic "interface conversion: notionapi.Block is not *notionapi.TableRowBlock"

/-- What a rendering has done so far: the text in the buffer, and the URLs passed
to the media handler's `SaveMedia`, in call order. -/
structure RenderState where
  out : String := ""
  saved : List String := []
  deriving DecidableEq, Repr

/-- Appending to the buffer (`fmt.Fprintf`, `fmt.Fprint`, `fmt.Fprintln`). -/
def RenderState.write (st : RenderState) (text : String) : RenderState :=
  { st with out := st.out ++ text }

/-- The state after a call, and how the call ended (`none` is a `nil` error). -/
abbrev Step := RenderState × Option Fault

/-- Type `BlockProcessor`. -/
structure BlockProcessor where
  mediaHandler : Option MediaHandler
  codeStyle : String
  UseShortcodes : Bool
  ImageMaxWidth : Int
  ImageQuality : Int
  ImageFormats : List String

/-- Function `NewBlockProcessor`. -/
def NewBlockProcessor (mediaHandler : Option MediaHandler) (config : Config) : BlockProcessor :=
  { mediaHandler := mediaHandler
    codeStyle := "github"
    UseShortcodes := true
    ImageMaxWidth := config.ImageMaxWidth
    ImageQuality := config.ImageQuality
    ImageFormats := config.ImageFormats }

/-- Method `BlockProcessor.GetMediaHandler`. -/
def BlockProcessor.GetMediaHandler (p : BlockProcessor) : Option MediaHandler := p.mediaHandler

namespace BlockProcessor

/-- The body of the loop of `processRichText` (`blocks.go` 118-137): the fragment
one run adds to the buffer. -/
def formatRun (t : RichText) : String :=
  if t.Type = ObjectTypeText then
    let content := t.Text.Content
    let content := if t.Annotations.Bold then "**" ++ content ++ "**" else content
    let content := if t.Annotations.Italic then "*" ++ content ++ "*" else content
    let content := if t.Annotations.Strikethrough then "~~" ++ content ++ "~~" else content
    let content := if t.Annotations.Code then "`" ++ content ++ "`" else content
    match t.Text.Link with
    | some link => "[" ++ content ++ "](" ++ link.Url ++ ")"
    | none => content
  else ""

/-- The loop of `processRichText`, writing into `buf`. -/
def processRichTextInto : List RichText → String → String
  | [], buf => buf
  | t :: rest, buf => processRichTextInto rest (buf ++ formatRun t)

/-- Method `BlockProcessor.processRichText`. -/
def processRichText (text : List RichText) : String := processRichTextInto text ""

/-- Method `processHeading`. -/
def processHeading (text : List RichText) (level : Nat) (st : RenderState) : Step :=
  (st.write (strRepeat "#" level ++ " " ++ processRichText text ++ "\n\n"), none)

/-- Method `processParagraph`. -/
def processParagraph (rt : List RichText) (st : RenderState) : Step :=
  let text := processRichText rt
  if text = "" then (st.write "\n", none)
  else (st.write (text ++ "\n\n"), none)

/-- Method `processTodo`. -/
def processTodo (rt : List RichText) (checked : Bool) (st : RenderState) : Step :=
  let text := processRichText rt
  let checkbox := if checked then "[x]" else "[ ]"
  (st.write ("- " ++ checkbox ++ " " ++ text ++ "\n"), none)

/-- The loop of `processQuote` over the lines. -/
def writeQuoteLines : List String → RenderState → RenderState
  | [], st => st
  | line :: rest, st => writeQuoteLines rest (st.write ("> " ++ line ++ "\n"))

/-- Method `processQuote`. -/
def processQuote (rt : List RichText) (st : RenderState) : Step :=
  let text := processRichText rt
  let lines := split text "\n"
  (writeQuoteLines lines st, none)

/-- Method `processCode`. -/
def processCode (rt : List RichText) (language : String) (st : RenderState) : Step :=
  let code := processRichText rt
  let language := if language = "plain text" then "" else language
  (st.write ("```" ++ language ++ "\n" ++ code ++ "\n```\n\n"), none)

/-- The icon chosen by `processCallout` (`blocks.go` 238-250). -/
def calloutIcon (icon : Option Icon) : String :=
  match icon with
  | none => "💡"
  | some i =>
    if i.Type = "emoji" then
      match i.Emoji with
      | some e => e
      | none => "💡"
    else if i.Type = "external" then "🔗"
    else if i.Type = "file" then "📎"
    else "💡"

/-- Method `processCallout`. -/
def processCallout (rt : List RichText) (icon : Option Icon) (st : RenderState) : Step :=
  let text := processRichText rt
  (st.write ("> " ++ calloutIcon icon ++ " " ++ text ++ "\n\n"), none)

/-- The source URL of an image or video block (`blocks.go` 261-264, 280-283):
the hosted-file part is read first, whatever the variant, and the external part
when the variant is `"external"`; reading through an absent part panics. -/
def mediaURL (m : MediaObject) : Except Fault String :=
  match m.File with
  | none => .error nilDereference
  | some f =>
    if m.Type = "external" then
      match m.External with
      | none => .error nilDereference
      | some e => .ok e.URL
    else .ok f.URL

/-- Method `processImage`. -/
def processImage (env : MediaEnv) (p : BlockProcessor) (img : MediaObject)
    (st : RenderState) : Step :=
  let caption := processRichText img.Caption
  let caption := if caption = "" then "image" else caption
  match mediaURL img with
  | .error f => (st, some f)
  | .ok url =>
    match p.mediaHandler with
    | some handler =>
      let st := { st with saved := st.saved ++ [url] }
      match handler.SaveMedia env url with
      | .error e => (st, some (.error ("处理图片失败: " ++ e)))
      | .ok newURL => (st.write ("![" ++ caption ++ "](" ++ newURL ++ ")\n\n"), none)
    | none => (st.write ("![" ++ caption ++ "](" ++ url ++ ")\n\n"), none)

/-- Function `extractYouTubeID`. -/
def extractYouTubeID (url : String) : String :=
  let viaShort : Option String :=
    if contains url "youtu.be/" then
      match split url "youtu.be/" with
      | [_, rest] => some ((split rest "?").headD "")
      | _ => none
    else none
  match viaShort with
  | some id => id
  | none =>
    if contains url "watch?v=" then
      match split url "watch?v=" with
      | [_, rest] => (split rest "&").headD ""
      | _ => url
    else url

/-- Method `processVideo`. -/
def processVideo (video : MediaObject) (st : RenderState) : Step :=
  match mediaURL video with
  | .error f => (st, some f)
  | .ok url =>
    if contains url "youtube.com" ∨ contains url "youtu.be" then
      (st.write ("\x7b\x7b< youtube " ++ extractYouTubeID url ++ " >\x7d\x7d\n\n"), none)
    else
      (st.write ("<video controls src=\"" ++ url ++ "\"></video>\n\n"), none)

/-- The URL `processFile` resolves (`blocks.go` 300-307); the file name is
`filepath.Base` of it.  Neither variant leaves the URL empty. -/
def fileURL (f : MediaObject) : Except Fault String :=
  if f.Type = "external" then
    match f.External with
    | none => .error nilDereference
    | some e => .ok e.URL
  else if f.Type = "file" then
    match f.File with
    | none => .error nilDereference
    | some h => .ok h.URL
  else .ok ""

/-- Method `processFile`. -/
def processFile (p : BlockProcessor) (file : MediaObject) (st : RenderState) : Step :=
  match fileURL file with
  | .error f => (st, some f)
  | .ok url =>
    let filename := if file.Type = "external" ∨ file.Type = "file" then filepathBase url else ""
    if url = "" then (st, none)
    else if hasSuffix (toLower filename) ".pdf" then
      if p.UseShortcodes then
        (st.write ("\x7b\x7b< pdf src=\"" ++ url ++ "\" >\x7d\x7d\n\n"), none)
      else
        (st.write ("<embed src=\"" ++ url ++
          "\" type=\"application/pdf\" width=\"100%\" height=\"600px\">\n\n"), none)
    else (st.write ("[" ++ filename ++ "](" ++ url ++ ")\n\n"), none)

/-- Method `processBookmark`. -/
def processBookmark (url : String) (caption : List RichText) (st : RenderState) : Step :=
  let title := if caption.length > 0 then processRichText caption else url
  (st.write ("[" ++ title ++ "](" ++ url ++ ")\n\n"), none)

/-- Method `processEquation`. -/
def processEquation (expression : String) (st : RenderState) : Step :=
  (st.write ("$$\n" ++ expression ++ "\n$$\n\n"), none)

/-- The cell loop of `processTable` (`blocks.go` 349-354, 369-374), from index `i`. -/
def writeCells : List (List RichText) → Nat → RenderState → RenderState
  | [], _, st => st
  | cell :: rest, i, st =>
    let st := if i > 0 then st.write " | " else st
    writeCells rest (i + 1) (st.write (processRichText cell))

/-- The separator loop of `processTable` (`blocks.go` 358-363): `n` columns from
index `i`. -/
def writeSeparator : Nat → Nat → RenderState → RenderState
  | 0, _, st => st
  | n + 1, i, st =>
    let st := if i > 0 then st.write " | " else st
    writeSeparator n (i + 1) (st.write "---")

/-- The data-row loop of `processTable` (`blocks.go` 367-376): a child that is
not a table row makes the type assertion panic. -/
def writeRows : List Block → RenderState → Step
  | [], st => (st, none)
  | .TableRow cells :: rest, st => writeRows rest ((writeCells cells 0 st).write "\n")
  | _ :: _, st => (st, some interfaceConversion)

/-- Method `processTable`. -/
def processTable (children : List Block) (st : RenderState) : Step :=
  match children with
  | [] => (st, none)
  | .TableRow cells :: rest =>
    let st := (writeCells cells 0 st).write "\n"
    let st := (writeSeparator cells.length 0 st).write "\n"
    match writeRows rest st with
    | (st, none) => (st.write "\n", none)
    | (st, some f) => (st, some f)
  | _ :: _ => (st, some interfaceConversion)

mutual

/-- Method `ProcessBlock`: the type switch of `blocks.go` 55-96, with the
recursive methods `processBulletList`, `processNumberedList`, `processToggle`
and `processColumns` in place. -/
def ProcessBlock (env : MediaEnv) (p : BlockProcessor) : Block → RenderState → Step
  | .Heading1 rt, st => processHeading rt 1 st
  | .Heading2 rt, st => processHeading rt 2 st
  | .Heading3 rt, st => processHeading rt 3 st
  | .Paragraph rt _, st => processParagraph rt st
  | .BulletedListItem rt children, st =>
    processIndented env p "  " children (st.write ("- " ++ processRichText rt ++ "\n"))
  | .NumberedListItem rt children, st =>
    processIndented env p "   " children (st.write ("1. " ++ processRichText rt ++ "\n"))
  | .ToDo rt checked _, st => processTodo rt checked st
  | .Toggle rt children, st =>
    match processEach env p children
        (st.write ("<details>\n<summary>" ++ processRichText rt ++ "</summary>\n\n")) with
    | (st, none) => (st.write "</details>\n", none)
    | (st, some f) => (st, some f)
  | .Quote rt _, st => processQuote rt st
  | .Code rt language, st => processCode rt language st
  | .Callout rt icon _, st => processCallout rt icon st
  | .Image img, st => processImage env p img st
  | .Video video, st => processVideo video st
  | .File file, st => processFile p file st
  | .Bookmark url caption, st => processBookmark url caption st
  | .Equation expression, st => processEquation expression st
  | .Divider, st => (st.write "---\n", none)
  | .Table children, st => processTable children st
  | .ColumnList children, st =>
    match processColumnBlocks env p children (st.write "<div class=\"row\">\n") with
    | (st, none) => (st.write "</div>\n", none)
    | (st, some f) => (st, some f)
  | .TableRow _, st => (st, none)
  | .Column _, st => (st, none)
  | .Other _, st => (st, none)

/-- The child loop of `processBulletList` and `processNumberedList`
(`blocks.go` 151-159, 173-181): the indent is written, then the child rendered;
the first failure ends the loop. -/
def processIndented (env : MediaEnv) (p : BlockProcessor) (indent : String) :
    List Block → RenderState → Step
  | [], st => (st, none)
  | child :: rest, st =>
    match ProcessBlock env p child (st.write indent) with
    | (st, none) => processIndented env p indent rest st
    | (st, some f) => (st, some f)

/-- The child loop of `processToggle` and of one column (`blocks.go` 204-208,
398-402). -/
def processEach (env : MediaEnv) (p : BlockProcessor) : List Block → RenderState → Step
  | [], st => (st, none)
  | child :: rest, st =>
    match ProcessBlock env p child st with
    | (st, none) => processEach env p rest st
    | (st, some f) => (st, some f)

/-- The column loop of `processColumns` (`blocks.go` 387-408): a child that is
not a column block is passed over. -/
def processColumnBlocks (env : MediaEnv) (p : BlockProcessor) : List Block → RenderState → Step
  | [], st => (st, none)
  | .Column children :: rest, st =>
    match processEach env p children (st.write "<div class=\"col\">\n") with
    | (st, none) => processColumnBlocks env p rest (st.write "</div>\n")
    | (st, some f) => (st, some f)
  | _ :: rest, st => processColumnBlocks env p rest st

end

end BlockProcessor

/-! ## Document assembler (`hugo/converter.go`) -/

/-- The outside world of `Convert`: that of the media handlers, the
transliteration `pinyin.LazyPinyin` (with the arguments of `generateFilename`),
and the template engine (`none` is success). -/
structure HostEnv extends MediaEnv where
  lazyPinyin : String → List String
  parseFiles : String → Option String := fun _ => none
  execute : String → Option String := fun _ => none

/-- Type `HugoConverter`. -/
structure HugoConverter where
  outputPath : String
  templatePath : String
  blockProcessor : BlockProcessor
  metaProcessor : MetadataProcessor

/-- The characters the regular expression of `generateFilename` leaves alone. -/
def isSlugChar (c : Char) : Bool :=
  ('a' ≤ c && c ≤ 'z') || ('0' ≤ c && c ≤ '9') || c == '-'

/-- Go `reg.ReplaceAllString(filename, "-")` for the regular expression
`[^a-z0-9-]+`: every maximal run of other characters becomes one hyphen
(`inRun` says the previous character belonged to such a run). -/
def replaceOutside : List Char → Bool → List Char
  | [], _ => []
  | c :: cs, inRun =>
    if isSlugChar c then c :: replaceOutside cs false
    else if inRun then replaceOutside cs true
    else '-' :: replaceOutside cs true

/-- Method `HugoConverter.generateFilename`; `metadata` may be the nil map. -/
def generateFilename (env : HostEnv) (page : Page) (metadata : Option Metadata) : String :=
  match metadata.bind (fun m => m.title) with
  | none => page.ID ++ ".md"
  | some title =>
    if title = "" then page.ID ++ ".md"
    else
      let pys := env.lazyPinyin title
      let filename := join pys "-"
      let filename := replaceOutside filename.data false
      let filename := String.mk (trimChar filename '-')
      let filename := if filename = "" then page.ID else filename
      filename ++ ".md"

/-- The flat field map handed to the template (`converter.go` 73-109). -/
structure TemplateData where
  Title : String
  MetaTitle : String
  Description : String
  Date : String
  Image : String
  Author : String
  Draft : Bool
  Weight : Int
  Content : String
  Toc : Bool
  Comments : Bool
  Slug : String
  Lastmod : String
  Tags : String
  Categories : String
  deriving DecidableEq, Repr

/-- The bracketed list of quoted strings built for tags and categories. -/
def quotedList (items : Option (List String)) : String :=
  match items with
  | some (x :: xs) => "[" ++ join ((x :: xs).map (fun t => "\"" ++ t ++ "\"")) ", " ++ "]"
  | _ => "[]"

/-- The field map of `Convert`; a key missing from `metadata` (always so for the
nil map, and for `weight`, which `ProcessMetadata` never sets) takes its default. -/
def templateData (metadata : Option Metadata) (content : String) : TemplateData :=
  let field {α : Type} (get : Metadata → Option α) (dflt : α) : α :=
    (metadata.bind get).getD dflt
  { Title := field (fun m => m.title) ""
    MetaTitle := field (fun m => m.meta_title) ""
    Description := field (fun m => m.description) ""
    Date := field (fun m => m.date) ""
    Image := field (fun m => m.cover) ""
    Author := field (fun m => m.author) ""
    Draft := field (fun m => m.draft) false
    Weight := 0
    Content := content
    Toc := field (fun m => m.toc) false
    Comments := field (fun m => m.comments) false
    Slug := field (fun m => m.slug) ""
    Lastmod := field (fun m => m.lastmod) ""
    Tags := quotedList (metadata.bind (fun m => m.tags))
    Categories := quotedList (metadata.bind (fun m => m.categories)) }

/-- Everything a call of `Convert` does: how it ends (`none` is a `nil` error,
i.e. success), the `SetContext` call it made on the local media handler, what
the renderer did, and the document written (path, field map). -/
structure ConvertOutcome where
  err : Option Fault
  context : Option (String × String) := none
  render : RenderState := {}
  written : Option (String × TemplateData) := none
  deriving DecidableEq, Repr

/-- The sentinel `ErrSkipPage` of `main.go`, which `processPage` and `main`
compare the error of `Convert` against. -/
def ErrSkipPage : Fault := .error "跳过文章"

/-- The category directory `Convert` chooses (`converter.go` 42-47). -/
def categoryDir (metadata : Option Metadata) : String :=
  match metadata.bind (fun m => m.category_dir) with
  | some dir => dir
  | none =>
    match metadata.bind (fun m => m.categories) with
    | some (first :: _) => first
    | _ => "uncategorized"

/-- The block processor after `converter.go` 52-56: a local media handler gets
the page's context, any other handler (or none) is left alone. -/
def bindContext (bp : BlockProcessor) (category articleDir : String) :
    BlockProcessor × Option (String × String) :=
  match bp.GetMediaHandler with
  | some (.localHandler lh) =>
    ({ bp with mediaHandler := some (.localHandler (lh.SetContext category articleDir)) },
      some (category, articleDir))
  | _ => (bp, none)

/-- Method `HugoConverter.Convert`. -/
def HugoConverter.Convert (env : HostEnv) (h : HugoConverter) (page : Page)
    (blocks : List Block) : ConvertOutcome :=
  match h.metaProcessor.ProcessMetadata page with
  | (_, some err) => { err := some (.error ("处理元数据失败: " ++ err)) }
  | (metadata, none) =>
    let category := categoryDir metadata
    let articleDir := trimSuffix (generateFilename env page metadata) ".md"
    let (bp, context) := bindContext h.blockProcessor category articleDir
    match BlockProcessor.processEach env.toMediaEnv bp blocks {} with
    | (st, some (.error e)) =>
      { err := some (.error ("处理块失败: " ++ e)), context := context, render := st }
    | (st, some (.panic e)) =>
      { err := some (.panic e), context := context, render := st }
    | (content, none) =>
      match env.parseFiles h.templatePath with
      | some e =>
        { err := some (.error ("解析模板失败: " ++ e)), context := context, render := content }
      | none =>
        let data := templateData metadata content.out
        let filename := generateFilename env page metadata
        let outputFile := filepathJoin [h.outputPath, category, filename]
        match env.mkdirAll (filepathDir outputFile) with
        | some e =>
          { err := some (.error ("创建目录失败: " ++ e)), context := context, render := content }
        | none =>
          match env.create outputFile with
          | some e =>
            { err := some (.error ("创建文件失败: " ++ e)), context := context, render := content }
          | none =>
            match env.execute outputFile with
            | some e =>
              { err := some (.error ("渲染模板失败: " ++ e)), context := context,
                render := content, written := some (outputFile, data) }
            | none =>
              { err := none, context := context, render := content,
                written := some (outputFile, data) }

/-! ## Examples -/

/-- A page with nothing but an identifier and timestamps. -/
def blankPage : Page :=
  { ID := "p1", CreatedTime := "2024-01-01T00:00:00Z", LastEditedTime := "2024-01-02T00:00:00Z" }

/-- A plain text run. -/
def plain (content : String) : RichText := { «Type» := "text", Text := { Content := content } }

/-- The example category mapping: `Tech` goes to `tech`, nothing else is mapped. -/
def techOnly : MetadataProcessor :=
  NewMetadataProcessor { CategoryMap := fun k => if k = "Tech" then some "tech" else none }

/-- The example page with the multi-select `Categories = ["Tech", "Life"]`. -/
def techLifePage : Page :=
  { blankPage with
    Properties := fun k => if k = "Categories" then some (.multiSelect ["Tech", "Life"]) else none }

/-! ## Notions used to state the properties -/

/-- The category names on the page's category property, as `ProcessMetadata`
reads it: the name of the single-select `Category` unless it is empty, and,
when `Category` is not a single-select property, the entries of the
multi-select `Categories`. -/
def categoryNames (page : Page) : List String :=
  match page.Properties "Category" with
  | some (.select name) => if name = "" then [] else [name]
  | _ =>
    match page.Properties "Categories" with
    | some (.multiSelect names) => names
    | _ => []

/-- The dynamic types of property values. -/
inductive PropertyKind where
  | title | richText | select | multiSelect | status | checkbox | other
  deriving DecidableEq, Repr

/-- The dynamic type of a property value. -/
def Property.kind : Property → PropertyKind
  | .title _ => .title
  | .richText _ => .richText
  | .select _ => .select
  | .multiSelect _ => .multiSelect
  | .status _ => .status
  | .checkbox _ => .checkbox
  | .other _ => .other

/-- The type `ProcessMetadata` and `processOptionalFields` assert for each
property name they read; `none` for a name they never read. -/
def expectedKind (key : String) : Option PropertyKind :=
  if key = "Name" then some .title
  else if key = "Category" then some .select
  else if key = "Categories" then some .multiSelect
  else if key = "Tags" then some .multiSelect
  else if key = "Status" then some .status
  else if key = "Description" then some .richText
  else if key = "Meta Title" then some .richText
  else if key = "Toc" then some .checkbox
  else if key = "Comments" then some .checkbox
  else if key = "Slug" then some .richText
  else none

/-- The page without the property `key`. -/
def Page.eraseProperty (page : Page) (key : String) : Page :=
  { page with Properties := page.Properties.erase key }

/-- The example category mapping with entries for `Tech` and `Life`. -/
def techLife : MetadataProcessor :=
  NewMetadataProcessor
    { CategoryMap := fun k =>
        if k = "Tech" then some "tech" else if k = "Life" then some "life" else none }

/-- The record `ProcessMetadata` returns for `techLifePage` under `techLife`. -/
def techLifeRecord : Metadata :=
  { date := some "2024-01-01T00:00:00Z", lastmod := some "2024-01-02T00:00:00Z",
    categories := some ["Tech", "Life"], category_dir := some "tech", author := some "" }

/-- An example page whose `Tags` property is a checkbox, not a multi-select. -/
def mistypedTagsPage : Page :=
  { blankPage with
    Properties := fun k =>
      if k = "Tags" then some (.checkbox true)
      else if k = "Name" then some (.title [plain "Hello"]) else none }

/-- Concatenation of a list of strings, in order. -/
def concat : List String → String
  | [] => ""
  | s :: rest => s ++ concat rest

/-- A run is of the recognised text kind. -/
def RichText.isText (t : RichText) : Bool := t.Type = ObjectTypeText

/-- A run has no style flag and no link set. -/
def RichText.isPlain (t : RichText) : Bool :=
  !t.Annotations.Bold && !t.Annotations.Italic && !t.Annotations.Strikethrough &&
    !t.Annotations.Code && t.Text.Link.isNone

/-- The contents of the runs, concatenated in order. -/
def concatContents (runs : List RichText) : String :=
  concat (runs.map (fun t => t.Text.Content))

/-- An example run of a kind other than text, with content and without style. -/
def mentionRun : RichText := { «Type» := "mention", Text := { Content := "@ann" } }

/-- Wrapping `x` between `l` and `r` when `flag` is set, the identity otherwise. -/
def wrapIf (flag : Bool) (l r x : String) : String := if flag then l ++ x ++ r else x

/-- Wrap `B` of the specification: bold. -/
def specB (a : Annotations) (x : String) : String := wrapIf a.Bold "**" "**" x

/-- Wrap `I` of the specification: italic. -/
def specI (a : Annotations) (x : String) : String := wrapIf a.Italic "*" "*" x

/-- Wrap `S` of the specification: strikethrough. -/
def specS (a : Annotations) (x : String) : String := wrapIf a.Strikethrough "~~" "~~" x

/-- Wrap `C` of the specification: inline code. -/
def specC (a : Annotations) (x : String) : String := wrapIf a.Code "`" "`" x

/-- Wrap `L` of the specification: the link. -/
def specL (link : Option Link) (x : String) : String :=
  match link with
  | some u => "[" ++ x ++ "](" ++ u.Url ++ ")"
  | none => x

/-- The fragment of a text run according to the specification, `L(C(S(I(B(c)))))`. -/
def formatSpec (t : RichText) : String :=
  specL t.Text.Link (specC t.Annotations (specS t.Annotations (specI t.Annotations
    (specB t.Annotations t.Text.Content))))

/-- What a run's flags and link put in front of its content. -/
def opening (a : Annotations) (link : Option Link) : String :=
  (if link.isSome then "[" else "") ++ (if a.Code then "`" else "") ++
    (if a.Strikethrough then "~~" else "") ++ (if a.Italic then "*" else "") ++
    (if a.Bold then "**" else "")

/-- What a run's flags and link put behind its content. -/
def closing (a : Annotations) (link : Option Link) : String :=
  (if a.Bold then "**" else "") ++ (if a.Italic then "*" else "") ++
    (if a.Strikethrough then "~~" else "") ++ (if a.Code then "`" else "") ++
    (match link with
     | some u => "](" ++ u.Url ++ ")"
     | none => "")

/-- The text run with all four style flags and a link. -/
def fullyStyled (c u : String) : RichText :=
  { «Type» := ObjectTypeText, Text := { Content := c, Link := some { Url := u } },
    Annotations := { Bold := true, Italic := true, Strikethrough := true, Code := true } }

/-- The child blocks a block carries. -/
def Block.children : Block → List Block
  | .Paragraph _ cs => cs
  | .BulletedListItem _ cs => cs
  | .NumberedListItem _ cs => cs
  | .ToDo _ _ cs => cs
  | .Toggle _ cs => cs
  | .Quote _ cs => cs
  | .Callout _ _ cs => cs
  | .Table cs => cs
  | .ColumnList cs => cs
  | .Column cs => cs
  | _ => []

mutual

/-- The tree below the block, the block included, has no image, video or file
node. -/
def Block.noMedia : Block → Bool
  | .Image _ => false
  | .Video _ => false
  | .File _ => false
  | .Paragraph _ cs => noMediaAll cs
  | .BulletedListItem _ cs => noMediaAll cs
  | .NumberedListItem _ cs => noMediaAll cs
  | .ToDo _ _ cs => noMediaAll cs
  | .Toggle _ cs => noMediaAll cs
  | .Quote _ cs => noMediaAll cs
  | .Callout _ _ cs => noMediaAll cs
  | .Table cs => noMediaAll cs
  | .ColumnList cs => noMediaAll cs
  | .Column cs => noMediaAll cs
  | .Heading1 _ => true
  | .Heading2 _ => true
  | .Heading3 _ => true
  | .Code _ _ => true
  | .Bookmark _ _ => true
  | .Equation _ => true
  | .Divider => true
  | .TableRow _ => true
  | .Other _ => true

/-- No tree of the list has an image, video or file node. -/
def noMediaAll : List Block → Bool
  | [] => true
  | b :: rest => b.noMedia && noMediaAll rest

end

/-- The state `st` followed by what the run recorded in `r` has done. -/
def RenderState.after (st r : RenderState) : RenderState :=
  { out := st.out ++ r.out, saved := st.saved ++ r.saved }

/-- The step `s`, taken from `st` instead of from the empty state. -/
def Step.from (st : RenderState) (s : Step) : Step := (st.after s.1, s.2)

/-- The full rendering of a block: the text `ProcessBlock` writes for it into an
empty buffer. -/
def rendering (env : MediaEnv) (p : BlockProcessor) (b : Block) : String :=
  (BlockProcessor.ProcessBlock env p b {}).1.out

/-- A media environment without network. -/
def offline : MediaEnv := { httpGet := fun _ => .error "no network" }

/-- The processor of `NewBlockProcessor` without media handler. -/
def noHandler : BlockProcessor := NewBlockProcessor none {}

/-- Go's `if err != nil { return err }`: the step `k` is taken when `s` ended
with a nil error, and the failure of `s` is the outcome otherwise. -/
def Step.andThen (s : Step) (k : RenderState → Step) : Step :=
  match s with
  | (st, none) => k st
  | (st, some f) => (st, some f)

/-- A rendering function only appends: run from `st`, it does what it does from
the empty state, after `st`. -/
def Framed (T : RenderState → Step) : Prop := ∀ st, T st = Step.from st (T {})

/-- Two rendering functions agree in every state, and make no call of
`SaveMedia`. -/
def Agree (T₁ T₂ : RenderState → Step) : Prop :=
  ∀ st, T₁ st = T₂ st ∧ (T₁ st).1.saved = st.saved

/-- An example tree without media: a toggle with one paragraph. -/
def toggleExample : Block := .Toggle [plain "More"] [.Paragraph [plain "Hi"] []]

/-- An example media handler whose every save fails. -/
def failingHandler : MediaHandler := .custom (fun _ => .error "unavailable")

/-- An example list item with a two-line paragraph and a nested item as children. -/
def bulletExample : Block :=
  .BulletedListItem [plain "a"]
    [.Paragraph [plain "x\ny"] [], .BulletedListItem [plain "b"] [.BulletedListItem [plain "c"] []]]

/-- An example host without network, whose transliteration returns nothing. -/
def offlineHost : HostEnv :=
  { httpGet := fun _ => .error "no network", lazyPinyin := fun _ => [] }

/-- An example converter: local media handler, category mapping `techOnly`. -/
def exampleConverter : HugoConverter :=
  { outputPath := "content"
    templatePath := "archetype.md"
    blockProcessor := NewBlockProcessor (some (.localHandler (NewLocalHandler "static" "/media"))) {}
    metaProcessor := techOnly }

/-- The children of `bulletExample`. -/
def bulletChildren : List Block :=
  [.Paragraph [plain "x\ny"] [], .BulletedListItem [plain "b"] [.BulletedListItem [plain "c"] []]]

/-- The field map `Convert` hands to the template for `techLifePage` with the one
paragraph `Hi`, under `exampleConverter`. -/
def unmappedPageData : TemplateData :=
  { Title := "", MetaTitle := "", Description := "", Date := "", Image := "", Author := "",
    Draft := false, Weight := 0, Content := "Hi\n\n", Toc := false, Comments := false,
    Slug := "", Lastmod := "", Tags := "[]", Categories := "[]" }

/-- The caption `processImage` emits: the formatted caption runs, or the literal
`image` when that is empty. -/
def imageCaption (img : MediaObject) : String :=
  if BlockProcessor.processRichText img.Caption = "" then "image"
  else BlockProcessor.processRichText img.Caption

/-- The URL the configured media handler returns for the source URL, or the
source URL itself when no handler is configured; `.error` when the save fails. -/
def externalized (env : MediaEnv) (p : BlockProcessor) (url : String) : Except String String :=
  match p.mediaHandler with
  | some handler => handler.SaveMedia env url
  | none => .ok url

/-- An example media handler returning a fixed URL. -/
def cdnHandler : MediaHandler := .custom (fun _ => .ok "https://cdn/x.png")

/-- An example hosted image without caption. -/
def hostedImage : MediaObject :=
  { «Type» := "file", File := some { URL := "https://files.example/a/x.png" } }

/-- What the specification lets a file block emit, for short-code mode
`shortcodes`, variant tag `variant` and resolved URL `u`, with `f` the last path
segment of `u`. -/
def fileOutputSpec (shortcodes : Bool) (variant u : String) : String :=
  let f := filepathBase u
  if u = "" ∨ (variant ≠ "external" ∧ variant ≠ "file") then ""
  else if hasSuffix (toLower f) ".pdf" then
    if shortcodes then "\x7b\x7b< pdf src=\"" ++ u ++ "\" >\x7d\x7d\n\n"
    else "<embed src=\"" ++ u ++ "\" type=\"application/pdf\" width=\"100%\" height=\"600px\">\n\n"
  else "[" ++ f ++ "](" ++ u ++ ")\n\n"

/-- An example external file block pointing at a PDF with an upper-case suffix. -/
def pdfFile : MediaObject :=
  { «Type» := "external", External := some { URL := "https://files.example/docs/Paper.PDF" } }

/-- Go `strings.Join` on character lists, for a non-empty list of pieces. -/
def joinChars (sep : List Char) : List (List Char) → List Char
  | [] => []
  | [x] => x
  | x :: y :: rest => x ++ sep ++ joinChars sep (y :: rest)

/-- The text a quote block emits for the lines of its text. -/
def quoteText (lines : List String) : String :=
  concat (lines.map (fun line => "> " ++ line ++ "\n"))

/-- The cells of a table row, formatted and joined by ` | `. -/
def rowLine (cells : List (List RichText)) : String :=
  join (cells.map BlockProcessor.processRichText) " | "

/-- The separator row of a table with `n` columns. -/
def separatorLine (n : Nat) : String := join (List.replicate n "---") " | "

/-- The lines of a table with the given header row and remaining rows: the
header, the separator, the remaining rows. -/
def tableLines (header : List (List RichText)) (rest : List (List (List RichText))) :
    List String :=
  rowLine header :: separatorLine header.length :: rest.map rowLine

/-- The number of newline characters in the formatted text of the cells of the
rows. -/
def newlinesInCells (rows : List (List (List RichText))) : Nat :=
  (rows.map (fun cells =>
    (cells.map (fun cell => (BlockProcessor.processRichText cell).data.count '\n')).sum)).sum

/-- An example table of one row whose only cell holds a line break. -/
def lineBreakTable : Block := .Table [.TableRow [[plain "a\nb"]]]

/-- An example table whose second child is a paragraph, not a table row. -/
def malformedTable : Block :=
  .Table [.TableRow [[plain "a"]], .Paragraph [plain "x"] []]

/-- An example image block tagged external that carries both a hosted-file part
and an external part. -/
def bothPartsImage : MediaObject :=
  { «Type» := "external"
    File := some { URL := "https://hosted.example/x.png" }
    External := some { URL := "https://external.example/y.png" } }

/-- An example media handler that returns the URL it is given. -/
def echoHandler : MediaHandler := .custom (fun url => .ok url)

/-- A video block whose source URL resolves to `url`. -/
def videoAt (url : String) : MediaObject := { «Type» := "file", File := some { URL := url } }

/-- The text of `s` up to, and excluding, the first occurrence of the character
`stop` (all of `s` when there is none). -/
def upTo (stop : Char) (s : String) : String := String.mk (s.data.takeWhile (fun x => x != stop))

/-- A place in a block tree, reached from the root through list items, toggles
and the columns of column lists: at each level the blocks rendered before the
place, the way further down, and the blocks after it. -/
inductive Place where
  | here
  | bullet (rt : List RichText) (before : List Block) (inner : Place) (after : List Block)
  | numbered (rt : List RichText) (before : List Block) (inner : Place) (after : List Block)
  | toggle (rt : List RichText) (before : List Block) (inner : Place) (after : List Block)
  | column (columnsBefore before : List Block) (inner : Place)
      (after columnsAfter : List Block)

/-- The tree with the block `b` at the place. -/
def Place.plug : Place → Block → Block
  | .here, b => b
  | .bullet rt before inner after, b =>
    .BulletedListItem rt (before ++ inner.plug b :: after)
  | .numbered rt before inner after, b =>
    .NumberedListItem rt (before ++ inner.plug b :: after)
  | .toggle rt before inner after, b => .Toggle rt (before ++ inner.plug b :: after)
  | .column columnsBefore before inner after columnsAfter, b =>
    .ColumnList (columnsBefore ++ .Column (before ++ inner.plug b :: after) :: columnsAfter)

/-- Rendering reaches the place: every block rendered before it, at every level,
renders without failure. -/
def Place.reached (env : MediaEnv) (p : BlockProcessor) : Place → Prop
  | .here => True
  | .bullet _ before inner _ =>
    (∀ c ∈ before, (BlockProcessor.ProcessBlock env p c {}).2 = none) ∧ inner.reached env p
  | .numbered _ before inner _ =>
    (∀ c ∈ before, (BlockProcessor.ProcessBlock env p c {}).2 = none) ∧ inner.reached env p
  | .toggle _ before inner _ =>
    (∀ c ∈ before, (BlockProcessor.ProcessBlock env p c {}).2 = none) ∧ inner.reached env p
  | .column columnsBefore before inner _ _ =>
    (BlockProcessor.processColumnBlocks env p columnsBefore {}).2 = none ∧
    (∀ c ∈ before, (BlockProcessor.ProcessBlock env p c {}).2 = none) ∧ inner.reached env p

/-- What rendering has done, from the empty state, when it arrives at the place:
the opening text of every enclosing block, the blocks before the place, and the
indent written for the place itself. -/
def Place.arrival (env : MediaEnv) (p : BlockProcessor) : Place → RenderState
  | .here => {}
  | .bullet rt before inner _ =>
    ((((({} : RenderState).write ("- " ++ BlockProcessor.processRichText rt ++ "\n")).after
      (BlockProcessor.processIndented env p "  " before {}).1).write "  ").after
      (inner.arrival env p))
  | .numbered rt before inner _ =>
    ((((({} : RenderState).write ("1. " ++ BlockProcessor.processRichText rt ++ "\n")).after
      (BlockProcessor.processIndented env p "   " before {}).1).write "   ").after
      (inner.arrival env p))
  | .toggle rt before inner _ =>
    (((({} : RenderState).write
      ("<details>\n<summary>" ++ BlockProcessor.processRichText rt ++ "</summary>\n\n")).after
      (BlockProcessor.processEach env p before {}).1).after (inner.arrival env p))
  | .column columnsBefore before inner _ _ =>
    ((((((({} : RenderState).write "<div class=\"row\">\n").after
      (BlockProcessor.processColumnBlocks env p columnsBefore {}).1).write
      "<div class=\"col\">\n").after
      (BlockProcessor.processEach env p before {}).1).after (inner.arrival env p)))

/-- The block processor `Convert` renders with: that of the converter, its local
media handler bound to the page's category and article. -/
def boundProcessor (env : HostEnv) (h : HugoConverter) (page : Page) : BlockProcessor :=
  (bindContext h.blockProcessor
    (categoryDir (h.metaProcessor.ProcessMetadata page).1)
    (trimSuffix (generateFilename env page (h.metaProcessor.ProcessMetadata page).1) ".md")).1

/-- An example place: inside a toggle that is the second child of a list item. -/
def examplePlace : Place :=
  .bullet [plain "a"] [.Paragraph [plain "x"] []]
    (.toggle [plain "t"] [] .here [.Paragraph [plain "later"] []])
    [.Paragraph [plain "last"] []]

/-- The block processor `Convert` renders the example page with, on the example
converter: its local media handler is bound to the page's category and article. -/
def exampleBound : BlockProcessor := boundProcessor offlineHost exampleConverter techLifePage

/-- The media handler of `exampleBound`. -/
def exampleHandler : MediaHandler :=
  .localHandler ((NewLocalHandler "static" "/media").SetContext "uncategorized" "p1")

/-- The page with the property `key` set to `v` (`none` removes the key). -/
def Page.withProperty (page : Page) (key : String) (v : Option Property) : Page :=
  { page with Properties := fun k => if k = key then v else page.Properties k }

/-- An example page: the single-select `Category` has the empty name and the
multi-select `Categories` holds a name without mapping. -/
def emptyCategoryPage : Page :=
  { blankPage with
    Properties := fun k =>
      if k = "Category" then some (.select "")
      else if k = "Categories" then some (.multiSelect ["Life"])
      else none }

/-- An external media object as the upstream API delivers it: the hosted-file
part is absent. -/
def externalMedia (caption : List RichText) (url : String) : MediaObject :=
  { Caption := caption, «Type» := "external", File := none, External := some { URL := url } }

/-- The HTML `embed` form of a PDF file block. -/
def embedForm (u : String) : String :=
  "<embed src=\"" ++ u ++ "\" type=\"application/pdf\" width=\"100%\" height=\"600px\">\n\n"

/-- The short-code form of a PDF file block. -/
def pdfShortcode (u : String) : String := "\x7b\x7b< pdf src=\"" ++ u ++ "\" >\x7d\x7d\n\n"

/-- An outside world in which every download succeeds with a PNG image and every
write succeeds. -/
def pngServer : MediaEnv := { httpGet := fun _ => .ok { contentType := "image/png" } }

/-- An example object-storage handler. -/
def exampleS3 : S3Handler :=
  { bucket := "assets", pathPrefix := "media", urlPrefix := "https://cdn.example" }

/-- An example local handler, bound to category `tech` and article `post`. -/
def exampleLocal : LocalHandler :=
  (NewLocalHandler "static" "/media").SetContext "tech" "post"

/-- An example URL of a hosted file, with a signature in its query. -/
def signedURL : String := "https://files.example/a/name.png?X-Amz-Signature=abc"

/-- Whether `s` matches the regular expression `^[a-z0-9-]*\.md$`: it ends in
`.md` and everything before is made of lower-case letters, digits and hyphens. -/
def matchesSlugPattern (s : String) : Bool :=
  hasSuffix s ".md" && (s.data.take (s.data.length - 3)).all isSlugChar

/-- The sanitised slug of `generateFilename` (`converter.go` 152-158): the
romanization joined by hyphens, cleaned by the regular expression, trimmed. -/
def sanitisedSlug (env : HostEnv) (title : String) : String :=
  String.mk (trimChar (replaceOutside (join (env.lazyPinyin title) "-").data false) '-')

/-- The slug of the reference definition of the specification: the romanized
syllables joined with hyphens, every character outside `[a-z0-9-]` deleted,
leading and trailing hyphens trimmed. -/
def slugReference (pys : List String) : String :=
  String.mk (trimChar (("-".intercalate pys).data.filter isSlugChar) '-')

/-- File-name resolution as the specification words it: the identifier for an
absent or empty title; else the reference slug of the title's romanization, with
the identifier in place of an empty slug; `.md` appended in all cases. -/
def filenameReference (env : HostEnv) (page : Page) (metadata : Option Metadata) : String :=
  match metadata.bind (fun m => m.title) with
  | none => page.ID ++ ".md"
  | some title =>
    if title = "" then page.ID ++ ".md"
    else
      (if slugReference (env.lazyPinyin title) = "" then page.ID
        else slugReference (env.lazyPinyin title)) ++ ".md"

/-- A host whose transliteration answers for the example title as
`pinyin.LazyPinyin` does: the two syllables of `你好`, and no syllable for a
title without Han characters. -/
def niHaoHost : HostEnv :=
  { httpGet := fun _ => .error "no network"
    lazyPinyin := fun title => if title = "你好" then ["ni", "hao"] else [] }

/-- Metadata with the title `title` and nothing else. -/
def titled (title : String) : Option Metadata := some { title := some title }

/-- A plain name: not empty, without slash or backslash, neither `.` nor `..`. -/
def isName (s : String) : Bool :=
  decide (s ≠ "" ∧ '/' ∉ s.data ∧ '\\' ∉ s.data ∧ s ≠ "." ∧ s ≠ "..")

/-! ## Metadata processor: lemmas -/

theorem mapCategories_eq_none (m : CategoryMap) (names original mapped : List String) :
    mapCategories m names original mapped = none ↔ ∃ name ∈ names, m name = none := by
  induction names generalizing original mapped with
  | nil => simp [mapCategories]
  | cons cat rest ih =>
    cases hcat : m cat with
    | none => simp [mapCategories, hcat]
    | some dir => simp [mapCategories, hcat, ih]

theorem mapCategories_eq_some (m : CategoryMap) (names original mapped o d : List String)
    (h : mapCategories m names original mapped = some (o, d)) :
    o = original ++ names ∧ ∃ dirs, d = mapped ++ dirs ∧ names.map m = dirs.map some := by
  induction names generalizing original mapped with
  | nil =>
    simp [mapCategories] at h
    obtain ⟨rfl, rfl⟩ := h
    exact ⟨by simp, [], by simp, by simp⟩
  | cons cat rest ih =>
    cases hcat : m cat with
    | none => simp [mapCategories, hcat] at h
    | some dir =>
      simp only [mapCategories, hcat] at h
      obtain ⟨h1, dirs, h2, h3⟩ := ih _ _ h
      exact ⟨by simp [h1], dir :: dirs, by simp [h2], by simp [hcat, h3]⟩

theorem resolveCategories_multi (p : MetadataProcessor) (page : Page)
    (h : ∀ name, page.Properties "Category" ≠ some (.select name)) :
    resolveCategories p page =
      (match page.Properties "Categories" with
       | some (.multiSelect names) => mapCategories p.CategoryMap names [] []
       | _ => some ([], [])) ∧
    categoryNames page =
      (match page.Properties "Categories" with
       | some (.multiSelect names) => names
       | _ => []) := by
  unfold resolveCategories categoryNames
  constructor <;> split <;> first | (exact absurd ‹_› (h _)) | rfl

theorem resolveCategories_eq_none (p : MetadataProcessor) (page : Page) :
    resolveCategories p page = none ↔
      ∃ name ∈ categoryNames page, p.CategoryMap name = none := by
  by_cases hsel : ∃ name, page.Properties "Category" = some (.select name)
  · obtain ⟨name, hname⟩ := hsel
    by_cases hempty : name = ""
    · simp [resolveCategories, categoryNames, hname, hempty]
    · cases hmap : p.CategoryMap name <;>
        simp [resolveCategories, categoryNames, hname, hempty, hmap]
  · have hsel : ∀ name, page.Properties "Category" ≠ some (.select name) :=
      fun name hn => hsel ⟨name, hn⟩
    obtain ⟨h1, h2⟩ := resolveCategories_multi p page hsel
    rw [h1, h2]
    split
    · exact mapCategories_eq_none _ _ _ _
    · simp

theorem resolveCategories_eq_some (p : MetadataProcessor) (page : Page) (o d : List String)
    (h : resolveCategories p page = some (o, d)) :
    o = categoryNames page ∧ (categoryNames page).map p.CategoryMap = d.map some := by
  by_cases hsel : ∃ name, page.Properties "Category" = some (.select name)
  · obtain ⟨name, hname⟩ := hsel
    by_cases hempty : name = ""
    · simp [resolveCategories, categoryNames, hname, hempty] at h ⊢
      obtain ⟨rfl, rfl⟩ := h
      simp
    · cases hmap : p.CategoryMap name <;>
        simp [resolveCategories, categoryNames, hname, hempty, hmap] at h ⊢
      obtain ⟨rfl, rfl⟩ := h
      simp [hmap]
  · have hsel : ∀ name, page.Properties "Category" ≠ some (.select name) :=
      fun name hn => hsel ⟨name, hn⟩
    obtain ⟨h1, h2⟩ := resolveCategories_multi p page hsel
    rw [h1] at h
    rw [h2]
    split at h
    · obtain ⟨h3, dirs, h4, h5⟩ := mapCategories_eq_some _ _ _ _ _ _ h
      simp at h3 h4
      subst h3 h4
      exact ⟨rfl, h5⟩
    · simp at h
      obtain ⟨rfl, rfl⟩ := h
      simp

theorem ProcessMetadata_error (p : MetadataProcessor) (page : Page) :
    (p.ProcessMetadata page).2 = none := by
  unfold MetadataProcessor.ProcessMetadata
  split <;> rfl

theorem ProcessMetadata_skip_iff (p : MetadataProcessor) (page : Page) :
    p.ProcessMetadata page = (none, none) ↔ resolveCategories p page = none := by
  unfold MetadataProcessor.ProcessMetadata
  split
  · simp [*]
  · simp [*]

theorem processOptionalFields_categories (page : Page) (md : Metadata) :
    (processOptionalFields page md).categories = md.categories ∧
    (processOptionalFields page md).category_dir = md.category_dir := by
  unfold processOptionalFields
  constructor <;> (repeat' split) <;> rfl

theorem setTags_categories (page : Page) (md : Metadata) :
    (setTags page md).categories = md.categories ∧
    (setTags page md).category_dir = md.category_dir := by
  unfold setTags
  constructor <;> (repeat' split) <;> rfl

theorem setDraft_categories (p : MetadataProcessor) (page : Page) (md : Metadata) :
    (setDraft p page md).categories = md.categories ∧
    (setDraft p page md).category_dir = md.category_dir := by
  unfold setDraft
  constructor <;> (repeat' split) <;> rfl

theorem setDescription_categories (page : Page) (md : Metadata) :
    (setDescription page md).categories = md.categories ∧
    (setDescription page md).category_dir = md.category_dir := by
  unfold setDescription
  constructor <;> split <;> (try dsimp only) <;> (try split) <;> rfl

theorem setMetaTitle_categories (page : Page) (md : Metadata) :
    (setMetaTitle page md).categories = md.categories ∧
    (setMetaTitle page md).category_dir = md.category_dir := by
  unfold setMetaTitle
  constructor <;> (repeat' split) <;> rfl

theorem setTitle_categories (page : Page) (md : Metadata) :
    (setTitle page md).categories = md.categories ∧
    (setTitle page md).category_dir = md.category_dir := by
  unfold setTitle
  constructor <;> (repeat' split) <;> rfl

theorem setCover_categories (page : Page) (md : Metadata) :
    (setCover page md).categories = md.categories ∧
    (setCover page md).category_dir = md.category_dir := by
  unfold setCover
  constructor <;> (repeat' split) <;> rfl

/-- The category keys of a returned record are those written by `setCategories`. -/
theorem ProcessMetadata_categories (p : MetadataProcessor) (page : Page) (md : Metadata)
    (o d : List String) (hres : resolveCategories p page = some (o, d))
    (h : p.ProcessMetadata page = (some md, none)) :
    md.categories = (if o.length > 0 then some o else none) ∧
    md.category_dir = (if o.length > 0 then d.head? else none) := by
  unfold MetadataProcessor.ProcessMetadata at h
  rw [hres] at h
  simp only [Prod.mk.injEq, Option.some.injEq, and_true] at h
  subst h
  simp only [(processOptionalFields_categories _ _).1, (processOptionalFields_categories _ _).2,
    (setMetaTitle_categories _ _).1, (setMetaTitle_categories _ _).2,
    (setDescription_categories _ _).1, (setDescription_categories _ _).2,
    (setDraft_categories _ _ _).1, (setDraft_categories _ _ _).2,
    (setTags_categories _ _).1, (setTags_categories _ _).2]
  unfold setCategories
  split
  · exact ⟨rfl, rfl⟩
  · simp only [(setCover_categories _ _).1, (setCover_categories _ _).2,
      (setTitle_categories _ _).1, (setTitle_categories _ _).2, and_self]

theorem setTitle_erase (page : Page) (key : String) (v : Property) (md : Metadata)
    (hv : page.Properties key = some v) (hk : expectedKind key ≠ some v.kind) :
    setTitle (page.eraseProperty key) md = setTitle page md := by
  unfold setTitle Page.eraseProperty Properties.erase
  by_cases h : "Name" = key
  · subst h
    cases v <;> simp_all [expectedKind, Property.kind]
  · simp [h]

theorem setTags_erase (page : Page) (key : String) (v : Property) (md : Metadata)
    (hv : page.Properties key = some v) (hk : expectedKind key ≠ some v.kind) :
    setTags (page.eraseProperty key) md = setTags page md := by
  unfold setTags Page.eraseProperty Properties.erase
  by_cases h : "Tags" = key
  · subst h
    cases v <;> simp_all [expectedKind, Property.kind]
  · simp [h]

theorem setDescription_erase (page : Page) (key : String) (v : Property) (md : Metadata)
    (hv : page.Properties key = some v) (hk : expectedKind key ≠ some v.kind) :
    setDescription (page.eraseProperty key) md = setDescription page md := by
  unfold setDescription Page.eraseProperty Properties.erase
  by_cases h : "Description" = key
  · subst h
    cases v <;> simp_all [expectedKind, Property.kind]
  · simp [h]

theorem setMetaTitle_erase (page : Page) (key : String) (v : Property) (md : Metadata)
    (hv : page.Properties key = some v) (hk : expectedKind key ≠ some v.kind) :
    setMetaTitle (page.eraseProperty key) md = setMetaTitle page md := by
  unfold setMetaTitle Page.eraseProperty Properties.erase
  by_cases h : "Meta Title" = key
  · subst h
    cases v <;> simp_all [expectedKind, Property.kind]
  · simp [h]

theorem setDraft_erase (p : MetadataProcessor) (page : Page) (key : String) (v : Property)
    (md : Metadata) (hv : page.Properties key = some v) (hk : expectedKind key ≠ some v.kind) :
    setDraft p (page.eraseProperty key) md = setDraft p page md := by
  unfold setDraft Page.eraseProperty Properties.erase
  by_cases h : "Status" = key
  · subst h
    cases v <;> simp_all [expectedKind, Property.kind]
  · simp [h]

theorem processOptionalFields_erase (page : Page) (key : String) (v : Property) (md : Metadata)
    (hv : page.Properties key = some v) (hk : expectedKind key ≠ some v.kind) :
    processOptionalFields (page.eraseProperty key) md = processOptionalFields page md := by
  unfold processOptionalFields Page.eraseProperty Properties.erase
  by_cases h1 : "Toc" = key
  · subst h1
    cases v <;> simp_all [expectedKind, Property.kind]
  · by_cases h2 : "Comments" = key
    · subst h2
      cases v <;> simp_all [expectedKind, Property.kind]
    · by_cases h3 : "Slug" = key
      · subst h3
        cases v <;> simp_all [expectedKind, Property.kind]
      · simp [h1, h2, h3]

theorem resolveCategories_erase (p : MetadataProcessor) (page : Page) (key : String)
    (v : Property) (hv : page.Properties key = some v) (hk : expectedKind key ≠ some v.kind) :
    resolveCategories p (page.eraseProperty key) = resolveCategories p page := by
  unfold resolveCategories Page.eraseProperty Properties.erase
  by_cases h1 : "Category" = key
  · subst h1
    cases v <;> simp_all [expectedKind, Property.kind]
  · by_cases h2 : "Categories" = key
    · subst h2
      cases v <;> simp_all [expectedKind, Property.kind]
    · simp [h1, h2]

theorem ProcessMetadata_erase (p : MetadataProcessor) (page : Page) (key : String)
    (v : Property) (hv : page.Properties key = some v) (hk : expectedKind key ≠ some v.kind) :
    p.ProcessMetadata (page.eraseProperty key) = p.ProcessMetadata page := by
  unfold MetadataProcessor.ProcessMetadata
  simp only [setTitle_erase page key v _ hv hk, setTags_erase page key v _ hv hk,
    setDescription_erase page key v _ hv hk, setMetaTitle_erase page key v _ hv hk,
    setDraft_erase p page key v _ hv hk, processOptionalFields_erase page key v _ hv hk,
    resolveCategories_erase p page key v hv hk]
  rfl

/-! ## Metadata processor: the properties -/

/-- Claim C2.  `ProcessMetadata` yields the skip result (nil map, nil error) exactly
when some category name on the page's category property has no entry in the
mapping; the page with `Categories = ["Tech", "Life"]` under a mapping that
knows only `Tech` is skipped with a nil error. -/
theorem C2_skip_iff_category_unmapped (p : MetadataProcessor) (page : Page) :
    (p.ProcessMetadata page = (none, none) ↔
      ∃ name ∈ categoryNames page, p.CategoryMap name = none) ∧
    ((p.ProcessMetadata page).1 = none ↔
      ∃ name ∈ categoryNames page, p.CategoryMap name = none) ∧
    (p.ProcessMetadata page).2 = none ∧
    categoryNames techLifePage = ["Tech", "Life"] ∧
    techOnly.CategoryMap "Tech" = some "tech" ∧ techOnly.CategoryMap "Life" = none ∧
    techOnly.ProcessMetadata techLifePage = (none, none) := by
  have hiff := (ProcessMetadata_skip_iff p page).trans (resolveCategories_eq_none p page)
  refine ⟨hiff, ?_, ProcessMetadata_error p page, by decide, by decide, by decide, by decide⟩
  rw [← hiff]
  constructor
  · intro h
    exact Prod.ext h (ProcessMetadata_error p page)
  · intro h
    rw [h]

/-- Claim C3.  In the record returned for a page that is not skipped, `categories`
holds the original category names in source order and `category_dir` holds the
mapping of the first of them; for a page without category names neither key is
present. -/
theorem C3_categories_original_dir_first_mapped (p : MetadataProcessor) (page : Page)
    (md : Metadata) (h : p.ProcessMetadata page = (some md, none)) :
    (∀ first rest, categoryNames page = first :: rest →
      md.categories = some (first :: rest) ∧
      ∃ dir, p.CategoryMap first = some dir ∧ md.category_dir = some dir) ∧
    (categoryNames page = [] → md.categories = none ∧ md.category_dir = none) := by
  cases hres : resolveCategories p page with
  | none =>
    rw [(ProcessMetadata_skip_iff p page).2 hres] at h
    simp at h
  | some od =>
    obtain ⟨o, d⟩ := od
    obtain ⟨hc, hd⟩ := ProcessMetadata_categories p page md o d hres h
    obtain ⟨ho, hmap⟩ := resolveCategories_eq_some p page o d hres
    subst ho
    constructor
    · intro first rest hnames
      rw [hnames] at hc hd hmap
      cases d with
      | nil => simp at hmap
      | cons dir ds =>
        simp at hmap
        simp at hc hd
        exact ⟨hc, dir, hmap.1, hd⟩
    · intro hnames
      rw [hnames] at hc hd
      simpa using And.intro hc hd

/-- Witness of C3: the page with `Categories = ["Tech", "Life"]`, both mapped. -/
theorem C3_categories_original_dir_first_mapped_witness :
    techLife.ProcessMetadata techLifePage = (some techLifeRecord, none) ∧
    ((∀ first rest, categoryNames techLifePage = first :: rest →
      techLifeRecord.categories = some (first :: rest) ∧
      ∃ dir, techLife.CategoryMap first = some dir ∧ techLifeRecord.category_dir = some dir) ∧
    (categoryNames techLifePage = [] →
      techLifeRecord.categories = none ∧ techLifeRecord.category_dir = none)) :=
  ⟨by decide, C3_categories_original_dir_first_mapped techLife techLifePage techLifeRecord
    (by decide)⟩

/-- Claim C4.  `ProcessMetadata` returns a nil error for every page, and a property
whose value does not have the type the processor asserts for its name gives the
same result as the page without that property. -/
theorem C4_no_error_mistyped_as_absent (p : MetadataProcessor) (page : Page) (key : String)
    (v : Property) (hv : page.Properties key = some v)
    (hk : expectedKind key ≠ some v.kind) :
    (∀ anyPage : Page, (p.ProcessMetadata anyPage).2 = none) ∧
    p.ProcessMetadata page = p.ProcessMetadata (page.eraseProperty key) :=
  ⟨fun anyPage => ProcessMetadata_error p anyPage,
    (ProcessMetadata_erase p page key v hv hk).symm⟩

/-- Witness of C4: a page whose `Tags` property is a checkbox. -/
theorem C4_no_error_mistyped_as_absent_witness :
    mistypedTagsPage.Properties "Tags" = some (.checkbox true) ∧
    expectedKind "Tags" ≠ some (Property.kind (.checkbox true)) ∧
    (∀ anyPage : Page, (techOnly.ProcessMetadata anyPage).2 = none) ∧
    techOnly.ProcessMetadata mistypedTagsPage =
      techOnly.ProcessMetadata (mistypedTagsPage.eraseProperty "Tags") :=
  ⟨by decide, by decide,
    C4_no_error_mistyped_as_absent techOnly mistypedTagsPage "Tags" (.checkbox true)
      (by decide) (by decide)⟩

/-! ## Rich-text formatter: lemmas -/

theorem concat_append (xs ys : List String) : concat (xs ++ ys) = concat xs ++ concat ys := by
  induction xs with
  | nil => simp [concat]
  | cons x xs ih => simp [concat, ih, String.append_assoc]

theorem processRichTextInto_eq (runs : List RichText) (buf : String) :
    BlockProcessor.processRichTextInto runs buf =
      buf ++ concat (runs.map BlockProcessor.formatRun) := by
  induction runs generalizing buf with
  | nil => simp [BlockProcessor.processRichTextInto, concat]
  | cons t rest ih =>
    simp [BlockProcessor.processRichTextInto, concat, ih, String.append_assoc]

theorem processRichText_eq (runs : List RichText) :
    BlockProcessor.processRichText runs = concat (runs.map BlockProcessor.formatRun) := by
  simp [BlockProcessor.processRichText, processRichTextInto_eq]

theorem processRichText_cons (t : RichText) (rest : List RichText) :
    BlockProcessor.processRichText (t :: rest) =
      BlockProcessor.formatRun t ++ BlockProcessor.processRichText rest := by
  simp [processRichText_eq, concat]

theorem formatRun_not_text (t : RichText) (h : t.isText = false) :
    BlockProcessor.formatRun t = "" := by
  simp [RichText.isText] at h
  simp [BlockProcessor.formatRun, h]

theorem formatRun_plain_text (t : RichText) (ht : t.isText = true) (hp : t.isPlain = true) :
    BlockProcessor.formatRun t = t.Text.Content := by
  simp [RichText.isText] at ht
  simp [RichText.isPlain] at hp
  obtain ⟨⟨⟨⟨h1, h2⟩, h3⟩, h4⟩, h5⟩ := hp
  simp [BlockProcessor.formatRun, ht, h1, h2, h3, h4, h5]

theorem formatRun_eq_formatSpec (t : RichText) (ht : t.Type = ObjectTypeText) :
    BlockProcessor.formatRun t = formatSpec t := by
  simp only [BlockProcessor.formatRun, ht, if_true, formatSpec, specL, specC, specS, specI,
    specB, wrapIf]

theorem processRichTextParts_eq (text : List RichText) (parts : List String) :
    processRichTextParts text parts =
      parts ++ (text.filter RichText.isText).map (fun t => t.Text.Content) := by
  induction text generalizing parts with
  | nil => simp [processRichTextParts]
  | cons t rest ih =>
    by_cases h : t.Type = ObjectTypeText
    · simp [processRichTextParts, h, ih, RichText.isText]
    · simp [processRichTextParts, h, ih, RichText.isText]

theorem formatSpec_eq_opening_closing (t : RichText) :
    formatSpec t =
      opening t.Annotations t.Text.Link ++ t.Text.Content ++ closing t.Annotations t.Text.Link := by
  obtain ⟨kind, ⟨content, link⟩, ⟨b, i, s, c⟩⟩ := t
  cases b <;> cases i <;> cases s <;> cases c <;> cases link <;>
    (apply String.ext
     simp only [formatSpec, specL, specC, specS, specI, specB, wrapIf, opening, closing,
       Option.isSome, if_true, if_false, Bool.false_eq_true, String.data_append,
       List.append_assoc]
     try simp only [List.nil_append, List.append_nil, List.cons_append]
     try rfl)

theorem formatRun_fullyStyled (c u : String) :
    BlockProcessor.formatRun (fullyStyled c u) = "[`~~***" ++ c ++ "***~~`](" ++ u ++ ")" := by
  apply String.ext
  simp only [BlockProcessor.formatRun, fullyStyled, if_true, String.data_append,
    List.append_assoc]
  rfl

/-! ## Rich-text formatter: the properties -/

/-- Counterexample to C5 as stated: a run of another kind than text, with no
style flag and no link, has content but contributes nothing, so the output is
not the concatenation of the runs' contents. -/
theorem C5_counterexample_run_of_other_kind :
    (∀ r ∈ [mentionRun], r.isPlain = true) ∧
    BlockProcessor.processRichText [mentionRun] = "" ∧
    concatContents [mentionRun] = "@ann" ∧
    BlockProcessor.processRichText [mentionRun] ≠ concatContents [mentionRun] := by
  decide

/-- Claim C5, amended.  For runs without style flag and link, `processRichText`
returns the concatenation, in order, of the contents of the text-kind runs; when
every run is of the text kind this is the concatenation of all contents. -/
theorem C5_plain_runs_concatenate (runs : List RichText)
    (hplain : ∀ r ∈ runs, r.isPlain = true) :
    BlockProcessor.processRichText runs = concatContents (runs.filter RichText.isText) ∧
    ((∀ r ∈ runs, r.isText = true) →
      BlockProcessor.processRichText runs = concatContents runs) := by
  have key : BlockProcessor.processRichText runs =
      concatContents (runs.filter RichText.isText) := by
    rw [processRichText_eq]
    induction runs with
    | nil => simp [concatContents, concat]
    | cons t rest ih =>
      have ih := ih (fun r hr => hplain r (List.mem_cons_of_mem _ hr))
      have hp := hplain t (List.mem_cons_self _ _)
      cases ht : t.isText with
      | true =>
        simp only [List.map_cons, concat, List.filter_cons, ht, if_true, concatContents,
          formatRun_plain_text t ht hp]
        rw [ih]
        rfl
      | false =>
        simp only [List.map_cons, concat, List.filter_cons, ht, formatRun_not_text t ht]
        simpa using ih
  refine ⟨key, fun hall => ?_⟩
  rw [key, List.filter_eq_self.2 hall]

/-- Witness of C5, amended: two plain text runs around a plain mention run. -/
theorem C5_plain_runs_concatenate_witness :
    (∀ r ∈ [plain "a", mentionRun, plain "b"], r.isPlain = true) ∧
    (BlockProcessor.processRichText [plain "a", mentionRun, plain "b"] =
      concatContents ([plain "a", mentionRun, plain "b"].filter RichText.isText) ∧
    ((∀ r ∈ [plain "a", mentionRun, plain "b"], r.isText = true) →
      BlockProcessor.processRichText [plain "a", mentionRun, plain "b"] =
        concatContents [plain "a", mentionRun, plain "b"])) :=
  ⟨by decide, C5_plain_runs_concatenate [plain "a", mentionRun, plain "b"] (by decide)⟩

/-- Claim C6.  The fragment of a text run is `L(C(S(I(B(c)))))`: bold, italic,
strikethrough, inline code and link are wrapped around the content in that
order, each being the identity when unset; within a sequence the run contributes
exactly this fragment; the content stands in it verbatim between an opening and
a closing that depend on the flags and the link only; with all four flags and a
link the fragment is ``[`~~***c***~~`](u)``. -/
theorem C6_fragment_is_nested_wrapping (t : RichText) (ht : t.Type = ObjectTypeText) :
    BlockProcessor.formatRun t = formatSpec t ∧
    BlockProcessor.processRichText [t] = formatSpec t ∧
    (∀ rest, BlockProcessor.processRichText (t :: rest) =
      formatSpec t ++ BlockProcessor.processRichText rest) ∧
    BlockProcessor.formatRun t =
      opening t.Annotations t.Text.Link ++ t.Text.Content ++ closing t.Annotations t.Text.Link ∧
    (∀ c u, BlockProcessor.formatRun (fullyStyled c u) =
      "[`~~***" ++ c ++ "***~~`](" ++ u ++ ")") := by
  have h := formatRun_eq_formatSpec t ht
  refine ⟨h, ?_, ?_, ?_, formatRun_fullyStyled⟩
  · rw [processRichText_cons, h]
    simp [BlockProcessor.processRichText, BlockProcessor.processRichTextInto]
  · intro rest
    rw [processRichText_cons, h]
  · rw [h, formatSpec_eq_opening_closing]

/-- Witness of C6: the run with all four flags and a link. -/
theorem C6_fragment_is_nested_wrapping_witness :
    (fullyStyled "c" "u").Type = ObjectTypeText ∧
    (BlockProcessor.formatRun (fullyStyled "c" "u") = formatSpec (fullyStyled "c" "u") ∧
    BlockProcessor.processRichText [fullyStyled "c" "u"] = formatSpec (fullyStyled "c" "u") ∧
    (∀ rest, BlockProcessor.processRichText (fullyStyled "c" "u" :: rest) =
      formatSpec (fullyStyled "c" "u") ++ BlockProcessor.processRichText rest) ∧
    BlockProcessor.formatRun (fullyStyled "c" "u") =
      opening (fullyStyled "c" "u").Annotations (fullyStyled "c" "u").Text.Link ++
        (fullyStyled "c" "u").Text.Content ++
        closing (fullyStyled "c" "u").Annotations (fullyStyled "c" "u").Text.Link ∧
    (∀ c u, BlockProcessor.formatRun (fullyStyled c u) =
      "[`~~***" ++ c ++ "***~~`](" ++ u ++ ")")) :=
  ⟨by decide, C6_fragment_is_nested_wrapping (fullyStyled "c" "u") (by decide)⟩

/-- Claim C7.  Runs of another kind than text contribute nothing: the formatter of
the block renderer and the plain-text extractor of the metadata processor both
give, on any run sequence, what they give on its subsequence of text-kind runs. -/
theorem C7_runs_of_other_kinds_ignored (runs : List RichText) :
    BlockProcessor.processRichText runs =
      BlockProcessor.processRichText (runs.filter RichText.isText) ∧
    processRichText runs = processRichText (runs.filter RichText.isText) := by
  constructor
  · rw [processRichText_eq, processRichText_eq]
    induction runs with
    | nil => rfl
    | cons t rest ih =>
      cases ht : t.isText with
      | true => simp only [List.filter_cons, ht, if_true, List.map_cons, concat, ih]
      | false =>
        simp only [List.filter_cons, ht, List.map_cons, concat, formatRun_not_text t ht]
        simpa using ih
  · simp [processRichText, processRichTextParts_eq, List.filter_filter]

/-! ## Block renderer: lemmas -/

/-- Induction over block trees: a property holds of every block if it holds of
a block whenever it holds of the block's children. -/
theorem Block.induction_on_children {P : Block → Prop}
    (step : ∀ b : Block, (∀ c ∈ b.children, P c) → P b) : ∀ b, P b := by
  intro b
  refine Block.rec (motive_1 := P) (motive_2 := fun cs => ∀ c ∈ cs, P c)
    ?_ ?_ ?_ ?_ ?_ ?_ ?_ ?_ ?_ ?_ ?_ ?_ ?_ ?_ ?_ ?_ ?_ ?_ ?_ ?_ ?_ ?_ ?_ ?_ b
  all_goals first
    | (intro a cs ih; exact step _ (by simp only [Block.children]; exact ih))
    | (intro a b cs ih; exact step _ (by simp only [Block.children]; exact ih))
    | (intro cs ih; exact step _ (by simp only [Block.children]; exact ih))
    | (intros; exact step _ (by simp [Block.children]))
    | (intro head tail hh ht c hc
       rcases List.mem_cons.1 hc with h | h
       · exact h ▸ hh
       · exact ht c h)
    | (intro c hc; cases hc)

theorem noMediaAll_iff (cs : List Block) :
    noMediaAll cs = true ↔ ∀ c ∈ cs, c.noMedia = true := by
  induction cs with
  | nil => simp [noMediaAll]
  | cons b rest ih => simp [noMediaAll, ih]

theorem noMedia_children (b : Block) (h : b.noMedia = true) :
    ∀ c ∈ b.children, c.noMedia = true := by
  cases b <;> simp_all [Block.noMedia, Block.children, noMediaAll_iff]

theorem RenderState.after_assoc (a b c : RenderState) :
    (a.after b).after c = a.after (b.after c) := by
  simp [RenderState.after, String.append_assoc]

theorem RenderState.after_empty (st : RenderState) : st.after {} = st := by
  simp [RenderState.after]

theorem RenderState.empty_after (st : RenderState) : ({} : RenderState).after st = st := by
  simp [RenderState.after]

theorem RenderState.write_eq_after (st : RenderState) (x : String) :
    st.write x = st.after { out := x } := by
  simp [RenderState.after, RenderState.write]

theorem RenderState.after_write (st r : RenderState) (x : String) :
    (st.after r).write x = st.after (r.write x) := by
  simp [RenderState.after, RenderState.write, String.append_assoc]

theorem Step.from_from (a b : RenderState) (s : Step) :
    Step.from a (Step.from b s) = Step.from (a.after b) s := by
  simp [Step.from, RenderState.after_assoc]

theorem Step.from_empty (s : Step) : Step.from {} s = s := by
  simp [Step.from, RenderState.empty_after]

theorem Step.andThen_from (a : RenderState) (s : Step) (k : RenderState → Step)
    (hk : Framed k) : (Step.from a s).andThen k = Step.from a (s.andThen k) := by
  obtain ⟨r, res⟩ := s
  cases res with
  | none =>
    simp only [Step.from, Step.andThen]
    rw [hk (a.after r), hk r]
    simp [Step.from, RenderState.after_assoc]
  | some f => simp [Step.from, Step.andThen]

theorem framed_write (x : String) : Framed (fun st => (st.write x, none)) := by
  intro st
  simp [Step.from, RenderState.after, RenderState.write]

theorem framed_stay (res : Option Fault) : Framed (fun st => (st, res)) := by
  intro st
  simp [Step.from, RenderState.after]

theorem framed_andThen {T K : RenderState → Step} (hT : Framed T) (hK : Framed K) :
    Framed (fun st => (T st).andThen K) := by
  intro st
  simp only
  rw [hT st, Step.andThen_from _ _ _ hK]

theorem framed_after_write {T : RenderState → Step} (hT : Framed T) (x : String) :
    Framed (fun st => T (st.write x)) := by
  intro st
  simp only
  rw [hT (st.write x), hT (({} : RenderState).write x), Step.from_from]
  simp [RenderState.after, RenderState.write]

theorem framed_of_writer {W : RenderState → RenderState}
    (hW : ∀ st, W st = st.after (W {})) : Framed (fun st => (W st, none)) := by
  intro st
  simp only [Step.from]
  rw [hW st]

theorem writeQuoteLines_after (lines : List String) (st : RenderState) :
    BlockProcessor.writeQuoteLines lines st =
      st.after (BlockProcessor.writeQuoteLines lines {}) := by
  induction lines generalizing st with
  | nil => simp [BlockProcessor.writeQuoteLines, RenderState.after_empty]
  | cons line rest ih =>
    simp only [BlockProcessor.writeQuoteLines]
    rw [ih (st.write _), ih (({} : RenderState).write _), ← RenderState.after_assoc]
    simp [RenderState.after, RenderState.write]

theorem writeCells_after (cells : List (List RichText)) (i : Nat) (st : RenderState) :
    BlockProcessor.writeCells cells i st = st.after (BlockProcessor.writeCells cells i {}) := by
  induction cells generalizing st i with
  | nil => simp [BlockProcessor.writeCells, RenderState.after_empty]
  | cons cell rest ih =>
    simp only [BlockProcessor.writeCells]
    rw [ih, ih (i + 1) (RenderState.write _ _), ← RenderState.after_assoc]
    split <;> simp [RenderState.after, RenderState.write, String.append_assoc]

theorem writeSeparator_after (n i : Nat) (st : RenderState) :
    BlockProcessor.writeSeparator n i st =
      st.after (BlockProcessor.writeSeparator n i {}) := by
  induction n generalizing st i with
  | zero => simp [BlockProcessor.writeSeparator, RenderState.after_empty]
  | succ n ih =>
    simp only [BlockProcessor.writeSeparator]
    rw [ih, ih (i + 1) (RenderState.write _ _), ← RenderState.after_assoc]
    split <;> simp [RenderState.after, RenderState.write, String.append_assoc]

theorem writeRows_framed (rows : List Block) : Framed (BlockProcessor.writeRows rows) := by
  induction rows with
  | nil => exact framed_stay none
  | cons row rest ih =>
    intro st
    cases row <;> simp only [BlockProcessor.writeRows]
    case TableRow cells =>
      rw [ih, ih (RenderState.write _ _), Step.from_from, writeCells_after]
      simp [RenderState.after_write, RenderState.empty_after]
    all_goals simp [Step.from, RenderState.after_empty]

theorem processTable_framed (children : List Block) :
    Framed (BlockProcessor.processTable children) := by
  intro st
  cases children with
  | nil => simp [BlockProcessor.processTable, Step.from, RenderState.after_empty]
  | cons first rest =>
    cases first <;> simp only [BlockProcessor.processTable]
    case TableRow cells =>
      have hrows := writeRows_framed rest
      rw [hrows, hrows (RenderState.write _ _)]
      obtain ⟨r, res⟩ := BlockProcessor.writeRows rest {}
      have hstate :
          ((BlockProcessor.writeSeparator cells.length 0
              ((BlockProcessor.writeCells cells 0 st).write "\n")).write "\n").after r =
            st.after (((BlockProcessor.writeSeparator cells.length 0
              ((BlockProcessor.writeCells cells 0 {}).write "\n")).write "\n").after r) := by
        rw [writeSeparator_after, writeCells_after,
          writeSeparator_after _ _ (RenderState.write _ _)]
        simp [RenderState.after, RenderState.write, String.append_assoc]
      cases res with
      | none => simp [Step.from, hstate, RenderState.after_write]
      | some f => simp [Step.from, hstate]
    all_goals simp [Step.from, RenderState.after_empty]

theorem processImage_framed (env : MediaEnv) (p : BlockProcessor) (img : MediaObject) :
    Framed (BlockProcessor.processImage env p img) := by
  intro st
  simp only [BlockProcessor.processImage]
  cases BlockProcessor.mediaURL img with
  | error f => simp [Step.from, RenderState.after_empty]
  | ok url =>
    cases p.mediaHandler with
    | none => simp [Step.from, RenderState.after, RenderState.write]
    | some handler =>
      cases h : MediaHandler.SaveMedia env handler url <;>
        simp [Step.from, RenderState.after, RenderState.write, h, String.append_assoc]

theorem processVideo_framed (video : MediaObject) :
    Framed (BlockProcessor.processVideo video) := by
  intro st
  simp only [BlockProcessor.processVideo]
  cases BlockProcessor.mediaURL video with
  | error f => simp [Step.from, RenderState.after_empty]
  | ok url =>
    by_cases h : contains url "youtube.com" = true ∨ contains url "youtu.be" = true <;>
      simp [Step.from, RenderState.after, RenderState.write, h]

theorem processFile_framed (p : BlockProcessor) (file : MediaObject) :
    Framed (BlockProcessor.processFile p file) := by
  intro st
  simp only [BlockProcessor.processFile]
  cases BlockProcessor.fileURL file with
  | error f => simp [Step.from, RenderState.after_empty]
  | ok url =>
    simp only []
    repeat' split
    all_goals simp [Step.from, RenderState.after, RenderState.write]

theorem processIndented_cons (env : MediaEnv) (p : BlockProcessor) (indent : String)
    (c : Block) (rest : List Block) (st : RenderState) :
    BlockProcessor.processIndented env p indent (c :: rest) st =
      (BlockProcessor.ProcessBlock env p c (st.write indent)).andThen
        (BlockProcessor.processIndented env p indent rest) := by
  simp only [BlockProcessor.processIndented, Step.andThen]

theorem processEach_cons (env : MediaEnv) (p : BlockProcessor) (c : Block)
    (rest : List Block) (st : RenderState) :
    BlockProcessor.processEach env p (c :: rest) st =
      (BlockProcessor.ProcessBlock env p c st).andThen
        (BlockProcessor.processEach env p rest) := by
  simp only [BlockProcessor.processEach, Step.andThen]

theorem processColumnBlocks_column (env : MediaEnv) (p : BlockProcessor)
    (children rest : List Block) (st : RenderState) :
    BlockProcessor.processColumnBlocks env p (.Column children :: rest) st =
      (BlockProcessor.processEach env p children (st.write "<div class=\"col\">\n")).andThen
        (fun st => BlockProcessor.processColumnBlocks env p rest (st.write "</div>\n")) := by
  simp only [BlockProcessor.processColumnBlocks, Step.andThen]

theorem processColumnBlocks_other (env : MediaEnv) (p : BlockProcessor) (b : Block)
    (rest : List Block) (st : RenderState) (hb : ∀ cs, b ≠ .Column cs) :
    BlockProcessor.processColumnBlocks env p (b :: rest) st =
      BlockProcessor.processColumnBlocks env p rest st := by
  cases b <;> simp_all [BlockProcessor.processColumnBlocks]

theorem ProcessBlock_toggle (env : MediaEnv) (p : BlockProcessor) (rt : List RichText)
    (children : List Block) (st : RenderState) :
    BlockProcessor.ProcessBlock env p (.Toggle rt children) st =
      (BlockProcessor.processEach env p children (st.write
        ("<details>\n<summary>" ++ BlockProcessor.processRichText rt ++ "</summary>\n\n"))).andThen
        (fun st => (st.write "</details>\n", none)) := by
  simp only [BlockProcessor.ProcessBlock, Step.andThen]

theorem ProcessBlock_columnList (env : MediaEnv) (p : BlockProcessor)
    (children : List Block) (st : RenderState) :
    BlockProcessor.ProcessBlock env p (.ColumnList children) st =
      (BlockProcessor.processColumnBlocks env p children
        (st.write "<div class=\"row\">\n")).andThen
        (fun st => (st.write "</div>\n", none)) := by
  simp only [BlockProcessor.ProcessBlock, Step.andThen]

theorem processIndented_framed (env : MediaEnv) (p : BlockProcessor) (indent : String)
    (cs : List Block) (ih : ∀ c ∈ cs, Framed (BlockProcessor.ProcessBlock env p c)) :
    Framed (BlockProcessor.processIndented env p indent cs) := by
  induction cs with
  | nil => exact framed_stay none
  | cons c rest ihr =>
    have hrest := ihr (fun c hc => ih c (List.mem_cons_of_mem _ hc))
    have hc := ih c (List.mem_cons_self _ _)
    have := framed_after_write (framed_andThen hc hrest) indent
    intro st
    rw [processIndented_cons, processIndented_cons]
    exact this st

theorem processEach_framed (env : MediaEnv) (p : BlockProcessor)
    (cs : List Block) (ih : ∀ c ∈ cs, Framed (BlockProcessor.ProcessBlock env p c)) :
    Framed (BlockProcessor.processEach env p cs) := by
  induction cs with
  | nil => exact framed_stay none
  | cons c rest ihr =>
    have hrest := ihr (fun c hc => ih c (List.mem_cons_of_mem _ hc))
    have hc := ih c (List.mem_cons_self _ _)
    have := framed_andThen hc hrest
    intro st
    rw [processEach_cons, processEach_cons]
    exact this st

theorem processColumnBlocks_framed (env : MediaEnv) (p : BlockProcessor) (cs : List Block)
    (ih : ∀ b ∈ cs, ∀ g ∈ b.children, Framed (BlockProcessor.ProcessBlock env p g)) :
    Framed (BlockProcessor.processColumnBlocks env p cs) := by
  induction cs with
  | nil => exact framed_stay none
  | cons b rest ihr =>
    have hrest := ihr (fun c hc => ih c (List.mem_cons_of_mem _ hc))
    by_cases hb : ∃ children, b = .Column children
    · obtain ⟨children, rfl⟩ := hb
      have hch := processEach_framed env p children
        (fun g hg => ih _ (List.mem_cons_self _ _) g (by simpa [Block.children] using hg))
      have := framed_after_write
        (framed_andThen hch (framed_after_write hrest "</div>\n")) "<div class=\"col\">\n"
      intro st
      rw [processColumnBlocks_column, processColumnBlocks_column]
      exact this st
    · have hb : ∀ children, b ≠ .Column children := fun children h => hb ⟨children, h⟩
      intro st
      rw [processColumnBlocks_other _ _ _ _ _ hb, processColumnBlocks_other _ _ _ _ _ hb]
      exact hrest st

theorem ProcessBlock_framed_children (env : MediaEnv) (p : BlockProcessor) (b : Block) :
    Framed (BlockProcessor.ProcessBlock env p b) ∧
    ∀ c ∈ b.children, Framed (BlockProcessor.ProcessBlock env p c) := by
  induction b using Block.induction_on_children with
  | step b ih =>
    refine ⟨?_, fun c hc => (ih c hc).1⟩
    cases b
    case BulletedListItem rt cs =>
      have h := processIndented_framed env p "  " cs
        (fun c hc => (ih c (by simpa [Block.children] using hc)).1)
      intro st
      simp only [BlockProcessor.ProcessBlock]
      exact framed_after_write h _ st
    case NumberedListItem rt cs =>
      have h := processIndented_framed env p "   " cs
        (fun c hc => (ih c (by simpa [Block.children] using hc)).1)
      intro st
      simp only [BlockProcessor.ProcessBlock]
      exact framed_after_write h _ st
    case Toggle rt cs =>
      have h := processEach_framed env p cs
        (fun c hc => (ih c (by simpa [Block.children] using hc)).1)
      have := framed_after_write (framed_andThen h (framed_write "</details>\n"))
        ("<details>\n<summary>" ++ BlockProcessor.processRichText rt ++ "</summary>\n\n")
      intro st
      rw [ProcessBlock_toggle, ProcessBlock_toggle]
      exact this st
    case ColumnList cs =>
      have h := processColumnBlocks_framed env p cs
        (fun b hb => (ih b (by simpa [Block.children] using hb)).2)
      have := framed_after_write (framed_andThen h (framed_write "</div>\n"))
        "<div class=\"row\">\n"
      intro st
      rw [ProcessBlock_columnList, ProcessBlock_columnList]
      exact this st
    case Image img =>
      intro st
      simp only [BlockProcessor.ProcessBlock]
      exact processImage_framed env p img st
    case Video v =>
      intro st
      simp only [BlockProcessor.ProcessBlock]
      exact processVideo_framed v st
    case File f =>
      intro st
      simp only [BlockProcessor.ProcessBlock]
      exact processFile_framed p f st
    case Table cs =>
      intro st
      simp only [BlockProcessor.ProcessBlock]
      exact processTable_framed cs st
    case Quote rt cs =>
      intro st
      simp only [BlockProcessor.ProcessBlock, BlockProcessor.processQuote]
      exact framed_of_writer (writeQuoteLines_after _) st
    case Paragraph rt cs =>
      intro st
      simp only [BlockProcessor.ProcessBlock, BlockProcessor.processParagraph]
      split <;> simp [Step.from, RenderState.after, RenderState.write]
    all_goals
      intro st
      simp [BlockProcessor.ProcessBlock, BlockProcessor.processHeading,
        BlockProcessor.processTodo, BlockProcessor.processCode, BlockProcessor.processCallout,
        BlockProcessor.processBookmark, BlockProcessor.processEquation,
        Step.from, RenderState.after, RenderState.write]

/-- Every block renders the same way whatever the buffer already holds. -/
theorem ProcessBlock_framed (env : MediaEnv) (p : BlockProcessor) (b : Block) :
    Framed (BlockProcessor.ProcessBlock env p b) :=
  (ProcessBlock_framed_children env p b).1

theorem agree_write (x : String) :
    Agree (fun st => (st.write x, none)) (fun st => (st.write x, none)) :=
  fun _ => ⟨rfl, rfl⟩

theorem agree_stay (res : Option Fault) : Agree (fun st => (st, res)) (fun st => (st, res)) :=
  fun _ => ⟨rfl, rfl⟩

theorem agree_andThen {T₁ T₂ K₁ K₂ : RenderState → Step} (hT : Agree T₁ T₂)
    (hK : Agree K₁ K₂) :
    Agree (fun st => (T₁ st).andThen K₁) (fun st => (T₂ st).andThen K₂) := by
  intro st
  obtain ⟨h1, h2⟩ := hT st
  simp only
  rw [← h1]
  generalize T₁ st = s at h2
  obtain ⟨r, res⟩ := s
  cases res with
  | none =>
    simp only [Step.andThen]
    exact ⟨(hK r).1, (hK r).2.trans h2⟩
  | some f => exact ⟨rfl, h2⟩

theorem agree_after_write {T₁ T₂ : RenderState → Step} (hT : Agree T₁ T₂) (x : String) :
    Agree (fun st => T₁ (st.write x)) (fun st => T₂ (st.write x)) :=
  fun st => ⟨(hT (st.write x)).1, (hT (st.write x)).2⟩

theorem writeQuoteLines_saved (lines : List String) (st : RenderState) :
    (BlockProcessor.writeQuoteLines lines st).saved = st.saved := by
  induction lines generalizing st with
  | nil => rfl
  | cons line rest ih => simp only [BlockProcessor.writeQuoteLines]; rw [ih]; rfl

theorem writeCells_saved (cells : List (List RichText)) (i : Nat) (st : RenderState) :
    (BlockProcessor.writeCells cells i st).saved = st.saved := by
  induction cells generalizing st i with
  | nil => rfl
  | cons cell rest ih =>
    simp only [BlockProcessor.writeCells]
    rw [ih]
    split <;> rfl

theorem writeSeparator_saved (n i : Nat) (st : RenderState) :
    (BlockProcessor.writeSeparator n i st).saved = st.saved := by
  induction n generalizing st i with
  | zero => rfl
  | succ n ih =>
    simp only [BlockProcessor.writeSeparator]
    rw [ih]
    split <;> rfl

theorem writeRows_saved (rows : List Block) (st : RenderState) :
    (BlockProcessor.writeRows rows st).1.saved = st.saved := by
  induction rows generalizing st with
  | nil => rfl
  | cons row rest ih =>
    cases row <;> simp only [BlockProcessor.writeRows]
    case TableRow cells =>
      rw [ih]
      exact writeCells_saved cells 0 st

theorem processTable_saved (children : List Block) (st : RenderState) :
    (BlockProcessor.processTable children st).1.saved = st.saved := by
  cases children with
  | nil => rfl
  | cons first rest =>
    cases first <;> simp only [BlockProcessor.processTable]
    case TableRow cells =>
      have h := writeRows_saved rest
        ((BlockProcessor.writeSeparator cells.length 0
          ((BlockProcessor.writeCells cells 0 st).write "\n")).write "\n")
      have h2 : ((BlockProcessor.writeSeparator cells.length 0
          ((BlockProcessor.writeCells cells 0 st).write "\n")).write "\n").saved = st.saved := by
        simp [RenderState.write, writeSeparator_saved, writeCells_saved]
      rw [h2] at h
      split
      · rename_i heq
        rw [heq] at h
        exact h
      · rename_i heq
        rw [heq] at h
        exact h

theorem agree_of_saved {T : RenderState → Step} (h : ∀ st, (T st).1.saved = st.saved) :
    Agree T T :=
  fun st => ⟨rfl, h st⟩

theorem processIndented_agree (env₁ env₂ : MediaEnv) (p₁ p₂ : BlockProcessor)
    (indent : String) (cs : List Block)
    (ih : ∀ c ∈ cs, Agree (BlockProcessor.ProcessBlock env₁ p₁ c)
      (BlockProcessor.ProcessBlock env₂ p₂ c)) :
    Agree (BlockProcessor.processIndented env₁ p₁ indent cs)
      (BlockProcessor.processIndented env₂ p₂ indent cs) := by
  induction cs with
  | nil => exact agree_stay none
  | cons c rest ihr =>
    have hrest := ihr (fun c hc => ih c (List.mem_cons_of_mem _ hc))
    have hc := ih c (List.mem_cons_self _ _)
    have := agree_after_write (agree_andThen hc hrest) indent
    intro st
    rw [processIndented_cons, processIndented_cons]
    exact this st

theorem processEach_agree (env₁ env₂ : MediaEnv) (p₁ p₂ : BlockProcessor) (cs : List Block)
    (ih : ∀ c ∈ cs, Agree (BlockProcessor.ProcessBlock env₁ p₁ c)
      (BlockProcessor.ProcessBlock env₂ p₂ c)) :
    Agree (BlockProcessor.processEach env₁ p₁ cs) (BlockProcessor.processEach env₂ p₂ cs) := by
  induction cs with
  | nil => exact agree_stay none
  | cons c rest ihr =>
    have hrest := ihr (fun c hc => ih c (List.mem_cons_of_mem _ hc))
    have hc := ih c (List.mem_cons_self _ _)
    have := agree_andThen hc hrest
    intro st
    rw [processEach_cons, processEach_cons]
    exact this st

theorem processColumnBlocks_agree (env₁ env₂ : MediaEnv) (p₁ p₂ : BlockProcessor)
    (cs : List Block)
    (ih : ∀ b ∈ cs, ∀ g ∈ b.children, Agree (BlockProcessor.ProcessBlock env₁ p₁ g)
      (BlockProcessor.ProcessBlock env₂ p₂ g)) :
    Agree (BlockProcessor.processColumnBlocks env₁ p₁ cs)
      (BlockProcessor.processColumnBlocks env₂ p₂ cs) := by
  induction cs with
  | nil => exact agree_stay none
  | cons b rest ihr =>
    have hrest := ihr (fun c hc => ih c (List.mem_cons_of_mem _ hc))
    by_cases hb : ∃ children, b = .Column children
    · obtain ⟨children, rfl⟩ := hb
      have hch := processEach_agree env₁ env₂ p₁ p₂ children
        (fun g hg => ih _ (List.mem_cons_self _ _) g (by simpa [Block.children] using hg))
      have := agree_after_write
        (agree_andThen hch (agree_after_write hrest "</div>\n")) "<div class=\"col\">\n"
      intro st
      rw [processColumnBlocks_column, processColumnBlocks_column]
      exact this st
    · have hb : ∀ children, b ≠ .Column children := fun children h => hb ⟨children, h⟩
      intro st
      rw [processColumnBlocks_other _ _ _ _ _ hb, processColumnBlocks_other _ _ _ _ _ hb]
      exact hrest st

theorem ProcessBlock_agree_children (env₁ env₂ : MediaEnv) (p₁ p₂ : BlockProcessor)
    (b : Block) (hb : b.noMedia = true) :
    Agree (BlockProcessor.ProcessBlock env₁ p₁ b) (BlockProcessor.ProcessBlock env₂ p₂ b) ∧
    ∀ c ∈ b.children,
      Agree (BlockProcessor.ProcessBlock env₁ p₁ c) (BlockProcessor.ProcessBlock env₂ p₂ c) := by
  induction b using Block.induction_on_children with
  | step b ih =>
    have hch := noMedia_children b hb
    refine ⟨?_, fun c hc => (ih c hc (hch c hc)).1⟩
    cases b
    case BulletedListItem rt cs =>
      have h := processIndented_agree env₁ env₂ p₁ p₂ "  " cs
        (fun c hc => (ih c (by simpa [Block.children] using hc)
          (hch c (by simpa [Block.children] using hc))).1)
      intro st
      simp only [BlockProcessor.ProcessBlock]
      exact agree_after_write h _ st
    case NumberedListItem rt cs =>
      have h := processIndented_agree env₁ env₂ p₁ p₂ "   " cs
        (fun c hc => (ih c (by simpa [Block.children] using hc)
          (hch c (by simpa [Block.children] using hc))).1)
      intro st
      simp only [BlockProcessor.ProcessBlock]
      exact agree_after_write h _ st
    case Toggle rt cs =>
      have h := processEach_agree env₁ env₂ p₁ p₂ cs
        (fun c hc => (ih c (by simpa [Block.children] using hc)
          (hch c (by simpa [Block.children] using hc))).1)
      have := agree_after_write (agree_andThen h (agree_write "</details>\n"))
        ("<details>\n<summary>" ++ BlockProcessor.processRichText rt ++ "</summary>\n\n")
      intro st
      rw [ProcessBlock_toggle, ProcessBlock_toggle]
      exact this st
    case ColumnList cs =>
      have h := processColumnBlocks_agree env₁ env₂ p₁ p₂ cs
        (fun b hb => (ih b (by simpa [Block.children] using hb)
          (hch b (by simpa [Block.children] using hb))).2)
      have := agree_after_write (agree_andThen h (agree_write "</div>\n"))
        "<div class=\"row\">\n"
      intro st
      rw [ProcessBlock_columnList, ProcessBlock_columnList]
      exact this st
    case Image img => simp [Block.noMedia] at hb
    case Video v => simp [Block.noMedia] at hb
    case File f => simp [Block.noMedia] at hb
    case Table cs =>
      intro st
      constructor
      · simp only [BlockProcessor.ProcessBlock]
      · simp only [BlockProcessor.ProcessBlock]
        exact processTable_saved cs st
    case Quote rt cs =>
      intro st
      constructor
      · simp only [BlockProcessor.ProcessBlock]
      · simp only [BlockProcessor.ProcessBlock, BlockProcessor.processQuote]
        exact writeQuoteLines_saved _ st
    case Paragraph rt cs =>
      intro st
      constructor
      · simp only [BlockProcessor.ProcessBlock]
      · simp only [BlockProcessor.ProcessBlock, BlockProcessor.processParagraph]
        split <;> rfl
    all_goals
      intro st
      constructor <;>
        simp [BlockProcessor.ProcessBlock, BlockProcessor.processHeading,
          BlockProcessor.processTodo, BlockProcessor.processCode,
          BlockProcessor.processCallout, BlockProcessor.processBookmark,
          BlockProcessor.processEquation, RenderState.write]

theorem processIndented_out (env : MediaEnv) (p : BlockProcessor) (indent : String)
    (cs : List Block) (st : RenderState)
    (hok : ∀ c ∈ cs, (BlockProcessor.ProcessBlock env p c {}).2 = none) :
    (BlockProcessor.processIndented env p indent cs st).1.out =
      st.out ++ concat (cs.map (fun c => indent ++ rendering env p c)) ∧
    (BlockProcessor.processIndented env p indent cs st).2 = none := by
  induction cs generalizing st with
  | nil => simp [BlockProcessor.processIndented, concat]
  | cons c rest ih =>
    have hc := hok c (List.mem_cons_self _ _)
    rw [processIndented_cons, ProcessBlock_framed env p c (st.write indent)]
    simp only [rendering, List.map_cons, concat]
    generalize BlockProcessor.ProcessBlock env p c {} = s at hc
    obtain ⟨r, res⟩ := s
    simp only at hc
    subst hc
    simp only [Step.from, Step.andThen]
    obtain ⟨h1, h2⟩ := ih ((st.write indent).after r)
      (fun c hc => hok c (List.mem_cons_of_mem _ hc))
    refine ⟨?_, h2⟩
    rw [h1]
    simp only [RenderState.after, RenderState.write, String.append_assoc, rendering]

/-! ## Block renderer: the properties -/

/-- Claim C8.  On a tree without image, video or file node, `ProcessBlock` gives the
same result and the same buffer whatever the media handler (none included) and
whatever the outside world, and `SaveMedia` is not called. -/
theorem C8_rendering_independent_of_media_handler (env₁ env₂ : MediaEnv) (p : BlockProcessor)
    (h₁ h₂ : Option MediaHandler) (b : Block) (st : RenderState)
    (hb : b.noMedia = true) :
    BlockProcessor.ProcessBlock env₁ { p with mediaHandler := h₁ } b st =
      BlockProcessor.ProcessBlock env₂ { p with mediaHandler := h₂ } b st ∧
    (BlockProcessor.ProcessBlock env₁ { p with mediaHandler := h₁ } b st).1.saved = st.saved :=
  (ProcessBlock_agree_children env₁ env₂ _ _ b hb).1 st

/-- Witness of C8: a toggle with a paragraph, without handler and with a
handler that always fails. -/
theorem C8_rendering_independent_of_media_handler_witness :
    toggleExample.noMedia = true ∧
    (BlockProcessor.ProcessBlock offline { noHandler with mediaHandler := none }
        toggleExample {} =
      BlockProcessor.ProcessBlock offline { noHandler with mediaHandler := some failingHandler }
        toggleExample {} ∧
    (BlockProcessor.ProcessBlock offline { noHandler with mediaHandler := none }
      toggleExample {}).1.saved = ({} : RenderState).saved) :=
  ⟨by decide,
    C8_rendering_independent_of_media_handler offline offline noHandler none
      (some failingHandler) toggleExample {} (by decide)⟩

/-- Claim C9, at the failing input.  A paragraph, a quote and a callout render
their own text only: the children they carry are not rendered, whatever they
are, while the child alone does render. -/
theorem C9_children_of_paragraph_quote_callout_dropped (env : MediaEnv) (p : BlockProcessor)
    (rt : List RichText) (icon : Option Icon) (children : List Block) (st : RenderState) :
    BlockProcessor.ProcessBlock env p (.Paragraph rt children) st =
      BlockProcessor.ProcessBlock env p (.Paragraph rt []) st ∧
    BlockProcessor.ProcessBlock env p (.Quote rt children) st =
      BlockProcessor.ProcessBlock env p (.Quote rt []) st ∧
    BlockProcessor.ProcessBlock env p (.Callout rt icon children) st =
      BlockProcessor.ProcessBlock env p (.Callout rt icon []) st ∧
    rendering offline noHandler (.Paragraph [plain "C"] []) = "C\n\n" ∧
    BlockProcessor.ProcessBlock offline noHandler
      (.Paragraph [plain "P"] [.Paragraph [plain "C"] []]) {} = ({ out := "P\n\n" }, none) ∧
    BlockProcessor.ProcessBlock offline noHandler
      (.Quote [plain "Q"] [.Paragraph [plain "C"] []]) {} = ({ out := "> Q\n" }, none) ∧
    BlockProcessor.ProcessBlock offline noHandler
      (.Callout [plain "K"] none [.Paragraph [plain "C"] []]) {} =
        ({ out := "> 💡 K\n\n" }, none) := by
  refine ⟨?_, ?_, ?_, by decide, by decide, by decide, by decide⟩ <;>
    simp only [BlockProcessor.ProcessBlock]

/-- Claim C10.  A bulleted item renders `- t` and a newline, then for each child in
order the two-space indent followed by the child's full rendering; a numbered
item renders `1. t` with a three-space indent.  The indent is written once per
child: the second line of a two-line child is not indented, and a grandchild
item gets the same single indent as a child. -/
theorem C10_list_item_indents_each_child_once (env : MediaEnv) (p : BlockProcessor)
    (rt : List RichText) (children : List Block) (st : RenderState)
    (hok : ∀ c ∈ children, (BlockProcessor.ProcessBlock env p c {}).2 = none) :
    ((BlockProcessor.ProcessBlock env p (.BulletedListItem rt children) st).1.out =
        st.out ++ ("- " ++ BlockProcessor.processRichText rt ++ "\n") ++
          concat (children.map (fun c => "  " ++ rendering env p c)) ∧
      (BlockProcessor.ProcessBlock env p (.BulletedListItem rt children) st).2 = none) ∧
    ((BlockProcessor.ProcessBlock env p (.NumberedListItem rt children) st).1.out =
        st.out ++ ("1. " ++ BlockProcessor.processRichText rt ++ "\n") ++
          concat (children.map (fun c => "   " ++ rendering env p c)) ∧
      (BlockProcessor.ProcessBlock env p (.NumberedListItem rt children) st).2 = none) ∧
    rendering offline noHandler (.BulletedListItem [plain "a"] [.Paragraph [plain "x\ny"] []]) =
      "- a\n  x\ny\n\n" ∧
    rendering offline noHandler (.BulletedListItem [plain "a"]
      [.BulletedListItem [plain "b"] [.BulletedListItem [plain "c"] []]]) =
      "- a\n  - b\n  - c\n" ∧
    rendering offline noHandler (.NumberedListItem [plain "a"]
      [.NumberedListItem [plain "b"] [.NumberedListItem [plain "c"] []]]) =
      "1. a\n   1. b\n   1. c\n" := by
  refine ⟨?_, ?_, by decide, by decide, by decide⟩
  · simp only [BlockProcessor.ProcessBlock]
    exact processIndented_out env p "  " children _ hok
  · simp only [BlockProcessor.ProcessBlock]
    exact processIndented_out env p "   " children _ hok

/-- Witness of C10: an item with a two-line paragraph and a nested item. -/
theorem C10_list_item_indents_each_child_once_witness :
    (∀ c ∈ bulletChildren, (BlockProcessor.ProcessBlock offline noHandler c {}).2 = none) ∧
    (((BlockProcessor.ProcessBlock offline noHandler
          (.BulletedListItem [plain "a"] bulletChildren) {}).1.out =
        ({} : RenderState).out ++ ("- " ++ BlockProcessor.processRichText [plain "a"] ++ "\n") ++
          concat (bulletChildren.map (fun c => "  " ++ rendering offline noHandler c)) ∧
      (BlockProcessor.ProcessBlock offline noHandler
          (.BulletedListItem [plain "a"] bulletChildren) {}).2 = none) ∧
    ((BlockProcessor.ProcessBlock offline noHandler
          (.NumberedListItem [plain "a"] bulletChildren) {}).1.out =
        ({} : RenderState).out ++ ("1. " ++ BlockProcessor.processRichText [plain "a"] ++ "\n") ++
          concat (bulletChildren.map (fun c => "   " ++ rendering offline noHandler c)) ∧
      (BlockProcessor.ProcessBlock offline noHandler
          (.NumberedListItem [plain "a"] bulletChildren) {}).2 = none) ∧
    rendering offline noHandler (.BulletedListItem [plain "a"] [.Paragraph [plain "x\ny"] []]) =
      "- a\n  x\ny\n\n" ∧
    rendering offline noHandler (.BulletedListItem [plain "a"]
      [.BulletedListItem [plain "b"] [.BulletedListItem [plain "c"] []]]) =
      "- a\n  - b\n  - c\n" ∧
    rendering offline noHandler (.NumberedListItem [plain "a"]
      [.NumberedListItem [plain "b"] [.NumberedListItem [plain "c"] []]]) =
      "1. a\n   1. b\n   1. c\n") :=
  ⟨by decide,
    C10_list_item_indents_each_child_once offline noHandler [plain "a"] bulletChildren {}
      (by decide)⟩

/-! ## Document assembler: lemmas -/

theorem wrapped_ne_skip (pre : String) (c : Char) (rest e : String)
    (hpre : pre.data = c :: rest.data) (hc : c ≠ '跳') :
    Fault.error (pre ++ e) ≠ ErrSkipPage := by
  intro h
  have h2 : (pre ++ e).data = "跳过文章".data := by
    simp only [ErrSkipPage, Fault.error.injEq] at h
    rw [h]
  rw [String.data_append, hpre] at h2
  have h3 : ("跳过文章" : String).data = ['跳', '过', '文', '章'] := by decide
  rw [h3] at h2
  simp only [List.cons_append, List.cons.injEq] at h2
  exact hc h2.1

theorem Convert_never_ErrSkipPage (env : HostEnv) (h : HugoConverter) (page : Page)
    (blocks : List Block) : (h.Convert env page blocks).err ≠ some ErrSkipPage := by
  have hmeta := ProcessMetadata_error h.metaProcessor page
  have w1 := fun e => wrapped_ne_skip "处理块失败: " '处' "理块失败: " e (by decide) (by decide)
  have w2 := fun e => wrapped_ne_skip "解析模板失败: " '解' "析模板失败: " e (by decide) (by decide)
  have w3 := fun e => wrapped_ne_skip "创建目录失败: " '创' "建目录失败: " e (by decide) (by decide)
  have w4 := fun e => wrapped_ne_skip "创建文件失败: " '创' "建文件失败: " e (by decide) (by decide)
  have w5 := fun e => wrapped_ne_skip "渲染模板失败: " '渲' "染模板失败: " e (by decide) (by decide)
  unfold HugoConverter.Convert
  generalize h.metaProcessor.ProcessMetadata page = m at hmeta
  obtain ⟨metadata, err⟩ := m
  simp only at hmeta
  subst hmeta
  simp only
  generalize BlockProcessor.processEach env.toMediaEnv _ blocks {} = r
  obtain ⟨st, res⟩ := r
  cases res with
  | some f =>
    cases f with
    | error e => exact fun hh => w1 e (Option.some.inj hh)
    | panic e => simp [ErrSkipPage]
  | none =>
    simp only
    repeat' split
    all_goals first
      | exact fun hh => w2 _ (Option.some.inj hh)
      | exact fun hh => w3 _ (Option.some.inj hh)
      | exact fun hh => w4 _ (Option.some.inj hh)
      | exact fun hh => w5 _ (Option.some.inj hh)
      | exact fun hh => Option.noConfusion hh

/-! ## Document assembler: the properties -/

/-- Claim C1, at the failing input.  The page with `Categories = ["Tech", "Life"]`
has a category without mapping and `ProcessMetadata` returns the skip result for
it, yet `Convert` goes on: it binds the media context, renders the block, writes
the document under `uncategorized` with empty front matter and returns `nil`,
not the skip sentinel; no call of `Convert` returns the sentinel at all. -/
theorem C1_convert_goes_on_after_skip_result :
    (∃ name ∈ categoryNames techLifePage,
      exampleConverter.metaProcessor.CategoryMap name = none) ∧
    exampleConverter.metaProcessor.ProcessMetadata techLifePage = (none, none) ∧
    exampleConverter.Convert offlineHost techLifePage [.Paragraph [plain "Hi"] []] =
      { err := none
        context := some ("uncategorized", "p1")
        render := { out := "Hi\n\n" }
        written := some ("content/uncategorized/p1.md", unmappedPageData) } ∧
    (exampleConverter.Convert offlineHost techLifePage [.Paragraph [plain "Hi"] []]).err ≠
      some ErrSkipPage ∧
    (∀ (env : HostEnv) (h : HugoConverter) (page : Page) (blocks : List Block),
      (h.Convert env page blocks).err ≠ some ErrSkipPage) := by
  refine ⟨⟨"Life", by decide, by decide⟩, by decide, by decide, by decide,
    Convert_never_ErrSkipPage⟩

/-! ## Block renderer: per-variant output -/

theorem processEach_out (env : MediaEnv) (p : BlockProcessor) (cs : List Block)
    (st : RenderState) (hok : ∀ c ∈ cs, (BlockProcessor.ProcessBlock env p c {}).2 = none) :
    (BlockProcessor.processEach env p cs st).1.out =
      st.out ++ concat (cs.map (fun c => rendering env p c)) ∧
    (BlockProcessor.processEach env p cs st).2 = none := by
  induction cs generalizing st with
  | nil => simp [BlockProcessor.processEach, concat]
  | cons c rest ih =>
    have hc := hok c (List.mem_cons_self _ _)
    rw [processEach_cons, ProcessBlock_framed env p c st]
    simp only [rendering, List.map_cons, concat]
    generalize BlockProcessor.ProcessBlock env p c {} = s at hc
    obtain ⟨r, res⟩ := s
    simp only at hc
    subst hc
    simp only [Step.from, Step.andThen]
    obtain ⟨h1, h2⟩ := ih (st.after r) (fun c hc => hok c (List.mem_cons_of_mem _ hc))
    refine ⟨?_, h2⟩
    rw [h1]
    simp only [RenderState.after, String.append_assoc, rendering]

/-- Claim C20.  A code block renders the fence with the block's language, the
formatted content and the closing fence followed by a blank line; the language
`plain text` gives a fence without language, every other language stands as it
is; `plain text` with content `x=1` renders the fence around `x=1`. -/
theorem C20_code_fence_plain_text_without_language (env : MediaEnv) (p : BlockProcessor)
    (rt : List RichText) (language : String) (st : RenderState) :
    BlockProcessor.ProcessBlock env p (.Code rt language) st =
      (st.write ("```" ++ (if language = "plain text" then "" else language) ++ "\n" ++
        BlockProcessor.processRichText rt ++ "\n```\n\n"), none) ∧
    BlockProcessor.ProcessBlock env p (.Code rt "plain text") st =
      (st.write ("```" ++ "" ++ "\n" ++ BlockProcessor.processRichText rt ++ "\n```\n\n"), none) ∧
    rendering offline noHandler (.Code [plain "x=1"] "plain text") = "```\nx=1\n```\n\n" ∧
    rendering offline noHandler (.Code [plain "x=1"] "go") = "```go\nx=1\n```\n\n" := by
  refine ⟨?_, ?_, by decide, by decide⟩ <;>
    simp [BlockProcessor.ProcessBlock, BlockProcessor.processCode]

/-- Claim C19.  A toggle with summary `s` whose children render without failure
renders the opening `details` and `summary` lines, a blank line, the renderings
of the children in order and the closing `details` line; summary `More` with
one paragraph `Hi` renders as in the specification's scenario. -/
theorem C19_toggle_wraps_children_in_details (env : MediaEnv) (p : BlockProcessor)
    (rt : List RichText) (children : List Block) (st : RenderState)
    (hok : ∀ c ∈ children, (BlockProcessor.ProcessBlock env p c {}).2 = none) :
    (BlockProcessor.ProcessBlock env p (.Toggle rt children) st).1.out =
      st.out ++ ("<details>\n<summary>" ++ BlockProcessor.processRichText rt ++
        "</summary>\n\n") ++ concat (children.map (fun c => rendering env p c)) ++
        "</details>\n" ∧
    (BlockProcessor.ProcessBlock env p (.Toggle rt children) st).2 = none ∧
    rendering offline noHandler toggleExample =
      "<details>\n<summary>More</summary>\n\nHi\n\n</details>\n" := by
  refine ⟨?_, ?_, by decide⟩
  all_goals
    rw [ProcessBlock_toggle]
    obtain ⟨h1, h2⟩ := processEach_out env p children
      (st.write ("<details>\n<summary>" ++ BlockProcessor.processRichText rt ++
        "</summary>\n\n")) hok
    generalize BlockProcessor.processEach env p children _ = s at h1 h2
    obtain ⟨r, res⟩ := s
    simp only at h1 h2
    subst h2
    simp [Step.andThen, RenderState.write, h1, String.append_assoc]

/-- Witness of C19: the toggle `More` with the paragraph `Hi`. -/
theorem C19_toggle_wraps_children_in_details_witness :
    (∀ c ∈ [Block.Paragraph [plain "Hi"] []],
      (BlockProcessor.ProcessBlock offline noHandler c {}).2 = none) ∧
    ((BlockProcessor.ProcessBlock offline noHandler
        (.Toggle [plain "More"] [Block.Paragraph [plain "Hi"] []]) {}).1.out =
      ({} : RenderState).out ++ ("<details>\n<summary>" ++
        BlockProcessor.processRichText [plain "More"] ++ "</summary>\n\n") ++
        concat ([Block.Paragraph [plain "Hi"] []].map (fun c => rendering offline noHandler c)) ++
        "</details>\n" ∧
    (BlockProcessor.ProcessBlock offline noHandler
        (.Toggle [plain "More"] [Block.Paragraph [plain "Hi"] []]) {}).2 = none ∧
    rendering offline noHandler toggleExample =
      "<details>\n<summary>More</summary>\n\nHi\n\n</details>\n") :=
  ⟨by decide,
    C19_toggle_wraps_children_in_details offline noHandler [plain "More"]
      [Block.Paragraph [plain "Hi"] []] {} (by decide)⟩

/-- Claim C13.  For an image block whose source URL resolves and whose save
succeeds, `processImage` emits exactly `![caption](url)` and a blank line, the
caption being the formatted caption runs or `image` when they are empty, and the
URL being what the configured media handler returns for the source URL (the
source URL itself without handler); empty caption and a handler returning
`https://cdn/x.png` give `![image](https://cdn/x.png)`. -/
theorem C13_image_emits_caption_and_saved_url (env : MediaEnv) (p : BlockProcessor)
    (img : MediaObject) (st : RenderState) (url newURL : String)
    (hurl : BlockProcessor.mediaURL img = .ok url)
    (hsave : externalized env p url = .ok newURL) :
    (BlockProcessor.ProcessBlock env p (.Image img) st).1.out =
      st.out ++ ("![" ++ imageCaption img ++ "](" ++ newURL ++ ")\n\n") ∧
    (BlockProcessor.ProcessBlock env p (.Image img) st).2 = none ∧
    (p.mediaHandler = none → newURL = url) ∧
    rendering offline { noHandler with mediaHandler := some cdnHandler } (.Image hostedImage) =
      "![image](https://cdn/x.png)\n\n" := by
  refine ⟨?_, ?_, ?_, by decide⟩
  · simp only [BlockProcessor.ProcessBlock, BlockProcessor.processImage, hurl]
    unfold externalized at hsave
    cases hh : p.mediaHandler with
    | none =>
      rw [hh] at hsave
      simp only [Except.ok.injEq] at hsave
      subst hsave
      simp [RenderState.write, imageCaption, String.append_assoc]
    | some handler =>
      rw [hh] at hsave
      simp only at hsave
      simp [hsave, RenderState.write, imageCaption, String.append_assoc]
  · simp only [BlockProcessor.ProcessBlock, BlockProcessor.processImage, hurl]
    unfold externalized at hsave
    cases hh : p.mediaHandler with
    | none => simp
    | some handler =>
      rw [hh] at hsave
      simp only at hsave
      simp [hsave]
  · intro hh
    unfold externalized at hsave
    rw [hh] at hsave
    simp only [Except.ok.injEq] at hsave
    exact hsave.symm

/-- Witness of C13: a hosted image without caption, saved by a handler that
returns `https://cdn/x.png`. -/
theorem C13_image_emits_caption_and_saved_url_witness :
    BlockProcessor.mediaURL hostedImage = .ok "https://files.example/a/x.png" ∧
    externalized offline { noHandler with mediaHandler := some cdnHandler }
      "https://files.example/a/x.png" = .ok "https://cdn/x.png" ∧
    ((BlockProcessor.ProcessBlock offline { noHandler with mediaHandler := some cdnHandler }
        (.Image hostedImage) {}).1.out =
      ({} : RenderState).out ++
        ("![" ++ imageCaption hostedImage ++ "](" ++ "https://cdn/x.png" ++ ")\n\n") ∧
    (BlockProcessor.ProcessBlock offline { noHandler with mediaHandler := some cdnHandler }
        (.Image hostedImage) {}).2 = none ∧
    (({ noHandler with mediaHandler := some cdnHandler } : BlockProcessor).mediaHandler = none →
      "https://cdn/x.png" = "https://files.example/a/x.png") ∧
    rendering offline { noHandler with mediaHandler := some cdnHandler } (.Image hostedImage) =
      "![image](https://cdn/x.png)\n\n") :=
  ⟨by decide, by decide,
    C13_image_emits_caption_and_saved_url offline
      { noHandler with mediaHandler := some cdnHandler } hostedImage {}
      "https://files.example/a/x.png" "https://cdn/x.png" (by decide) (by decide)⟩

/-- Claim C17.  For a file block whose URL `u` resolves, with `f` the last path
segment of `u`: nothing is emitted when `u` is empty or the variant is neither
external nor hosted; else, when `f` ends in `.pdf` whatever the case, the output
is the `pdf` short code in short-code mode and the `embed` tag otherwise; else
it is the Markdown link `[f](u)`. -/
theorem C17_file_block_pdf_embed_or_link (env : MediaEnv) (p : BlockProcessor)
    (file : MediaObject) (st : RenderState) (u : String)
    (hurl : BlockProcessor.fileURL file = .ok u) :
    BlockProcessor.ProcessBlock env p (.File file) st =
      (st.write (fileOutputSpec p.UseShortcodes file.Type u), none) ∧
    fileOutputSpec p.UseShortcodes file.Type "" = "" ∧
    ((file.Type ≠ "external" ∧ file.Type ≠ "file") → u = "") ∧
    rendering offline noHandler (.File pdfFile) =
      "\x7b\x7b< pdf src=\"https://files.example/docs/Paper.PDF\" >\x7d\x7d\n\n" ∧
    rendering offline { noHandler with UseShortcodes := false } (.File pdfFile) =
      "<embed src=\"https://files.example/docs/Paper.PDF\" type=\"application/pdf\" width=\"100%\" height=\"600px\">\n\n" ∧
    rendering offline noHandler
      (.File { «Type» := "file", File := some { URL := "https://files.example/a/notes.txt" } }) =
      "[notes.txt](https://files.example/a/notes.txt)\n\n" := by
  refine ⟨?_, by simp [fileOutputSpec], ?_, by decide, by decide, by decide⟩
  · simp only [BlockProcessor.ProcessBlock, BlockProcessor.processFile, hurl, fileOutputSpec]
    by_cases hu : u = ""
    · simp [hu, RenderState.write]
    · have hvar : file.Type = "external" ∨ file.Type = "file" := by
        unfold BlockProcessor.fileURL at hurl
        by_cases h1 : file.Type = "external"
        · exact Or.inl h1
        · by_cases h2 : file.Type = "file"
          · exact Or.inr h2
          · simp [h1, h2] at hurl
            exact absurd hurl.symm hu
      have hnot : ¬ (file.Type ≠ "external" ∧ file.Type ≠ "file") := by
        intro h
        rcases hvar with h1 | h1
        · exact h.1 h1
        · exact h.2 h1
      simp only [hu, hvar, hnot, if_true, if_false, false_or]
      by_cases hpdf : hasSuffix (toLower (filepathBase u)) ".pdf" = true
      · by_cases hs : p.UseShortcodes = true <;> simp [hpdf, hs]
      · simp [hpdf]
  · intro hvar
    unfold BlockProcessor.fileURL at hurl
    simp [hvar.1, hvar.2] at hurl
    exact hurl.symm

/-- Witness of C17: an external file block pointing at `Paper.PDF`. -/
theorem C17_file_block_pdf_embed_or_link_witness :
    BlockProcessor.fileURL pdfFile = .ok "https://files.example/docs/Paper.PDF" ∧
    (BlockProcessor.ProcessBlock offline noHandler (.File pdfFile) {} =
      (({} : RenderState).write (fileOutputSpec noHandler.UseShortcodes pdfFile.Type
        "https://files.example/docs/Paper.PDF"), none) ∧
    fileOutputSpec noHandler.UseShortcodes pdfFile.Type "" = "" ∧
    ((pdfFile.Type ≠ "external" ∧ pdfFile.Type ≠ "file") →
      "https://files.example/docs/Paper.PDF" = "") ∧
    rendering offline noHandler (.File pdfFile) =
      "\x7b\x7b< pdf src=\"https://files.example/docs/Paper.PDF\" >\x7d\x7d\n\n" ∧
    rendering offline { noHandler with UseShortcodes := false } (.File pdfFile) =
      "<embed src=\"https://files.example/docs/Paper.PDF\" type=\"application/pdf\" width=\"100%\" height=\"600px\">\n\n" ∧
    rendering offline noHandler
      (.File { «Type» := "file", File := some { URL := "https://files.example/a/notes.txt" } }) =
      "[notes.txt](https://files.example/a/notes.txt)\n\n") :=
  ⟨by decide,
    C17_file_block_pdf_embed_or_link offline noHandler pdfFile {}
      "https://files.example/docs/Paper.PDF" (by decide)⟩

/-! ## Go `strings.Split`: lemmas -/

theorem hasPrefixChars_iff (s p : List Char) : hasPrefixChars s p = true ↔ p <+: s := by
  induction p generalizing s with
  | nil => simp [hasPrefixChars]
  | cons a p ih =>
    cases s with
    | nil => simp [hasPrefixChars]
    | cons b s =>
      simp only [hasPrefixChars, Bool.and_eq_true, beq_iff_eq, ih, List.cons_prefix_cons]
      constructor
      · rintro ⟨h1, h2⟩; exact ⟨h1.symm, h2⟩
      · rintro ⟨h1, h2⟩; exact ⟨h1.symm, h2⟩

theorem splitGo_ne_nil (sep s : List Char) (skip : Nat) (cur : List Char) :
    splitGo sep s skip cur ≠ [] := by
  induction s generalizing skip cur with
  | nil => simp [splitGo]
  | cons x xs ih =>
    cases skip with
    | succ k => simpa [splitGo] using ih k cur
    | zero =>
      simp only [splitGo]
      split
      · simp
      · exact ih 0 _

theorem joinChars_cons (sep x : List Char) (rest : List (List Char)) (h : rest ≠ []) :
    joinChars sep (x :: rest) = x ++ sep ++ joinChars sep rest := by
  cases rest with
  | nil => exact absurd rfl h
  | cons y ys => rfl

theorem splitGo_joinChars (sep : List Char) (hsep : sep ≠ []) (s : List Char) :
    ∀ (skip : Nat) (cur : List Char), skip ≤ sep.length →
      sep.drop (sep.length - skip) <+: s →
      joinChars sep (splitGo sep s skip cur) = cur.reverse ++ s.drop skip := by
  induction s with
  | nil =>
    intro skip cur _ _
    simp [splitGo, joinChars]
  | cons x xs ih =>
    intro skip cur hle hpre
    cases skip with
    | succ k =>
      simp only [splitGo, List.drop_succ_cons]
      apply ih k cur (by omega)
      have hlt : sep.length - (k + 1) < sep.length := by omega
      have hd : sep.drop (sep.length - (k + 1)) =
          sep[sep.length - (k + 1)] :: sep.drop (sep.length - k) := by
        rw [List.drop_eq_getElem_cons hlt]
        congr 2
        omega
      rw [hd] at hpre
      exact (List.cons_prefix_cons.1 hpre).2
    | zero =>
      simp only [splitGo, List.drop_zero]
      by_cases hm : hasPrefixChars (x :: xs) sep = true
      · rw [if_pos hm, joinChars_cons _ _ _ (splitGo_ne_nil _ _ _ _)]
        have hp := (hasPrefixChars_iff _ _).1 hm
        obtain ⟨t, ht⟩ := hp
        cases sep with
        | nil => exact absurd rfl hsep
        | cons a sep' =>
          simp only [List.cons_append, List.cons.injEq] at ht
          obtain ⟨rfl, ht⟩ := ht
          have := ih (sep'.length) [] (by simp) (by
            simp only [List.length_cons, Nat.add_sub_cancel_left, List.drop_succ_cons,
              List.drop_zero]
            have : 1 + sep'.length - sep'.length = 1 := by omega
            rw [← ht]
            simp)
          simp only [List.length_cons, Nat.add_sub_cancel] 
          rw [this, ← ht]
          simp
      · rw [if_neg hm]
        rw [ih 0 (x :: cur) (by omega) (by simp)]
        simp

theorem splitGo_two (sep : List Char) (hsep : sep ≠ []) (s a b : List Char)
    (h : splitGo sep s 0 [] = [a, b]) : s = a ++ sep ++ b := by
  have := splitGo_joinChars sep hsep s 0 [] (Nat.zero_le _) (by simp)
  rw [h] at this
  simpa [joinChars] using this.symm

theorem splitGo_not_contained (sep s cur : List Char) (h : containsChars s sep = false) :
    splitGo sep s 0 cur = [cur.reverse ++ s] := by
  induction s generalizing cur with
  | nil => simp [splitGo]
  | cons x xs ih =>
    simp only [containsChars, Bool.or_eq_false_iff] at h
    simp only [splitGo, h.1, Bool.false_eq_true, if_false]
    rw [ih _ h.2]
    simp

theorem splitGo_char_head (c : Char) (s cur : List Char) :
    (splitGo [c] s 0 cur).head? = some (cur.reverse ++ s.takeWhile (fun x => x != c)) := by
  induction s generalizing cur with
  | nil => simp [splitGo]
  | cons x xs ih =>
    by_cases hx : x = c
    · subst hx
      simp [splitGo, hasPrefixChars]
    · have : (x == c) = false := by simpa using hx
      simp [splitGo, hasPrefixChars, this, ih, hx]

theorem splitGo_char_length (c : Char) (s cur : List Char) :
    (splitGo [c] s 0 cur).length = s.count c + 1 := by
  induction s generalizing cur with
  | nil => simp [splitGo]
  | cons x xs ih =>
    by_cases hx : x = c
    · subst hx
      simp [splitGo, hasPrefixChars, ih]
    · have : (x == c) = false := by simpa using hx
      simp [splitGo, hasPrefixChars, this, ih, List.count_cons, hx]

theorem splitGo_char_pieces (c : Char) (s cur : List Char) (hcur : c ∉ cur) :
    ∀ piece ∈ splitGo [c] s 0 cur, c ∉ piece := by
  induction s generalizing cur with
  | nil => simpa [splitGo] using hcur
  | cons x xs ih =>
    by_cases hx : x = c
    · subst hx
      intro piece hp
      simp only [splitGo, hasPrefixChars, beq_self_eq_true, Bool.and_self, if_true,
        List.length_singleton, Nat.sub_self, List.mem_cons] at hp
      rcases hp with rfl | hp
      · simpa using hcur
      · exact ih [] (by simp) piece hp
    · have : (x == c) = false := by simpa using hx
      intro piece hp
      simp only [splitGo, hasPrefixChars, this, Bool.false_and, Bool.false_eq_true,
        if_false] at hp
      exact ih (x :: cur) (by simp only [List.mem_cons, not_or]; exact ⟨fun h => hx h.symm, hcur⟩) piece hp

theorem split_newline_length (text : String) :
    (split text "\n").length = text.data.count '\n' + 1 := by
  simp only [split, List.length_map]
  exact splitGo_char_length '\n' text.data []

theorem split_newline_pieces (text : String) :
    ∀ piece ∈ split text "\n", '\n' ∉ piece.data := by
  intro piece hp
  simp only [split, List.mem_map] at hp
  obtain ⟨chars, hc, rfl⟩ := hp
  exact splitGo_char_pieces '\n' text.data [] (by simp) chars hc

theorem concat_lines_count (pre : String) (lines : List String) (hpre : '\n' ∉ pre.data)
    (hl : ∀ line ∈ lines, '\n' ∉ line.data) :
    (concat (lines.map (fun line => pre ++ line ++ "\n"))).data.count '\n' = lines.length := by
  induction lines with
  | nil => simp [concat]
  | cons line rest ih =>
    have h1 := hl line (List.mem_cons_self _ _)
    have h2 := ih (fun l hl' => hl l (List.mem_cons_of_mem _ hl'))
    have h3 : ("\n" : String).data = ['\n'] := rfl
    simp only [List.map_cons, concat, String.data_append, List.count_append, h2, h3,
      List.count_eq_zero_of_not_mem hpre, List.count_eq_zero_of_not_mem h1, List.length_cons]
    simp
    omega

theorem writeQuoteLines_eq (lines : List String) (st : RenderState) :
    BlockProcessor.writeQuoteLines lines st = st.write (quoteText lines) := by
  induction lines generalizing st with
  | nil => simp [BlockProcessor.writeQuoteLines, quoteText, concat, RenderState.write]
  | cons line rest ih =>
    simp only [BlockProcessor.writeQuoteLines, ih]
    simp [quoteText, concat, RenderState.write, String.append_assoc]

/-- Claim C18.  A quote block splits its formatted text at every newline and
emits each piece between `> ` and a newline, in order; the pieces hold no
newline and are one more than the newlines of the text, so the output has that
many lines, each starting with `> `; an empty text renders `> ` and a newline. -/
theorem C18_quote_prefixes_every_line (env : MediaEnv) (p : BlockProcessor)
    (rt : List RichText) (children : List Block) (st : RenderState) :
    BlockProcessor.ProcessBlock env p (.Quote rt children) st =
      (st.write (concat ((split (BlockProcessor.processRichText rt) "\n").map
        (fun piece => "> " ++ piece ++ "\n"))), none) ∧
    (split (BlockProcessor.processRichText rt) "\n").length =
      (BlockProcessor.processRichText rt).data.count '\n' + 1 ∧
    (∀ piece ∈ split (BlockProcessor.processRichText rt) "\n", '\n' ∉ piece.data) ∧
    (concat ((split (BlockProcessor.processRichText rt) "\n").map
        (fun piece => "> " ++ piece ++ "\n"))).data.count '\n' =
      (BlockProcessor.processRichText rt).data.count '\n' + 1 ∧
    rendering offline noHandler (.Quote [] []) = "> \n" ∧
    rendering offline noHandler (.Quote [plain "a\nb"] []) = "> a\n> b\n" := by
  refine ⟨?_, split_newline_length _, split_newline_pieces _, ?_, by decide, by decide⟩
  · simp only [BlockProcessor.ProcessBlock, BlockProcessor.processQuote, writeQuoteLines_eq,
      quoteText]
  · rw [concat_lines_count "> " _ (by decide) (split_newline_pieces _), split_newline_length]

/-! ## Tables: lemmas -/

theorem intercalate_go_eq (acc sep : String) (parts : List String) :
    String.intercalate.go acc sep parts = acc ++ concat (parts.map (fun x => sep ++ x)) := by
  induction parts generalizing acc with
  | nil => simp [String.intercalate.go, concat]
  | cons x rest ih => simp [String.intercalate.go, ih, concat, String.append_assoc]

theorem join_cons (sep x : String) (rest : List String) :
    join (x :: rest) sep = x ++ concat (rest.map (fun y => sep ++ y)) := by
  simp [join, String.intercalate, intercalate_go_eq]

theorem writeCells_later (cells : List (List RichText)) (i : Nat) (st : RenderState) :
    BlockProcessor.writeCells cells (i + 1) st =
      st.write (concat (cells.map (fun c => " | " ++ BlockProcessor.processRichText c))) := by
  induction cells generalizing st i with
  | nil => simp [BlockProcessor.writeCells, concat, RenderState.write]
  | cons cell rest ih =>
    simp only [BlockProcessor.writeCells, ih, Nat.succ_pos, if_true, gt_iff_lt,
      Nat.zero_lt_succ]
    simp [RenderState.write, concat, String.append_assoc]

theorem writeCells_eq (cells : List (List RichText)) (st : RenderState) :
    BlockProcessor.writeCells cells 0 st = st.write (rowLine cells) := by
  cases cells with
  | nil => simp [BlockProcessor.writeCells, rowLine, join, String.intercalate, RenderState.write]
  | cons cell rest =>
    simp only [BlockProcessor.writeCells, writeCells_later, rowLine, List.map_cons, join_cons,
      Nat.lt_irrefl, gt_iff_lt, if_false]
    simp [RenderState.write, String.append_assoc, List.map_map, Function.comp_def]

theorem writeSeparator_later (n i : Nat) (st : RenderState) :
    BlockProcessor.writeSeparator n (i + 1) st =
      st.write (concat ((List.replicate n "---").map (fun c => " | " ++ c))) := by
  induction n generalizing st i with
  | zero => simp [BlockProcessor.writeSeparator, concat, RenderState.write]
  | succ n ih =>
    simp only [BlockProcessor.writeSeparator, ih, gt_iff_lt, Nat.zero_lt_succ, if_true]
    simp [RenderState.write, concat, String.append_assoc, List.replicate_succ]

theorem writeSeparator_eq (n : Nat) (st : RenderState) :
    BlockProcessor.writeSeparator n 0 st = st.write (separatorLine n) := by
  cases n with
  | zero =>
    simp [BlockProcessor.writeSeparator, separatorLine, join, String.intercalate,
      RenderState.write]
  | succ n =>
    simp only [BlockProcessor.writeSeparator, writeSeparator_later, separatorLine,
      List.replicate_succ, join_cons, Nat.lt_irrefl, gt_iff_lt, if_false]
    simp [RenderState.write, String.append_assoc]

theorem writeRows_eq (rows : List (List (List RichText))) (st : RenderState) :
    BlockProcessor.writeRows (rows.map Block.TableRow) st =
      (st.write (concat (rows.map (fun cells => rowLine cells ++ "\n"))), none) := by
  induction rows generalizing st with
  | nil => simp [BlockProcessor.writeRows, concat, RenderState.write]
  | cons row rest ih =>
    simp only [List.map_cons, BlockProcessor.writeRows, ih, writeCells_eq]
    simp [RenderState.write, concat, String.append_assoc]

theorem processTable_rows (header : List (List RichText))
    (rest : List (List (List RichText))) (st : RenderState) :
    BlockProcessor.processTable ((header :: rest).map Block.TableRow) st =
      (st.write (concat ((tableLines header rest).map (fun line => line ++ "\n")) ++ "\n"),
        none) := by
  simp only [List.map_cons, BlockProcessor.processTable, writeRows_eq, writeCells_eq,
    writeSeparator_eq]
  simp [RenderState.write, concat, tableLines, String.append_assoc, List.map_map,
    Function.comp_def]

theorem concat_count (c : Char) (parts : List String) :
    (concat parts).data.count c = (parts.map (fun x => x.data.count c)).sum := by
  induction parts with
  | nil => simp [concat]
  | cons x rest ih => simp [concat, ih, String.data_append, List.count_append]

theorem rowLine_newlines (cells : List (List RichText)) :
    (rowLine cells).data.count '\n' =
      (cells.map (fun cell => (BlockProcessor.processRichText cell).data.count '\n')).sum := by
  have hsep : (" | " : String).data.count '\n' = 0 := by decide
  cases cells with
  | nil => simp [rowLine, join, String.intercalate]
  | cons cell rest =>
    simp only [rowLine, List.map_cons, join_cons, String.data_append, List.count_append,
      concat_count, List.map_map, List.sum_cons]
    congr 2

theorem separatorLine_newlines (n : Nat) : (separatorLine n).data.count '\n' = 0 := by
  have hsep : (" | " : String).data.count '\n' = 0 := by decide
  have hdash : ("---" : String).data.count '\n' = 0 := by decide
  cases n with
  | zero => simp [separatorLine, join, String.intercalate]
  | succ n =>
    simp only [separatorLine, List.replicate_succ, join_cons, String.data_append,
      List.count_append, concat_count, List.map_map, hdash, Nat.zero_add]
    apply List.sum_eq_zero
    intro x hx
    simp only [List.mem_map, List.mem_replicate, Function.comp_apply] at hx
    obtain ⟨y, ⟨_, rfl⟩, rfl⟩ := hx
    simp [String.data_append, List.count_append, hsep, hdash]

theorem tableLines_newlines (header : List (List RichText))
    (rest : List (List (List RichText))) :
    (concat ((tableLines header rest).map (fun line => line ++ "\n")) ++ "\n").data.count '\n' =
      (header :: rest).length + 1 + 1 + newlinesInCells (header :: rest) := by
  have hnl : ("\n" : String).data.count '\n' = 1 := by decide
  simp only [tableLines, List.map_cons, concat, String.data_append, List.count_append,
    concat_count, List.map_map, hnl, rowLine_newlines, separatorLine_newlines,
    newlinesInCells, List.sum_cons, List.length_cons]
  have hsum : (List.map ((fun x => x.data.count '\n') ∘ (fun line => line ++ "\n") ∘ rowLine)
      rest).sum =
      (List.map (fun cells => (List.map (fun cell =>
        (BlockProcessor.processRichText cell).data.count '\n') cells).sum) rest).sum +
        rest.length := by
    induction rest with
    | nil => simp
    | cons r rs ih =>
      simp only [List.map_cons, List.sum_cons, Function.comp_apply, String.data_append,
        List.count_append, hnl, rowLine_newlines, ih, List.length_cons]
      omega
  rw [hsum]
  omega

/-! ## Tables: the properties -/

/-- Counterexample to C11 as stated: a table of one row whose cell holds a line
break renders three lines before the blank line, not two. -/
theorem C11_counterexample_line_break_in_cell :
    rendering offline noHandler lineBreakTable = "a\nb\n---\n\n" ∧
    split (rendering offline noHandler lineBreakTable) "\n" = ["a", "b", "---", "", ""] ∧
    (rendering offline noHandler lineBreakTable).data.count '\n' = 4 ∧
    (rendering offline noHandler lineBreakTable).data.count '\n' ≠ (1 + 1) + 1 := by
  decide

/-- Claim C11, amended.  A table without rows produces no output.  A table of
`N` rows, `N` at least one, emits `N + 1` pieces of text, each followed by a
newline (the header cells joined by ` | `, one `---` per header column joined by
` | `, then each remaining row joined by ` | `), and one more newline; the
output has `N + 2` newline characters besides those inside the cells, so it is
exactly `N + 1` lines and a blank line when no cell holds a newline. -/
theorem C11_table_header_separator_rows (env : MediaEnv) (p : BlockProcessor)
    (header : List (List RichText)) (rest : List (List (List RichText)))
    (st : RenderState) :
    BlockProcessor.ProcessBlock env p (.Table []) st = (st, none) ∧
    BlockProcessor.ProcessBlock env p (.Table ((header :: rest).map Block.TableRow)) st =
      (st.write (concat ((tableLines header rest).map (fun line => line ++ "\n")) ++ "\n"),
        none) ∧
    (tableLines header rest).length = (header :: rest).length + 1 ∧
    (concat ((tableLines header rest).map (fun line => line ++ "\n")) ++ "\n").data.count '\n' =
      (header :: rest).length + 1 + 1 + newlinesInCells (header :: rest) ∧
    rendering offline noHandler
      (.Table [.TableRow [[plain "a"], [plain "b"]], .TableRow [[plain "1"], [plain "2"]]]) =
      "a | b\n--- | ---\n1 | 2\n\n" := by
  refine ⟨?_, ?_, by simp [tableLines], tableLines_newlines header rest, by decide⟩
  · simp [BlockProcessor.ProcessBlock, BlockProcessor.processTable]
  · simp only [BlockProcessor.ProcessBlock]
    exact processTable_rows header rest st

theorem writeRows_other_child (rows : List Block) (st : RenderState)
    (hbad : ∃ c ∈ rows, ∀ cells, c ≠ Block.TableRow cells) :
    (BlockProcessor.writeRows rows st).2 = some interfaceConversion := by
  induction rows generalizing st with
  | nil => simp at hbad
  | cons row rest ih =>
    cases row
    case TableRow cells =>
      simp only [BlockProcessor.writeRows]
      apply ih
      obtain ⟨c, hc, hne⟩ := hbad
      rcases List.mem_cons.1 hc with rfl | hc
      · exact absurd rfl (hne cells)
      · exact ⟨c, hc, hne⟩
    all_goals simp [BlockProcessor.writeRows]

theorem processTable_other_child (children : List Block) (st : RenderState)
    (hbad : ∃ c ∈ children, ∀ cells, c ≠ Block.TableRow cells) :
    (BlockProcessor.processTable children st).2 = some interfaceConversion := by
  cases children with
  | nil => simp at hbad
  | cons first rest =>
    cases first
    case TableRow cells =>
      have hrest : ∃ c ∈ rest, ∀ cells, c ≠ Block.TableRow cells := by
        obtain ⟨c, hc, hne⟩ := hbad
        rcases List.mem_cons.1 hc with rfl | hc
        · exact absurd rfl (hne cells)
        · exact ⟨c, hc, hne⟩
      simp only [BlockProcessor.processTable]
      have h := writeRows_other_child rest
        ((BlockProcessor.writeSeparator cells.length 0
          ((BlockProcessor.writeCells cells 0 st).write "\n")).write "\n") hrest
      generalize BlockProcessor.writeRows rest _ = s at h
      obtain ⟨r, res⟩ := s
      simp only at h
      subst h
      rfl
    all_goals simp [BlockProcessor.processTable]

/-- Claim C12, at the failing input.  A table one of whose children is not a
table row makes `ProcessBlock` panic on the unchecked type assertion: the
outcome is neither a returned error nor success, what was written before stays
in the buffer, and `Convert` ends with the same panic. -/
theorem C12_table_with_other_child_panics :
    (∀ (env : MediaEnv) (p : BlockProcessor) (children : List Block) (st : RenderState),
      (∃ c ∈ children, ∀ cells, c ≠ Block.TableRow cells) →
      (BlockProcessor.ProcessBlock env p (.Table children) st).2 =
        some interfaceConversion) ∧
    interfaceConversion =
      Fault.panic "interface conversion: notionapi.Block is not *notionapi.TableRowBlock" ∧
    BlockProcessor.ProcessBlock offline noHandler malformedTable {} =
      ({ out := "a\n---\n" }, some interfaceConversion) ∧
    (∀ msg, (BlockProcessor.ProcessBlock offline noHandler malformedTable {}).2 ≠
      some (Fault.error msg)) ∧
    (exampleConverter.Convert offlineHost blankPage [malformedTable]).err =
      some interfaceConversion ∧
    (exampleConverter.Convert offlineHost blankPage [malformedTable]).written = none := by
  refine ⟨?_, rfl, by decide, ?_, by decide, by decide⟩
  · intro env p children st hbad
    simp only [BlockProcessor.ProcessBlock]
    exact processTable_other_child children st hbad
  · intro msg
    have h : (BlockProcessor.ProcessBlock offline noHandler malformedTable {}).2 =
        some interfaceConversion := by decide
    rw [h]
    simp [interfaceConversion]

/-- Counterexample to C15 as stated: an image block tagged external that carries a
hosted-file URL as well; the external URL, not the hosted one, is emitted and
passed to the media handler. -/
theorem C15_counterexample_external_tag_with_hosted_part :
    bothPartsImage.File = some { URL := "https://hosted.example/x.png" } ∧
    BlockProcessor.mediaURL bothPartsImage = .ok "https://external.example/y.png" ∧
    rendering offline noHandler (.Image bothPartsImage) =
      "![image](https://external.example/y.png)\n\n" ∧
    (BlockProcessor.ProcessBlock offline { noHandler with mediaHandler := some echoHandler }
      (.Image bothPartsImage) {}).1.saved = ["https://external.example/y.png"] := by
  decide

/-- Claim C15, amended.  The image renderer chooses the source URL by the
variant tag: for an image block that carries a hosted-file part, the hosted-file
URL is the source when the tag is not `external`, and the external URL is the
source when the tag is `external` and the external part is there; the source so
chosen is what is emitted without media handler and what is passed to
`SaveMedia` with one. -/
theorem C15_image_source_chosen_by_variant_tag (env : MediaEnv) (p : BlockProcessor)
    (img : MediaObject) (st : RenderState) (hosted : FileObject)
    (hfile : img.File = some hosted) :
    (img.Type ≠ "external" → BlockProcessor.mediaURL img = .ok hosted.URL) ∧
    (∀ ext, img.Type = "external" → img.External = some ext →
      BlockProcessor.mediaURL img = .ok ext.URL) ∧
    (∀ url, BlockProcessor.mediaURL img = .ok url →
      (p.mediaHandler = none →
        (BlockProcessor.ProcessBlock env p (.Image img) st).1.out =
          st.out ++ ("![" ++ imageCaption img ++ "](" ++ url ++ ")\n\n")) ∧
      (p.mediaHandler ≠ none →
        (BlockProcessor.ProcessBlock env p (.Image img) st).1.saved = st.saved ++ [url])) := by
  refine ⟨?_, ?_, ?_⟩
  · intro ht
    simp [BlockProcessor.mediaURL, hfile, ht]
  · intro ext ht he
    simp [BlockProcessor.mediaURL, hfile, ht, he]
  · intro url hurl
    constructor
    · intro hnone
      simp [BlockProcessor.ProcessBlock, BlockProcessor.processImage, hurl, hnone,
        RenderState.write, imageCaption]
    · intro hsome
      cases hh : p.mediaHandler with
      | none => exact absurd hh hsome
      | some handler =>
        simp only [BlockProcessor.ProcessBlock, BlockProcessor.processImage, hurl, hh]
        cases hs : MediaHandler.SaveMedia env handler url <;> simp [RenderState.write]

/-- Witness of C15, amended: the hosted image, with a handler that returns the
URL it is given. -/
theorem C15_image_source_chosen_by_variant_tag_witness :
    hostedImage.File = some { URL := "https://files.example/a/x.png" } ∧
    ((hostedImage.Type ≠ "external" →
      BlockProcessor.mediaURL hostedImage =
        .ok (FileObject.mk "https://files.example/a/x.png").URL) ∧
    (∀ ext, hostedImage.Type = "external" → hostedImage.External = some ext →
      BlockProcessor.mediaURL hostedImage = .ok ext.URL) ∧
    (∀ url, BlockProcessor.mediaURL hostedImage = .ok url →
      (({ noHandler with mediaHandler := some echoHandler } : BlockProcessor).mediaHandler = none →
        (BlockProcessor.ProcessBlock offline { noHandler with mediaHandler := some echoHandler }
          (.Image hostedImage) {}).1.out =
          ({} : RenderState).out ++ ("![" ++ imageCaption hostedImage ++ "](" ++ url ++ ")\n\n")) ∧
      (({ noHandler with mediaHandler := some echoHandler } : BlockProcessor).mediaHandler ≠ none →
        (BlockProcessor.ProcessBlock offline { noHandler with mediaHandler := some echoHandler }
          (.Image hostedImage) {}).1.saved = ({} : RenderState).saved ++ [url]))) :=
  ⟨by decide,
    C15_image_source_chosen_by_variant_tag offline
      { noHandler with mediaHandler := some echoHandler } hostedImage {}
      { URL := "https://files.example/a/x.png" } (by decide)⟩

/-! ## Video blocks: lemmas -/

theorem split_two (s sep a b : String) (hsep : sep.data ≠ []) (h : split s sep = [a, b]) :
    s = a ++ sep ++ b := by
  simp only [split] at h
  generalize hg : splitGo sep.data s.data 0 [] = pieces at h
  match pieces, h with
  | [x, y], h =>
    simp only [List.map_cons, List.map_nil, List.cons.injEq, and_true] at h
    obtain ⟨rfl, rfl⟩ := h
    have := splitGo_two sep.data hsep s.data x y hg
    apply String.ext
    simp [String.data_append, this]

theorem split_two_contains (s sep a b : String) (h : split s sep = [a, b]) :
    contains s sep = true := by
  cases hc : contains s sep with
  | true => rfl
  | false =>
    have := splitGo_not_contained sep.data s.data [] hc
    simp [split, this] at h

theorem split_char_head (s : String) (c : Char) :
    (split s (String.singleton c)).headD "" = upTo c s := by
  have h := splitGo_char_head c s.data []
  have hs : (String.singleton c).data = [c] := rfl
  simp only [split, hs, upTo]
  generalize splitGo [c] s.data 0 [] = pieces at h
  cases pieces with
  | nil => simp at h
  | cons x rest =>
    simp only [List.head?_cons, Option.some.injEq, List.reverse_nil, List.nil_append] at h
    subst h
    simp

theorem upTo_excludes (stop : Char) (s : String) : stop ∉ (upTo stop s).data := by
  intro h
  have := List.mem_takeWhile_imp (p := fun x => x != stop) h
  simp at this

theorem extractYouTubeID_short (url a b : String) (h : split url "youtu.be/" = [a, b]) :
    BlockProcessor.extractYouTubeID url = upTo '?' b := by
  have hc := split_two_contains url "youtu.be/" a b h
  have hq : ("?" : String) = String.singleton '?' := rfl
  simp only [BlockProcessor.extractYouTubeID, hc, if_true, h, hq, split_char_head]

theorem extractYouTubeID_watch (url a b : String)
    (hshort : (split url "youtu.be/").length ≠ 2) (h : split url "watch?v=" = [a, b]) :
    BlockProcessor.extractYouTubeID url = upTo '&' b := by
  have hc := split_two_contains url "watch?v=" a b h
  have hq : ("&" : String) = String.singleton '&' := rfl
  have hnone : (if contains url "youtu.be/" = true then
      match split url "youtu.be/" with
      | [_, rest] => some ((split rest "?").headD "")
      | _ => none
    else none) = none := by
    split
    · split
      · rename_i heq
        rw [heq] at hshort
        simp at hshort
      · rfl
    · rfl
  simp only [BlockProcessor.extractYouTubeID, hnone, hc, if_true, h, hq, split_char_head]

theorem extractYouTubeID_other (url : String)
    (hshort : (split url "youtu.be/").length ≠ 2)
    (hwatch : (split url "watch?v=").length ≠ 2) :
    BlockProcessor.extractYouTubeID url = url := by
  have hnone : (if contains url "youtu.be/" = true then
      match split url "youtu.be/" with
      | [_, rest] => some ((split rest "?").headD "")
      | _ => none
    else none) = none := by
    split
    · split
      · rename_i heq
        rw [heq] at hshort
        simp at hshort
      · rfl
    · rfl
  simp only [BlockProcessor.extractYouTubeID, hnone]
  split
  · split
    · rename_i heq
      rw [heq] at hwatch
      simp at hwatch
    · rfl
  · rfl

/-! ## Video blocks: the properties -/

/-- Counterexample to C16 as stated: after `youtu.be/` the identifier is cut at
`?` only, so it can hold `&`; after `watch?v=` it is cut at `&` only, so it can
hold `?`; and a URL with `watch?v=` but neither `youtube.com` nor `youtu.be`
gets the video tag, not the short code. -/
theorem C16_counterexample_identifier_cut_at_one_character :
    contains "https://youtu.be/abc&t=1" "youtu.be/" = true ∧
    rendering offline noHandler (.Video (videoAt "https://youtu.be/abc&t=1")) =
      "\x7b\x7b< youtube abc&t=1 >\x7d\x7d\n\n" ∧
    contains "https://www.youtube.com/watch?v=abc?x=1" "watch?v=" = true ∧
    rendering offline noHandler (.Video (videoAt "https://www.youtube.com/watch?v=abc?x=1")) =
      "\x7b\x7b< youtube abc?x=1 >\x7d\x7d\n\n" ∧
    contains "https://video.example/watch?v=abc" "watch?v=" = true ∧
    rendering offline noHandler (.Video (videoAt "https://video.example/watch?v=abc")) =
      "<video controls src=\"https://video.example/watch?v=abc\"></video>\n\n" := by
  decide

/-- Claim C16, amended.  A video block whose URL holds `youtube.com` or `youtu.be`
emits the `youtube` short code with an identifier, every other URL emits the
`video` tag.  The identifier is, when the URL splits at `youtu.be/` into exactly
two parts, the text after that marker up to and excluding the next `?`; else,
when the URL splits at `watch?v=` into exactly two parts, the text after that
marker up to and excluding the next `&`; else the whole URL. -/
theorem C16_video_short_code_and_identifier (env : MediaEnv) (p : BlockProcessor)
    (video : MediaObject) (st : RenderState) (url : String)
    (hurl : BlockProcessor.mediaURL video = .ok url) :
    ((contains url "youtube.com" = true ∨ contains url "youtu.be" = true) →
      BlockProcessor.ProcessBlock env p (.Video video) st =
        (st.write ("\x7b\x7b< youtube " ++ BlockProcessor.extractYouTubeID url ++
          " >\x7d\x7d\n\n"), none)) ∧
    (¬ (contains url "youtube.com" = true ∨ contains url "youtu.be" = true) →
      BlockProcessor.ProcessBlock env p (.Video video) st =
        (st.write ("<video controls src=\"" ++ url ++ "\"></video>\n\n"), none)) ∧
    (∀ a b, split url "youtu.be/" = [a, b] →
      url = a ++ "youtu.be/" ++ b ∧ BlockProcessor.extractYouTubeID url = upTo '?' b ∧
      '?' ∉ (BlockProcessor.extractYouTubeID url).data) ∧
    (∀ a b, (split url "youtu.be/").length ≠ 2 → split url "watch?v=" = [a, b] →
      url = a ++ "watch?v=" ++ b ∧ BlockProcessor.extractYouTubeID url = upTo '&' b ∧
      '&' ∉ (BlockProcessor.extractYouTubeID url).data) ∧
    ((split url "youtu.be/").length ≠ 2 → (split url "watch?v=").length ≠ 2 →
      BlockProcessor.extractYouTubeID url = url) := by
  refine ⟨?_, ?_, ?_, ?_, extractYouTubeID_other url⟩
  · intro hyt
    simp only [BlockProcessor.ProcessBlock, BlockProcessor.processVideo, hurl, hyt, if_true]
  · intro hyt
    simp only [BlockProcessor.ProcessBlock, BlockProcessor.processVideo, hurl, hyt, if_false]
  · intro a b h
    have hid := extractYouTubeID_short url a b h
    refine ⟨split_two url "youtu.be/" a b (by decide) h, hid, ?_⟩
    rw [hid]
    exact upTo_excludes '?' b
  · intro a b hshort h
    have hid := extractYouTubeID_watch url a b hshort h
    refine ⟨split_two url "watch?v=" a b (by decide) h, hid, ?_⟩
    rw [hid]
    exact upTo_excludes '&' b

/-- Witness of C16, amended: the short link `https://youtu.be/abc?t=1`. -/
theorem C16_video_short_code_and_identifier_witness :
    BlockProcessor.mediaURL (videoAt "https://youtu.be/abc?t=1") = .ok "https://youtu.be/abc?t=1" ∧
    (((contains "https://youtu.be/abc?t=1" "youtube.com" = true ∨
        contains "https://youtu.be/abc?t=1" "youtu.be" = true) →
      BlockProcessor.ProcessBlock offline noHandler
          (.Video (videoAt "https://youtu.be/abc?t=1")) {} =
        (({} : RenderState).write ("\x7b\x7b< youtube " ++
          BlockProcessor.extractYouTubeID "https://youtu.be/abc?t=1" ++ " >\x7d\x7d\n\n"), none)) ∧
    (¬ (contains "https://youtu.be/abc?t=1" "youtube.com" = true ∨
        contains "https://youtu.be/abc?t=1" "youtu.be" = true) →
      BlockProcessor.ProcessBlock offline noHandler
          (.Video (videoAt "https://youtu.be/abc?t=1")) {} =
        (({} : RenderState).write ("<video controls src=\"" ++ "https://youtu.be/abc?t=1" ++
          "\"></video>\n\n"), none)) ∧
    (∀ a b, split "https://youtu.be/abc?t=1" "youtu.be/" = [a, b] →
      "https://youtu.be/abc?t=1" = a ++ "youtu.be/" ++ b ∧
      BlockProcessor.extractYouTubeID "https://youtu.be/abc?t=1" = upTo '?' b ∧
      '?' ∉ (BlockProcessor.extractYouTubeID "https://youtu.be/abc?t=1").data) ∧
    (∀ a b, (split "https://youtu.be/abc?t=1" "youtu.be/").length ≠ 2 →
      split "https://youtu.be/abc?t=1" "watch?v=" = [a, b] →
      "https://youtu.be/abc?t=1" = a ++ "watch?v=" ++ b ∧
      BlockProcessor.extractYouTubeID "https://youtu.be/abc?t=1" = upTo '&' b ∧
      '&' ∉ (BlockProcessor.extractYouTubeID "https://youtu.be/abc?t=1").data) ∧
    ((split "https://youtu.be/abc?t=1" "youtu.be/").length ≠ 2 →
      (split "https://youtu.be/abc?t=1" "watch?v=").length ≠ 2 →
      BlockProcessor.extractYouTubeID "https://youtu.be/abc?t=1" = "https://youtu.be/abc?t=1")) :=
  ⟨by decide,
    C16_video_short_code_and_identifier offline noHandler (videoAt "https://youtu.be/abc?t=1") {}
      "https://youtu.be/abc?t=1" (by decide)⟩

/-! ## Failure inside a tree: lemmas -/

theorem Step.andThen_assoc (s : Step) (k₁ k₂ : RenderState → Step) :
    (s.andThen k₁).andThen k₂ = s.andThen (fun st => (k₁ st).andThen k₂) := by
  obtain ⟨r, res⟩ := s
  cases res <;> rfl

theorem processIndented_append (env : MediaEnv) (p : BlockProcessor) (indent : String)
    (xs ys : List Block) (st : RenderState) :
    BlockProcessor.processIndented env p indent (xs ++ ys) st =
      (BlockProcessor.processIndented env p indent xs st).andThen
        (BlockProcessor.processIndented env p indent ys) := by
  induction xs generalizing st with
  | nil => simp [BlockProcessor.processIndented, Step.andThen]
  | cons x rest ih =>
    rw [List.cons_append, processIndented_cons, processIndented_cons, Step.andThen_assoc]
    congr 1
    funext st'
    exact ih st'

theorem processEach_append (env : MediaEnv) (p : BlockProcessor) (xs ys : List Block)
    (st : RenderState) :
    BlockProcessor.processEach env p (xs ++ ys) st =
      (BlockProcessor.processEach env p xs st).andThen
        (BlockProcessor.processEach env p ys) := by
  induction xs generalizing st with
  | nil => simp [BlockProcessor.processEach, Step.andThen]
  | cons x rest ih =>
    rw [List.cons_append, processEach_cons, processEach_cons, Step.andThen_assoc]
    congr 1
    funext st'
    exact ih st'

theorem processColumnBlocks_append (env : MediaEnv) (p : BlockProcessor)
    (xs ys : List Block) (st : RenderState) :
    BlockProcessor.processColumnBlocks env p (xs ++ ys) st =
      (BlockProcessor.processColumnBlocks env p xs st).andThen
        (BlockProcessor.processColumnBlocks env p ys) := by
  induction xs generalizing st with
  | nil => simp [BlockProcessor.processColumnBlocks, Step.andThen]
  | cons x rest ih =>
    by_cases hx : ∃ children, x = .Column children
    · obtain ⟨children, rfl⟩ := hx
      rw [List.cons_append, processColumnBlocks_column, processColumnBlocks_column,
        Step.andThen_assoc]
      congr 1
      funext st'
      exact ih _
    · have hx : ∀ children, x ≠ .Column children := fun children h => hx ⟨children, h⟩
      rw [List.cons_append, processColumnBlocks_other _ _ _ _ _ hx,
        processColumnBlocks_other _ _ _ _ _ hx]
      exact ih st

theorem framed_done {T : RenderState → Step} (hT : Framed T) (hok : (T {}).2 = none)
    (st : RenderState) : T st = (st.after (T {}).1, none) := by
  rw [hT st]
  generalize T {} = s at hok
  obtain ⟨r, res⟩ := s
  simp only at hok
  subst hok
  rfl

theorem framed_failed {T : RenderState → Step} (hT : Framed T) (r : RenderState) (f : Fault)
    (hfail : T {} = (r, some f)) (st : RenderState) : T st = (st.after r, some f) := by
  rw [hT st, hfail]
  rfl

theorem processIndented_failure (env : MediaEnv) (p : BlockProcessor) (indent : String)
    (before after : List Block) (c : Block) (r : RenderState) (f : Fault) (st : RenderState)
    (hok : ∀ x ∈ before, (BlockProcessor.ProcessBlock env p x {}).2 = none)
    (hc : BlockProcessor.ProcessBlock env p c {} = (r, some f)) :
    BlockProcessor.processIndented env p indent (before ++ c :: after) st =
      ((((st.after (BlockProcessor.processIndented env p indent before {}).1).write
        indent).after r), some f) := by
  have hbefore := framed_done
    (processIndented_framed env p indent before (fun x _ => ProcessBlock_framed env p x))
    (processIndented_out env p indent before {} hok).2 st
  rw [processIndented_append, hbefore]
  simp only [Step.andThen]
  rw [processIndented_cons, framed_failed (ProcessBlock_framed env p c) r f hc]
  rfl

theorem processEach_failure (env : MediaEnv) (p : BlockProcessor)
    (before after : List Block) (c : Block) (r : RenderState) (f : Fault) (st : RenderState)
    (hok : ∀ x ∈ before, (BlockProcessor.ProcessBlock env p x {}).2 = none)
    (hc : BlockProcessor.ProcessBlock env p c {} = (r, some f)) :
    BlockProcessor.processEach env p (before ++ c :: after) st =
      (((st.after (BlockProcessor.processEach env p before {}).1).after r), some f) := by
  have hbefore := framed_done
    (processEach_framed env p before (fun x _ => ProcessBlock_framed env p x))
    (processEach_out env p before {} hok).2 st
  rw [processEach_append, hbefore]
  simp only [Step.andThen]
  rw [processEach_cons, framed_failed (ProcessBlock_framed env p c) r f hc]
  rfl

theorem processColumnBlocks_failure (env : MediaEnv) (p : BlockProcessor)
    (columnsBefore before after columnsAfter : List Block) (c : Block) (r : RenderState)
    (f : Fault) (st : RenderState)
    (hcols : (BlockProcessor.processColumnBlocks env p columnsBefore {}).2 = none)
    (hok : ∀ x ∈ before, (BlockProcessor.ProcessBlock env p x {}).2 = none)
    (hc : BlockProcessor.ProcessBlock env p c {} = (r, some f)) :
    BlockProcessor.processColumnBlocks env p
        (columnsBefore ++ .Column (before ++ c :: after) :: columnsAfter) st =
      (((((st.after (BlockProcessor.processColumnBlocks env p columnsBefore {}).1).write
        "<div class=\"col\">\n").after (BlockProcessor.processEach env p before {}).1).after r),
        some f) := by
  have hbefore := framed_done
    (processColumnBlocks_framed env p columnsBefore
      (fun b _ g _ => ProcessBlock_framed env p g)) hcols st
  rw [processColumnBlocks_append, hbefore]
  simp only [Step.andThen]
  rw [processColumnBlocks_column, processEach_failure env p before after c r f _ hok hc]
  rfl

/-- A block that fails at a place reached by the rendering makes the whole tree
fail with the same fault, in the state of arrival followed by what the block
itself did. -/
theorem plug_failure (env : MediaEnv) (p : BlockProcessor) (pl : Place) (b : Block)
    (r : RenderState) (f : Fault) (hreach : pl.reached env p)
    (hb : BlockProcessor.ProcessBlock env p b {} = (r, some f)) (st : RenderState) :
    BlockProcessor.ProcessBlock env p (pl.plug b) st =
      ((st.after (pl.arrival env p)).after r, some f) := by
  induction pl generalizing st with
  | here =>
    simp only [Place.plug, Place.arrival, RenderState.after_empty]
    exact framed_failed (ProcessBlock_framed env p b) r f hb st
  | bullet rt before inner after ih =>
    obtain ⟨hok, hinner⟩ := hreach
    have hc := ih hinner {}
    rw [RenderState.empty_after] at hc
    simp only [Place.plug, Place.arrival, BlockProcessor.ProcessBlock]
    rw [processIndented_failure env p "  " before after _ _ f _ hok hc]
    simp [RenderState.after, RenderState.write, String.append_assoc]
  | numbered rt before inner after ih =>
    obtain ⟨hok, hinner⟩ := hreach
    have hc := ih hinner {}
    rw [RenderState.empty_after] at hc
    simp only [Place.plug, Place.arrival, BlockProcessor.ProcessBlock]
    rw [processIndented_failure env p "   " before after _ _ f _ hok hc]
    simp [RenderState.after, RenderState.write, String.append_assoc]
  | toggle rt before inner after ih =>
    obtain ⟨hok, hinner⟩ := hreach
    have hc := ih hinner {}
    rw [RenderState.empty_after] at hc
    simp only [Place.plug, Place.arrival]
    rw [ProcessBlock_toggle, processEach_failure env p before after _ _ f _ hok hc]
    simp [Step.andThen, RenderState.after, RenderState.write, String.append_assoc]
  | column columnsBefore before inner after columnsAfter ih =>
    obtain ⟨hcols, hok, hinner⟩ := hreach
    have hc := ih hinner {}
    rw [RenderState.empty_after] at hc
    simp only [Place.plug, Place.arrival]
    rw [ProcessBlock_columnList,
      processColumnBlocks_failure env p columnsBefore before after columnsAfter _ _ f _
        hcols hok hc]
    simp [Step.andThen, RenderState.after, RenderState.write, String.append_assoc]

theorem processImage_failure (env : MediaEnv) (p : BlockProcessor) (img : MediaObject)
    (url e : String) (handler : MediaHandler)
    (hurl : BlockProcessor.mediaURL img = .ok url) (hh : p.mediaHandler = some handler)
    (hfail : handler.SaveMedia env url = .error e) :
    BlockProcessor.ProcessBlock env p (.Image img) {} =
      ({ out := "", saved := [url] }, some (.error ("处理图片失败: " ++ e))) := by
  simp [BlockProcessor.ProcessBlock, BlockProcessor.processImage, hurl, hh, hfail]

theorem Convert_render_failure (env : HostEnv) (h : HugoConverter) (page : Page)
    (blocks : List Block) (r : RenderState) (msg : String)
    (hfail : BlockProcessor.processEach env.toMediaEnv (boundProcessor env h page) blocks {} =
      (r, some (.error msg))) :
    (h.Convert env page blocks).err = some (.error ("处理块失败: " ++ msg)) ∧
    (h.Convert env page blocks).written = none ∧
    (h.Convert env page blocks).render = r := by
  have hmeta := ProcessMetadata_error h.metaProcessor page
  unfold boundProcessor at hfail
  unfold HugoConverter.Convert
  generalize h.metaProcessor.ProcessMetadata page = m at hmeta hfail
  obtain ⟨metadata, err⟩ := m
  simp only at hmeta
  subst hmeta
  simp only at hfail ⊢
  rw [hfail]
  exact ⟨rfl, rfl, rfl⟩

/-! ## Failure inside a tree: the property -/

/-- Claim C14.  A media-save failure aborts the whole page.  Let an image block
stand at a place `pl` of a block tree, under list items, toggles and columns of
column lists at any depth, let rendering reach the place, and let the `SaveMedia`
call for the image's URL fail with `e`.  Then `ProcessBlock` on the root of the
tree returns the error of the image; the log of `SaveMedia` calls is that of the
arrival at the place followed by the one call for the image; the buffer is that
of the arrival, with nothing for the image and nothing for the blocks after it,
whatever they are.  And `Convert`, on a page whose top-level blocks hold the
tree after blocks that render without failure, returns that error wrapped as a
block failure and writes no document. -/
theorem C14_media_save_failure_aborts_page (env : MediaEnv) (p : BlockProcessor)
    (pl : Place) (img : MediaObject) (url e : String) (handler : MediaHandler)
    (st : RenderState)
    (hreach : pl.reached env p)
    (hurl : BlockProcessor.mediaURL img = .ok url)
    (hh : p.mediaHandler = some handler)
    (hfail : handler.SaveMedia env url = .error e) :
    BlockProcessor.ProcessBlock env p (pl.plug (.Image img)) st =
      ({ out := st.out ++ (pl.arrival env p).out,
         saved := st.saved ++ (pl.arrival env p).saved ++ [url] },
        some (.error ("处理图片失败: " ++ e))) ∧
    (∀ (host : HostEnv) (h : HugoConverter) (page : Page) (before after : List Block),
      host.toMediaEnv = env → boundProcessor host h page = p →
      (∀ x ∈ before, (BlockProcessor.ProcessBlock env p x {}).2 = none) →
      (h.Convert host page (before ++ pl.plug (.Image img) :: after)).err =
        some (.error ("处理块失败: " ++ ("处理图片失败: " ++ e))) ∧
      (h.Convert host page (before ++ pl.plug (.Image img) :: after)).written = none ∧
      (h.Convert host page (before ++ pl.plug (.Image img) :: after)).render =
        { out := (BlockProcessor.processEach env p before {}).1.out ++ (pl.arrival env p).out,
          saved := (BlockProcessor.processEach env p before {}).1.saved ++
            (pl.arrival env p).saved ++ [url] }) := by
  have himg := processImage_failure env p img url e handler hurl hh hfail
  have htree := plug_failure env p pl (.Image img) _ _ hreach himg
  constructor
  · rw [htree st]
    simp [RenderState.after]
  · intro host h page before after henv hp hbefore
    subst henv hp
    have hloop := processEach_failure host.toMediaEnv (boundProcessor host h page) before after
      _ _ _ {} hbefore (htree {})
    rw [RenderState.empty_after, RenderState.empty_after] at hloop
    obtain ⟨h1, h2, h3⟩ := Convert_render_failure host h page _ _ _ hloop
    refine ⟨h1, h2, ?_⟩
    rw [h3]
    simp [RenderState.after]

/-- Witness of C14: the image inside a toggle inside a list item, on the example
converter without network. -/
theorem C14_media_save_failure_aborts_page_witness :
    examplePlace.reached offlineHost.toMediaEnv exampleBound ∧
    BlockProcessor.mediaURL hostedImage = .ok "https://files.example/a/x.png" ∧
    exampleBound.mediaHandler = some exampleHandler ∧
    exampleHandler.SaveMedia offlineHost.toMediaEnv "https://files.example/a/x.png" =
      .error "下载文件失败: no network" ∧
    BlockProcessor.ProcessBlock offlineHost.toMediaEnv exampleBound
        (examplePlace.plug (.Image hostedImage)) {} =
      ({ out := "" ++ (examplePlace.arrival offlineHost.toMediaEnv exampleBound).out,
         saved := [] ++ (examplePlace.arrival offlineHost.toMediaEnv exampleBound).saved ++
           ["https://files.example/a/x.png"] },
        some (.error ("处理图片失败: " ++ "下载文件失败: no network"))) ∧
    (exampleConverter.Convert offlineHost techLifePage
        ([] ++ examplePlace.plug (.Image hostedImage) :: [.Paragraph [plain "end"] []])).err =
      some (.error ("处理块失败: " ++ ("处理图片失败: " ++ "下载文件失败: no network"))) ∧
    (exampleConverter.Convert offlineHost techLifePage
        ([] ++ examplePlace.plug (.Image hostedImage) :: [.Paragraph [plain "end"] []])).written =
      none :=
  have hreach : examplePlace.reached offlineHost.toMediaEnv exampleBound := by
    simp only [examplePlace, Place.reached]
    refine ⟨fun c hc => ?_, fun c hc => absurd hc (List.not_mem_nil c), trivial⟩
    rw [List.mem_singleton] at hc
    subst hc
    decide
  have hurl : BlockProcessor.mediaURL hostedImage = .ok "https://files.example/a/x.png" := by
    decide
  have hh : exampleBound.mediaHandler = some exampleHandler := rfl
  have hfail : exampleHandler.SaveMedia offlineHost.toMediaEnv "https://files.example/a/x.png" =
      .error "下载文件失败: no network" := by decide
  have hall := C14_media_save_failure_aborts_page offlineHost.toMediaEnv exampleBound
    examplePlace hostedImage "https://files.example/a/x.png" "下载文件失败: no network"
    exampleHandler {} hreach hurl hh hfail
  have hconv := hall.2 offlineHost exampleConverter techLifePage []
    [.Paragraph [plain "end"] []] rfl rfl (fun x hx => absurd hx (List.not_mem_nil x))
  ⟨hreach, hurl, hh, hfail, hall.1, hconv.1, hconv.2.1⟩

/-! ## Callouts, external media, short-code mode -/

/-- Claim C21.  A callout with formatted text `t` renders `> icon t` followed by
a blank line.  The icon is the block's emoji when the icon is of kind `emoji`
and carries an emoji value, the link glyph for kind `external`, the attachment
glyph for kind `file`, and the bulb in every other case: no icon, another kind,
or kind `emoji` without emoji value. -/
theorem C21_callout_icon_then_text (env : MediaEnv) (p : BlockProcessor)
    (rt : List RichText) (icon : Option Icon) (children : List Block) (st : RenderState) :
    BlockProcessor.ProcessBlock env p (.Callout rt icon children) st =
      (st.write ("> " ++ BlockProcessor.calloutIcon icon ++ " " ++
        BlockProcessor.processRichText rt ++ "\n\n"), none) ∧
    (∀ i e, icon = some i → i.Type = "emoji" → i.Emoji = some e →
      BlockProcessor.calloutIcon icon = e) ∧
    (∀ i, icon = some i → i.Type = "external" → BlockProcessor.calloutIcon icon = "🔗") ∧
    (∀ i, icon = some i → i.Type = "file" → BlockProcessor.calloutIcon icon = "📎") ∧
    (icon = none → BlockProcessor.calloutIcon icon = "💡") ∧
    (∀ i, icon = some i → i.Type ≠ "emoji" → i.Type ≠ "external" → i.Type ≠ "file" →
      BlockProcessor.calloutIcon icon = "💡") ∧
    (∀ i, icon = some i → i.Type = "emoji" → i.Emoji = none →
      BlockProcessor.calloutIcon icon = "💡") := by
  refine ⟨?_, ?_, ?_, ?_, ?_, ?_, ?_⟩
  · simp only [BlockProcessor.ProcessBlock, BlockProcessor.processCallout]
  · rintro i e rfl ht he
    simp [BlockProcessor.calloutIcon, ht, he]
  · rintro i rfl ht
    simp [BlockProcessor.calloutIcon, ht]
  · rintro i rfl ht
    simp [BlockProcessor.calloutIcon, ht]
  · rintro rfl
    rfl
  · rintro i rfl h1 h2 h3
    simp [BlockProcessor.calloutIcon, h1, h2, h3]
  · rintro i rfl ht he
    simp [BlockProcessor.calloutIcon, ht, he]

/-- Claim C27, at the failing input.  An image or video block of the external
variant whose hosted-file part is absent does not render: the hosted-file part
is read before the variant is tested, which is a nil-pointer panic, with nothing
written and no media saved; `Convert` ends with the same panic and writes no
document. -/
theorem C27_external_media_reads_absent_hosted_part :
    (∀ (env : MediaEnv) (p : BlockProcessor) (caption : List RichText) (url : String)
        (st : RenderState),
      BlockProcessor.ProcessBlock env p (.Image (externalMedia caption url)) st =
        (st, some nilDereference) ∧
      BlockProcessor.ProcessBlock env p (.Video (externalMedia caption url)) st =
        (st, some nilDereference)) ∧
    nilDereference =
      Fault.panic "runtime error: invalid memory address or nil pointer dereference" ∧
    (exampleConverter.Convert offlineHost blankPage
        [.Image (externalMedia [] "https://img.example/x.png")]).err = some nilDereference ∧
    (exampleConverter.Convert offlineHost blankPage
        [.Image (externalMedia [] "https://img.example/x.png")]).written = none ∧
    (exampleConverter.Convert offlineHost blankPage
        [.Video (externalMedia [] "https://youtu.be/abc")]).err = some nilDereference := by
  refine ⟨?_, rfl, by decide, by decide, by decide⟩
  intro env p caption url st
  constructor
  · simp [BlockProcessor.ProcessBlock, BlockProcessor.processImage, BlockProcessor.mediaURL,
      externalMedia]
  · simp [BlockProcessor.ProcessBlock, BlockProcessor.processVideo, BlockProcessor.mediaURL,
      externalMedia]

theorem append_embedForm_ne (s t u : String) (c : Char) (hc : c ≠ '<')
    (h : s ++ String.mk (c :: t.data) = s ++ embedForm u) : False := by
  have hd := congrArg String.data h
  simp only [String.data_append, embedForm] at hd
  have := List.append_cancel_left hd
  simp only [String.data_append, List.append_assoc] at this
  have h0 : c = '<' := by
    have := congrArg List.head? this
    simpa using this
  exact hc h0

theorem processFile_shortcodes (p : BlockProcessor) (hp : p.UseShortcodes = true)
    (file : MediaObject) (st : RenderState) :
    (∃ f, BlockProcessor.processFile p file st = (st, some f)) ∨
    BlockProcessor.processFile p file st = (st, none) ∨
    (∃ u, BlockProcessor.processFile p file st = (st.write (pdfShortcode u), none)) ∨
    (∃ f u, BlockProcessor.processFile p file st =
      (st.write ("[" ++ f ++ "](" ++ u ++ ")\n\n"), none)) := by
  unfold BlockProcessor.processFile
  cases hurl : BlockProcessor.fileURL file with
  | error f => exact Or.inl ⟨f, rfl⟩
  | ok url =>
    simp only
    by_cases hu : url = ""
    · simp [hu]
    · by_cases hpdf : hasSuffix (toLower
          (if file.Type = "external" ∨ file.Type = "file" then filepathBase url else "")) ".pdf" = true
      · simp only [hu, hpdf, hp, if_true, if_false]
        exact Or.inr (Or.inr (Or.inl ⟨url, rfl⟩))
      · simp only [hu, hpdf, if_false]
        exact Or.inr (Or.inr (Or.inr ⟨_, url, rfl⟩))

theorem processFile_never_embed (p : BlockProcessor) (hp : p.UseShortcodes = true)
    (file : MediaObject) (st : RenderState) (u : String) :
    (BlockProcessor.processFile p file st).1 ≠ st.write (embedForm u) := by
  intro h
  have hout := congrArg RenderState.out h
  simp only [RenderState.write] at hout
  rcases processFile_shortcodes p hp file st with ⟨f, hf⟩ | hf | ⟨v, hf⟩ | ⟨f, v, hf⟩
  · rw [hf] at hout
    have hlen := congrArg String.length hout
    simp [embedForm, String.length_append] at hlen
    exact absurd hlen.1.1 (by decide)
  · rw [hf] at hout
    have hlen := congrArg String.length hout
    simp [embedForm, String.length_append] at hlen
    exact absurd hlen.1.1 (by decide)
  · rw [hf] at hout
    simp only [RenderState.write, pdfShortcode] at hout
    exact append_embedForm_ne st.out
      (String.mk ("\x7b< pdf src=\"".data ++ v.data ++ "\" >\x7d\x7d\n\n".data)) u '\x7b'
      (by decide) (by
        rw [← hout]
        congr 1)
  · rw [hf] at hout
    simp only [RenderState.write] at hout
    exact append_embedForm_ne st.out
      (String.mk (f.data ++ "](".data ++ v.data ++ ")\n\n".data)) u '['
      (by decide) (by
        rw [← hout]
        congr 1)

/-- Claim C29.  Whatever the configuration and the media handler, the processor
built by `NewBlockProcessor` has short-code mode on, and so has the processor
`Convert` renders with after binding the page context.  Every file block whose
URL `u` is not empty and whose file name ends in `.pdf` (in any case) renders
the `pdf` short code, and no file block renders the HTML `embed` form. -/
theorem C29_constructor_enables_short_codes (mediaHandler : Option MediaHandler)
    (config : Config) :
    (NewBlockProcessor mediaHandler config).UseShortcodes = true ∧
    (∀ category article,
      (bindContext (NewBlockProcessor mediaHandler config) category article).1.UseShortcodes =
        true) ∧
    (∀ (env : MediaEnv) (file : MediaObject) (st : RenderState) (u : String),
      BlockProcessor.fileURL file = .ok u → u ≠ "" →
      hasSuffix (toLower (filepathBase u)) ".pdf" = true →
      BlockProcessor.ProcessBlock env (NewBlockProcessor mediaHandler config) (.File file) st =
        (st.write (pdfShortcode u), none)) ∧
    (∀ (env : MediaEnv) (file : MediaObject) (st : RenderState) (u : String),
      (BlockProcessor.ProcessBlock env (NewBlockProcessor mediaHandler config)
        (.File file) st).1 ≠ st.write (embedForm u)) ∧
    (∀ (env : MediaEnv) (category article : String) (file : MediaObject) (st : RenderState)
        (u : String),
      (BlockProcessor.ProcessBlock env
        (bindContext (NewBlockProcessor mediaHandler config) category article).1
        (.File file) st).1 ≠ st.write (embedForm u)) ∧
    rendering offline (NewBlockProcessor none {}) (.File pdfFile) =
      pdfShortcode "https://files.example/docs/Paper.PDF" ∧
    pdfShortcode "u" = "\x7b\x7b< pdf src=\"u\" >\x7d\x7d\n\n" := by
  have hbind : ∀ category article,
      (bindContext (NewBlockProcessor mediaHandler config) category article).1.UseShortcodes =
        true := by
    intro category article
    unfold bindContext
    split <;> rfl
  refine ⟨rfl, hbind, ?_, ?_, ?_, by decide, by decide⟩
  · intro env file st u hurl hu hpdf
    have hvar : file.Type = "external" ∨ file.Type = "file" := by
      unfold BlockProcessor.fileURL at hurl
      by_cases h1 : file.Type = "external"
      · exact Or.inl h1
      · by_cases h2 : file.Type = "file"
        · exact Or.inr h2
        · simp [h1, h2] at hurl
          exact absurd hurl.symm hu
    simp [BlockProcessor.ProcessBlock, BlockProcessor.processFile, hurl, hu, hvar, hpdf,
      NewBlockProcessor, pdfShortcode]
  · intro env file st u
    simp only [BlockProcessor.ProcessBlock]
    exact processFile_never_embed _ rfl file st u
  · intro env category article file st u
    simp only [BlockProcessor.ProcessBlock]
    exact processFile_never_embed _ (hbind category article) file st u

/-! ## Category resolution: the single-select property first -/

theorem withProperty_other (page : Page) (key k : String) (v : Option Property) (h : k ≠ key) :
    (page.withProperty key v).Properties k = page.Properties k := by
  simp [Page.withProperty, h]

theorem resolveCategories_select (p : MetadataProcessor) (page : Page) (name : String)
    (hsel : page.Properties "Category" = some (.select name)) :
    resolveCategories p page =
      (if name ≠ "" then
        match p.CategoryMap name with
        | some mapped => some ([name], [mapped])
        | none => none
      else some ([], [])) := by
  simp only [resolveCategories, hsel]

theorem ProcessMetadata_withCategories (p : MetadataProcessor) (page : Page) (name : String)
    (v : Option Property) (hsel : page.Properties "Category" = some (.select name)) :
    p.ProcessMetadata (page.withProperty "Categories" v) = p.ProcessMetadata page := by
  have hsel2 : (page.withProperty "Categories" v).Properties "Category" = some (.select name) := by
    rw [withProperty_other _ _ _ _ (by decide)]
    exact hsel
  have hk : ∀ k, k ≠ "Categories" →
      (page.withProperty "Categories" v).Properties k = page.Properties k :=
    fun k hk => withProperty_other page "Categories" k v hk
  have hres : resolveCategories p (page.withProperty "Categories" v) = resolveCategories p page := by
    rw [resolveCategories_select p _ name hsel2, resolveCategories_select p _ name hsel]
  simp only [MetadataProcessor.ProcessMetadata, hres, setTitle, setCover, setTags, setDraft,
    setDescription, setMetaTitle, processOptionalFields,
    hk "Name" (by decide), hk "Tags" (by decide), hk "Status" (by decide),
    hk "Description" (by decide), hk "Meta Title" (by decide), hk "Toc" (by decide),
    hk "Comments" (by decide), hk "Slug" (by decide)]
  rfl

/-- Claim C28.  On a page that carries a single-select `Category` property,
whatever its name, the `Categories` property is not consulted: replacing,
adding or removing it changes nothing in what `ProcessMetadata` returns.  The
page is skipped exactly when the name of `Category` is not empty and has no
mapping; when it is returned, `categories` and `category_dir` come from
`Category` alone, and both are absent for the empty name. -/
theorem C28_category_hides_categories (p : MetadataProcessor) (page : Page) (name : String)
    (hsel : page.Properties "Category" = some (.select name)) :
    (∀ v, p.ProcessMetadata (page.withProperty "Categories" v) = p.ProcessMetadata page) ∧
    (p.ProcessMetadata page = (none, none) ↔ (name ≠ "" ∧ p.CategoryMap name = none)) ∧
    (∀ md, p.ProcessMetadata page = (some md, none) →
      md.categories = (if name = "" then none else some [name]) ∧
      md.category_dir = (if name = "" then none else p.CategoryMap name)) := by
  have hres := resolveCategories_select p page name hsel
  refine ⟨fun v => ProcessMetadata_withCategories p page name v hsel, ?_, ?_⟩
  · rw [ProcessMetadata_skip_iff, hres]
    by_cases hn : name = ""
    · simp [hn]
    · cases hm : p.CategoryMap name <;> simp [hn, hm]
  · intro md hmd
    by_cases hn : name = ""
    · have hr : resolveCategories p page = some ([], []) := by simp [hres, hn]
      have := ProcessMetadata_categories p page md [] [] hr hmd
      simpa [hn] using this
    · cases hm : p.CategoryMap name with
      | none =>
        have hskip : resolveCategories p page = none := by simp [hres, hn, hm]
        rw [(ProcessMetadata_skip_iff p page).2 hskip] at hmd
        simp at hmd
      | some dir =>
        have hr : resolveCategories p page = some ([name], [dir]) := by simp [hres, hn, hm]
        have := ProcessMetadata_categories p page md [name] [dir] hr hmd
        simpa [hn] using this

/-- Witness of C28: the single-select `Category` with the empty name hides the
unmapped `Life` of `Categories`, and the page is not skipped. -/
theorem C28_category_hides_categories_witness :
    emptyCategoryPage.Properties "Category" = some (.select "") ∧
    emptyCategoryPage.Properties "Categories" = some (.multiSelect ["Life"]) ∧
    techOnly.CategoryMap "Life" = none ∧
    ((∀ v, techOnly.ProcessMetadata (emptyCategoryPage.withProperty "Categories" v) =
        techOnly.ProcessMetadata emptyCategoryPage) ∧
    (techOnly.ProcessMetadata emptyCategoryPage = (none, none) ↔
      (("" : String) ≠ "" ∧ techOnly.CategoryMap "" = none)) ∧
    (∀ md, techOnly.ProcessMetadata emptyCategoryPage = (some md, none) →
      md.categories = (if ("" : String) = "" then none else some [""]) ∧
      md.category_dir = (if ("" : String) = "" then none else techOnly.CategoryMap ""))) ∧
    (techOnly.ProcessMetadata emptyCategoryPage).1.isSome = true :=
  ⟨by decide, by decide, by decide,
    C28_category_hides_categories techOnly emptyCategoryPage "" (by decide), by decide⟩

/-! ## Media handlers: the derived file name -/

theorem dropWhile_append_of_head {α : Type} (q : α → Bool) (l r : List α) (hl : l ≠ [])
    (hq : ∀ x ∈ l, q x = false) : (l ++ r).dropWhile q = l ++ r := by
  cases l with
  | nil => exact absurd rfl hl
  | cons x xs =>
    simp [List.dropWhile, hq x (List.mem_cons_self x xs)]

theorem takeWhile_append_stop {α : Type} (q : α → Bool) (l r : List α) (y : α)
    (hq : ∀ x ∈ l, q x = true) (hy : q y = false) : (l ++ y :: r).takeWhile q = l := by
  induction l with
  | nil => simp [List.takeWhile, hy]
  | cons x xs ih =>
    rw [List.cons_append, List.takeWhile_cons, hq x (List.mem_cons_self x xs), if_pos rfl,
      ih (fun z hz => hq z (List.mem_cons_of_mem x hz))]

/-- The last path segment: `filepath.Base` of `dir/tail` is `tail`, for a
non-empty `tail` without slash. -/
theorem filepathBase_last (dir tail : String) (hne : tail ≠ "") (hs : '/' ∉ tail.data) :
    filepathBase (dir ++ "/" ++ tail) = tail := by
  have hdata : tail.data ≠ [] := fun h => hne (String.ext h)
  have hrev : (dir ++ "/" ++ tail).data.reverse = tail.data.reverse ++ '/' :: dir.data.reverse := by
    simp [String.data_append]
  have hpath : dir ++ "/" ++ tail ≠ "" := by
    intro h
    have := congrArg String.data h
    simp [String.data_append] at this
  have hmem : ∀ x ∈ tail.data.reverse, (x == '/') = false := by
    intro x hx
    have hx : x ∈ tail.data := List.mem_reverse.1 hx
    have : x ≠ '/' := fun h => hs (h ▸ hx)
    simpa using this
  have hmem2 : ∀ x ∈ tail.data.reverse, (x != '/') = true := by
    intro x hx
    have := hmem x hx
    simp only [bne, this, Bool.not_false]
  unfold filepathBase
  simp only [hpath, if_false, hrev]
  rw [dropWhile_append_of_head _ _ _ (by simpa using hdata) hmem, List.reverse_reverse,
    takeWhile_append_stop _ _ _ _ hmem2 (by decide), List.reverse_reverse]
  simp only [hdata, if_false]

theorem containsChars_singleton (c : Char) (s : List Char) :
    containsChars s [c] = true ↔ c ∈ s := by
  induction s with
  | nil => simp [containsChars]
  | cons x xs ih =>
    simp only [containsChars, hasPrefixChars, Bool.and_true, Bool.or_eq_true, beq_iff_eq, ih,
      List.mem_cons]
    constructor
    · rintro (h | h)
      · exact Or.inl h.symm
      · exact Or.inr h
    · rintro (h | h)
      · exact Or.inl h.symm
      · exact Or.inr h

/-- The file name the object-storage handler derives from `dir/tail`, for a
`tail` without slash that holds a dot: all of `tail`. -/
theorem S3Handler_filename_last (env : MediaEnv) (dir tail : String) (resp : Response)
    (hs : '/' ∉ tail.data) (hdot : '.' ∈ tail.data) :
    S3Handler.filename env (dir ++ "/" ++ tail) resp = tail := by
  have hne : tail ≠ "" := by
    intro h
    rw [h] at hdot
    simp at hdot
  have hc : contains tail "." = true := (containsChars_singleton '.' tail.data).2 hdot
  simp [S3Handler.filename, filepathBase_last dir tail hne hs, hne, hc]

/-- Claim C25, at the failing input.  The object-storage handler takes the last
path segment of the whole URL, query included, where the local handler first
cuts the URL at the question mark: for `dir/name?query` with a dot in the tail
and no slash in it, the derived name is `name?query`, the object key and the
returned URL carry the query, and the two handlers differ.  When the query holds
a slash, the name is what follows its last slash. -/
theorem C25_object_storage_keeps_query :
    (∀ (env : MediaEnv) (dir name query : String) (resp : Response),
      '/' ∉ (name ++ "?" ++ query).data → '.' ∈ (name ++ "?" ++ query).data →
      S3Handler.filename env (dir ++ "/" ++ (name ++ "?" ++ query)) resp =
        name ++ "?" ++ query) ∧
    LocalHandler.filename signedURL { contentType := "image/png" } = "name.png" ∧
    S3Handler.filename pngServer signedURL { contentType := "image/png" } =
      "name.png?X-Amz-Signature=abc" ∧
    exampleS3.SaveMedia pngServer signedURL =
      { result := .ok "https://cdn.example/name.png?X-Amz-Signature=abc",
        stored := some "/media/name.png?X-Amz-Signature=abc" } ∧
    (NewLocalHandler "static" "https://cdn.example").SaveMedia pngServer signedURL =
      { result := .ok "https://cdn.example/name.png", stored := some "static/name.png" } ∧
    S3Handler.filename pngServer "https://files.example/a/name.png?next=/b/c.gif"
      { contentType := "image/png" } = "c.gif" ∧
    LocalHandler.filename "https://files.example/a/name.png?next=/b/c.gif"
      { contentType := "image/png" } = "name.png" := by
  refine ⟨?_, by decide, by decide, by decide, by decide, by decide, by decide⟩
  intro env dir name query resp hs hdot
  exact S3Handler_filename_last env dir _ resp hs hdot

/-- Claim C26, at the failing input.  When the last path segment has no
extension, the local handler names the file `image-N` plus the extension of the
content type, where `N` is the byte length of that segment: two URLs whose
segments are equally long get the same name, so under one page context the
second save is stored at the path of the first and returns the same URL.  The
extension is chosen from the content type as the claim says. -/
theorem C26_local_name_from_segment_length :
    (∀ (url₁ url₂ : String) (resp : Response),
      filepathExt (filepathBase ((split url₁ "?").headD "")) = "" →
      filepathExt (filepathBase ((split url₂ "?").headD "")) = "" →
      (filepathBase ((split url₁ "?").headD "")).utf8ByteSize =
        (filepathBase ((split url₂ "?").headD "")).utf8ByteSize →
      LocalHandler.filename url₁ resp = LocalHandler.filename url₂ resp) ∧
    (∀ (env : MediaEnv) (h : LocalHandler) (url₁ url₂ : String),
      env.httpGet url₁ = env.httpGet url₂ →
      (∀ resp, LocalHandler.filename url₁ resp = LocalHandler.filename url₂ resp) →
      h.SaveMedia env url₁ = h.SaveMedia env url₂) ∧
    "https://files.example/img/abc" ≠ "https://files.example/img/xyz" ∧
    exampleLocal.SaveMedia pngServer "https://files.example/img/abc" =
      { result := .ok "/media/tech/post/image-3.png",
        stored := some "static/tech/post/image-3.png" } ∧
    exampleLocal.SaveMedia pngServer "https://files.example/img/xyz" =
      { result := .ok "/media/tech/post/image-3.png",
        stored := some "static/tech/post/image-3.png" } ∧
    extForContentType "image/jpeg" = ".jpg" ∧ extForContentType "image/png" = ".png" ∧
    extForContentType "image/gif" = ".gif" ∧ extForContentType "video/mp4" = ".mp4" ∧
    (∀ contentType, contentType ≠ "image/jpeg" → contentType ≠ "image/png" →
      contentType ≠ "image/gif" → contentType ≠ "video/mp4" →
      extForContentType contentType = ".bin") := by
  refine ⟨?_, ?_, by decide, by decide, by decide, by decide, by decide, by decide, by decide,
    ?_⟩
  · intro url₁ url₂ resp h1 h2 hlen
    simp only [LocalHandler.filename, h1, h2, or_true, if_true, hlen]
  · intro env h url₁ url₂ hget hname
    unfold LocalHandler.SaveMedia
    rw [hget]
    cases env.httpGet url₂ with
    | error e => rfl
    | ok resp => simp only [hname resp]
  · intro contentType h1 h2 h3 h4
    simp [extForContentType, h1, h2, h3, h4]

/-! ## File-name resolution: lemmas -/

theorem replaceOutside_slug (s : List Char) (inRun : Bool) :
    ∀ c ∈ replaceOutside s inRun, isSlugChar c = true := by
  induction s generalizing inRun with
  | nil => simp [replaceOutside]
  | cons x xs ih =>
    intro c hc
    by_cases hx : isSlugChar x = true
    · simp only [replaceOutside, hx, if_true, List.mem_cons] at hc
      rcases hc with rfl | hc
      · exact hx
      · exact ih false c hc
    · cases inRun with
      | true =>
        simp only [replaceOutside, hx, if_false, if_true] at hc
        exact ih true c hc
      | false =>
        simp only [replaceOutside, hx, if_false, Bool.false_eq_true, List.mem_cons] at hc
        rcases hc with rfl | hc
        · decide
        · exact ih true c hc

theorem replaceOutside_of_slug (s : List Char) (inRun : Bool)
    (h : ∀ c ∈ s, isSlugChar c = true) : replaceOutside s inRun = s := by
  induction s generalizing inRun with
  | nil => rfl
  | cons x xs ih =>
    simp only [replaceOutside, h x (List.mem_cons_self x xs), if_true]
    rw [ih false (fun c hc => h c (List.mem_cons_of_mem x hc))]

theorem trimChar_subset (s : List Char) (x c : Char) (h : c ∈ trimChar s x) : c ∈ s := by
  unfold trimChar at h
  have h1 := List.mem_reverse.1 h
  have h2 := (List.dropWhile_sublist _).subset h1
  have h3 := List.mem_reverse.1 h2
  exact (List.dropWhile_sublist _).subset h3

theorem sanitisedSlug_slug (env : HostEnv) (title : String) :
    ∀ c ∈ (sanitisedSlug env title).data, isSlugChar c = true := by
  intro c hc
  exact replaceOutside_slug _ false c (trimChar_subset _ '-' c hc)

theorem matchesSlugPattern_append (slug : String) (h : ∀ c ∈ slug.data, isSlugChar c = true) :
    matchesSlugPattern (slug ++ ".md") = true := by
  have hsuf : hasSuffix (slug ++ ".md") ".md" = true := by
    unfold hasSuffix
    rw [hasPrefixChars_iff, String.data_append, List.reverse_append]
    exact List.prefix_append _ _
  have htake : (slug ++ ".md").data.take ((slug ++ ".md").data.length - 3) = slug.data := by
    rw [String.data_append, List.length_append]
    have : slug.data.length + ".md".data.length - 3 = slug.data.length := by
      show slug.data.length + 3 - 3 = slug.data.length
      omega
    rw [this, List.take_left]
  simp only [matchesSlugPattern, hsuf, htake, Bool.true_and, List.all_eq_true]
  exact h

theorem generateFilename_titled (env : HostEnv) (page : Page) (metadata : Option Metadata)
    (title : String) (ht : metadata.bind (fun m => m.title) = some title) (hne : title ≠ "") :
    generateFilename env page metadata =
      (if sanitisedSlug env title = "" then page.ID else sanitisedSlug env title) ++ ".md" := by
  simp only [generateFilename, ht, hne, if_false, sanitisedSlug]

/-! ## File-name resolution: the properties -/

/-- Claim C22.  For every page, every metadata and every romanization the
transliteration returns, `generateFilename` returns a string matching
`^[a-z0-9-]*\.md$` or the identifier followed by `.md`.  When the title is
absent or empty, or the sanitised slug is empty, the result is the identifier
followed by `.md`; otherwise it is the sanitised slug followed by `.md`, which
matches the pattern. -/
theorem C22_filename_matches_pattern_or_identifier (env : HostEnv) (page : Page)
    (metadata : Option Metadata) :
    (matchesSlugPattern (generateFilename env page metadata) = true ∨
      generateFilename env page metadata = page.ID ++ ".md") ∧
    (metadata.bind (fun m => m.title) = none →
      generateFilename env page metadata = page.ID ++ ".md") ∧
    (metadata.bind (fun m => m.title) = some "" →
      generateFilename env page metadata = page.ID ++ ".md") ∧
    (∀ title, metadata.bind (fun m => m.title) = some title → title ≠ "" →
      sanitisedSlug env title = "" →
      generateFilename env page metadata = page.ID ++ ".md") ∧
    (∀ title, metadata.bind (fun m => m.title) = some title → title ≠ "" →
      sanitisedSlug env title ≠ "" →
      generateFilename env page metadata = sanitisedSlug env title ++ ".md" ∧
      matchesSlugPattern (generateFilename env page metadata) = true) := by
  have hnone : metadata.bind (fun m => m.title) = none →
      generateFilename env page metadata = page.ID ++ ".md" := by
    intro h
    simp only [generateFilename, h]
  have hempty : metadata.bind (fun m => m.title) = some "" →
      generateFilename env page metadata = page.ID ++ ".md" := by
    intro h
    simp only [generateFilename, h, if_true]
  have hid : ∀ title, metadata.bind (fun m => m.title) = some title → title ≠ "" →
      sanitisedSlug env title = "" →
      generateFilename env page metadata = page.ID ++ ".md" := by
    intro title ht hne hs
    rw [generateFilename_titled env page metadata title ht hne, if_pos hs]
  have hslug : ∀ title, metadata.bind (fun m => m.title) = some title → title ≠ "" →
      sanitisedSlug env title ≠ "" →
      generateFilename env page metadata = sanitisedSlug env title ++ ".md" ∧
      matchesSlugPattern (generateFilename env page metadata) = true := by
    intro title ht hne hs
    have h := generateFilename_titled env page metadata title ht hne
    rw [if_neg hs] at h
    refine ⟨h, ?_⟩
    rw [h]
    exact matchesSlugPattern_append _ (sanitisedSlug_slug env title)
  refine ⟨?_, hnone, hempty, hid, hslug⟩
  cases ht : metadata.bind (fun m => m.title) with
  | none => exact Or.inr (hnone ht)
  | some title =>
    by_cases hne : title = ""
    · subst hne
      exact Or.inr (hempty ht)
    · by_cases hs : sanitisedSlug env title = ""
      · exact Or.inr (hid title ht hne hs)
      · exact Or.inl (hslug title ht hne hs).2

/-! ## File-name resolution: the reference definition -/

theorem mem_concat_data (l : List String) (c : Char) (h : c ∈ (concat l).data) :
    ∃ s ∈ l, c ∈ s.data := by
  induction l with
  | nil => simp [concat] at h
  | cons x rest ih =>
    simp only [concat, String.data_append, List.mem_append] at h
    rcases h with h | h
    · exact ⟨x, List.mem_cons_self x rest, h⟩
    · obtain ⟨s, hs, hc⟩ := ih h
      exact ⟨s, List.mem_cons_of_mem x hs, hc⟩

theorem mem_intercalate_data (sep : String) (parts : List String) (c : Char)
    (h : c ∈ (sep.intercalate parts).data) : c ∈ sep.data ∨ ∃ s ∈ parts, c ∈ s.data := by
  cases parts with
  | nil => simp [String.intercalate] at h
  | cons x rest =>
    have hj := join_cons sep x rest
    unfold join at hj
    rw [hj, String.data_append, List.mem_append] at h
    rcases h with h | h
    · exact Or.inr ⟨x, List.mem_cons_self x rest, h⟩
    · obtain ⟨s, hs, hc⟩ := mem_concat_data _ c h
      obtain ⟨y, hy, rfl⟩ := List.mem_map.1 hs
      rw [String.data_append, List.mem_append] at hc
      rcases hc with hc | hc
      · exact Or.inl hc
      · exact Or.inr ⟨y, List.mem_cons_of_mem x hy, hc⟩

theorem joined_slug (pys : List String) (h : ∀ s ∈ pys, ∀ c ∈ s.data, isSlugChar c = true) :
    ∀ c ∈ ("-".intercalate pys).data, isSlugChar c = true := by
  intro c hc
  rcases mem_intercalate_data "-" pys c hc with hsep | ⟨s, hs, hcs⟩
  · have : c = '-' := by simpa using hsep
    subst this
    decide
  · exact h s hs c hcs

/-- Claim C23.  For every non-empty title whose romanization is made of
characters of `[a-z0-9-]` (the transliteration returns syllables of lower-case
letters), the file name computed by `generateFilename` is the reference
definition: the syllables joined with hyphens, every character outside
`[a-z0-9-]` deleted, leading and trailing hyphens trimmed; the identifier stands
in only when that slug is empty, and `.md` is appended in all cases. -/
theorem C23_slug_equals_reference (env : HostEnv) (page : Page) (metadata : Option Metadata)
    (title : String) (ht : metadata.bind (fun m => m.title) = some title) (hne : title ≠ "")
    (hrom : ∀ s ∈ env.lazyPinyin title, ∀ c ∈ s.data, isSlugChar c = true) :
    generateFilename env page metadata = filenameReference env page metadata ∧
    sanitisedSlug env title = slugReference (env.lazyPinyin title) ∧
    (slugReference (env.lazyPinyin title) ≠ "" →
      generateFilename env page metadata = slugReference (env.lazyPinyin title) ++ ".md") ∧
    (slugReference (env.lazyPinyin title) = "" →
      generateFilename env page metadata = page.ID ++ ".md") := by
  have hall := joined_slug _ hrom
  have hslug : sanitisedSlug env title = slugReference (env.lazyPinyin title) := by
    unfold sanitisedSlug slugReference join
    rw [replaceOutside_of_slug _ false hall, List.filter_eq_self.2 hall]
  have hgen := generateFilename_titled env page metadata title ht hne
  rw [hslug] at hgen
  refine ⟨?_, hslug, ?_, ?_⟩
  · rw [hgen]
    simp only [filenameReference, ht, hne, if_false]
  · intro h
    rw [hgen, if_neg h]
  · intro h
    rw [hgen, if_pos h]

/-- Witness of C23: the title `你好`, romanized `ni`, `hao`. -/
theorem C23_slug_equals_reference_witness :
    (titled "你好").bind (fun m => m.title) = some "你好" ∧ ("你好" : String) ≠ "" ∧
    (∀ s ∈ niHaoHost.lazyPinyin "你好", ∀ c ∈ s.data, isSlugChar c = true) ∧
    generateFilename niHaoHost blankPage (titled "你好") = "ni-hao.md" ∧
    (generateFilename niHaoHost blankPage (titled "你好") =
        filenameReference niHaoHost blankPage (titled "你好") ∧
      sanitisedSlug niHaoHost "你好" = slugReference (niHaoHost.lazyPinyin "你好") ∧
      (slugReference (niHaoHost.lazyPinyin "你好") ≠ "" →
        generateFilename niHaoHost blankPage (titled "你好") =
          slugReference (niHaoHost.lazyPinyin "你好") ++ ".md") ∧
      (slugReference (niHaoHost.lazyPinyin "你好") = "" →
        generateFilename niHaoHost blankPage (titled "你好") = blankPage.ID ++ ".md")) :=
  ⟨rfl, by decide, by decide, by decide,
    C23_slug_equals_reference niHaoHost blankPage (titled "你好") "你好" rfl (by decide)
      (by decide)⟩

/-! ## Local media handler: where the file goes -/

theorem splitGo_single_append (x : Char) (p rest cur : List Char) (hp : x ∉ p) :
    splitGo [x] (p ++ x :: rest) 0 cur = (cur.reverse ++ p) :: splitGo [x] rest 0 [] := by
  induction p generalizing cur with
  | nil => simp [splitGo, hasPrefixChars]
  | cons y ys ih =>
    have hy : (y == x) = false := by
      have : y ≠ x := fun h => hp (h ▸ List.mem_cons_self y ys)
      simpa using this
    rw [List.cons_append, splitGo]
    simp only [hasPrefixChars, hy, Bool.false_and, Bool.false_eq_true, if_false]
    rw [ih (y :: cur) (fun h => hp (List.mem_cons_of_mem y h))]
    simp

theorem splitGo_single_none (x : Char) (p cur : List Char) (hp : x ∉ p) :
    splitGo [x] p 0 cur = [cur.reverse ++ p] := by
  apply splitGo_not_contained
  cases h : containsChars p [x] with
  | false => rfl
  | true => exact absurd ((containsChars_singleton x p).1 h) hp

theorem pathElems_three (c a f : List Char) (hc : '/' ∉ c) (ha : '/' ∉ a) (hf : '/' ∉ f) :
    pathElems (c ++ '/' :: (a ++ '/' :: f)) = [c, a, f] := by
  unfold pathElems
  rw [splitGo_single_append '/' c _ [] hc, splitGo_single_append '/' a _ [] ha,
    splitGo_single_none '/' f [] hf]
  simp

theorem isName_data (s : String) (h : isName s = true) :
    s ≠ "" ∧ '/' ∉ s.data ∧ '\\' ∉ s.data ∧ s.data ≠ [] ∧ s.data ≠ ['.'] ∧
      s.data ≠ ['.', '.'] := by
  simp only [isName, decide_eq_true_eq] at h
  obtain ⟨h1, h2, h3, h4, h5⟩ := h
  refine ⟨h1, h2, h3, fun e => h1 (String.ext e), fun e => h4 (String.ext e),
    fun e => h5 (String.ext e)⟩

theorem intercalate_three (c a f : String) :
    "/".intercalate [c, a, f] = c ++ "/" ++ a ++ "/" ++ f := by
  simp [String.intercalate, String.intercalate.go, String.append_assoc]

theorem filepathClean_names (c a f : String) (hc : isName c = true) (ha : isName a = true)
    (hf : isName f = true) :
    filepathClean (c ++ "/" ++ a ++ "/" ++ f) = c ++ "/" ++ a ++ "/" ++ f := by
  obtain ⟨hc1, hc2, _, hc4, hc5, hc6⟩ := isName_data c hc
  obtain ⟨_, ha2, _, ha4, ha5, ha6⟩ := isName_data a ha
  obtain ⟨_, hf2, _, hf4, hf5, hf6⟩ := isName_data f hf
  have hdata : (c ++ "/" ++ a ++ "/" ++ f).data = c.data ++ '/' :: (a.data ++ '/' :: f.data) := by
    simp [String.data_append]
  have hroot : hasPrefixChars (c.data ++ '/' :: (a.data ++ '/' :: f.data)) ['/'] = false := by
    cases hcd : c.data with
    | nil => exact absurd hcd hc4
    | cons y ys =>
      have : y ≠ '/' := fun h => hc2 (by rw [hcd, h]; exact List.mem_cons_self _ _)
      simp [hasPrefixChars, this]
  have hstack : cleanStack false [c.data, a.data, f.data] [] = [c.data, a.data, f.data] := by
    simp [cleanStack, hc4, hc5, hc6, ha4, ha5, ha6, hf4, hf5, hf6]
  have hne : c ++ "/" ++ a ++ "/" ++ f ≠ "" := by
    intro h
    have := congrArg String.data h
    rw [hdata] at this
    simp at this
  unfold filepathClean
  simp only [hdata, hroot, pathElems_three c.data a.data f.data hc2 ha2 hf2, hstack,
    List.map_cons, List.map_nil, Bool.false_eq_true, if_false]
  have hmk : ∀ s : String, String.mk s.data = s := fun s => rfl
  rw [hmk, hmk, hmk, intercalate_three]
  simp only [String.empty_append, hne, if_false]

theorem filepathJoin_names (c a f : String) (hc : isName c = true) (ha : isName a = true)
    (hf : isName f = true) :
    filepathJoin [c, a, f] = c ++ "/" ++ a ++ "/" ++ f := by
  have hc1 := (isName_data c hc).1
  have ha1 := (isName_data a ha).1
  have hf1 := (isName_data f hf).1
  unfold filepathJoin
  simp only [List.filter, hc1, ha1, hf1, ne_eq, not_false_eq_true, decide_True]
  rw [intercalate_three]
  simp only [if_neg (List.cons_ne_nil _ _)]
  exact filepathClean_names c a f hc ha hf

theorem replaceChar_of_not_mem (s : String) (old new : Char) (h : old ∉ s.data) :
    replaceChar s old new = s := by
  unfold replaceChar
  apply String.ext
  show s.data.map _ = s.data
  conv => rhs; rw [← List.map_id s.data]
  apply List.map_congr_left
  intro c hc
  have : c ≠ old := fun e => h (e ▸ hc)
  simp [this]

theorem replaceChar_not_mem (s : String) (old new : Char) (h : new ≠ old) :
    old ∉ (replaceChar s old new).data := by
  unfold replaceChar
  show old ∉ s.data.map _
  intro hmem
  obtain ⟨c, _, hc⟩ := List.mem_map.1 hmem
  by_cases hco : c = old
  · simp [hco] at hc
    exact h hc
  · simp [hco] at hc

theorem LocalHandler_SaveMedia_ok (env : MediaEnv) (h : LocalHandler) (url u : String)
    (resp : Response) (hget : env.httpGet url = .ok resp)
    (hok : (h.SaveMedia env url).result = .ok u) :
    (h.SaveMedia env url).stored =
      some (filepathJoin [h.savePath, h.relativePath (LocalHandler.filename url resp)]) ∧
    u = h.urlPrefix ++ "/" ++
      replaceChar (h.relativePath (LocalHandler.filename url resp)) '\\' '/' := by
  unfold LocalHandler.SaveMedia at hok ⊢
  simp only [hget] at hok ⊢
  cases hmk : env.mkdirAll (filepathDir (filepathJoin [h.savePath,
      h.relativePath (LocalHandler.filename url resp)])) with
  | some e => simp [hmk] at hok
  | none =>
    cases hcr : env.create (filepathJoin [h.savePath,
        h.relativePath (LocalHandler.filename url resp)]) with
    | some e => simp [hmk, hcr] at hok
    | none =>
      cases hcp : env.copy (filepathJoin [h.savePath,
          h.relativePath (LocalHandler.filename url resp)]) with
      | some e => simp [hmk, hcr, hcp] at hok
      | none =>
        simp only [hmk, hcr, hcp] at hok ⊢
        exact ⟨trivial, (Except.ok.inj hok).symm⟩

/-- Counterexample to C24 as stated: the relative path is cleaned by
`filepath.Join` and its backslashes become slashes in the URL, so the returned
URL is not the plain concatenation when the category ends in a slash or the file
name holds a backslash; and a context with an empty part is no context. -/
theorem C24_counterexample_cleaned_path :
    ((NewLocalHandler "static" "/media").SetContext "notes/" "post").SaveMedia pngServer
        "https://files.example/a/x.png" =
      { result := .ok "/media/notes/post/x.png", stored := some "static/notes/post/x.png" } ∧
    "/media" ++ "/" ++ "notes/" ++ "/" ++ "post" ++ "/" ++ "x.png" = "/media/notes//post/x.png" ∧
    LocalHandler.filename "https://files.example/a/x\\y.png" { contentType := "image/png" } =
      "x\\y.png" ∧
    exampleLocal.SaveMedia pngServer "https://files.example/a/x\\y.png" =
      { result := .ok "/media/tech/post/x/y.png", stored := some "static/tech/post/x\\y.png" } ∧
    ((NewLocalHandler "static" "/media").SetContext "tech" "").SaveMedia pngServer
        "https://files.example/a/x.png" =
      { result := .ok "/media/x.png", stored := some "static/x.png" } := by
  decide

/-- Claim C24, amended.  For every successful save on the local handler, with
`f` the derived file name: the relative path is `filepath.Join(c, a, f)` when
category `c` and article `a` are both non-empty and `f` otherwise; the file is
stored at `filepath.Join(savePath, relative path)`; the returned URL is
`urlPrefix`, a slash and the relative path with every backslash replaced by a
slash, so that part holds no backslash.  When `c`, `a` and `f` are plain names
(not empty, without slash or backslash, neither `.` nor `..`) the file is stored
at `savePath/c/a/f` and the URL is `urlPrefix/c/a/f`; without context and
without backslash in `f` the URL is `urlPrefix/f`. -/
theorem C24_local_save_path_and_url (env : MediaEnv) (h : LocalHandler) (url u : String)
    (resp : Response) (hget : env.httpGet url = .ok resp)
    (hok : (h.SaveMedia env url).result = .ok u) :
    ((h.category ≠ "" ∧ h.article ≠ "") →
      (h.SaveMedia env url).stored = some (filepathJoin [h.savePath,
        filepathJoin [h.category, h.article, LocalHandler.filename url resp]]) ∧
      u = h.urlPrefix ++ "/" ++ replaceChar
        (filepathJoin [h.category, h.article, LocalHandler.filename url resp]) '\\' '/') ∧
    (¬ (h.category ≠ "" ∧ h.article ≠ "") →
      (h.SaveMedia env url).stored =
        some (filepathJoin [h.savePath, LocalHandler.filename url resp]) ∧
      u = h.urlPrefix ++ "/" ++ replaceChar (LocalHandler.filename url resp) '\\' '/') ∧
    (∃ rel, u = h.urlPrefix ++ "/" ++ rel ∧ '\\' ∉ rel.data ∧
      rel = replaceChar (h.relativePath (LocalHandler.filename url resp)) '\\' '/') ∧
    (isName h.category = true → isName h.article = true →
      isName (LocalHandler.filename url resp) = true →
      (h.SaveMedia env url).stored = some (filepathJoin [h.savePath,
        h.category ++ "/" ++ h.article ++ "/" ++ LocalHandler.filename url resp]) ∧
      u = h.urlPrefix ++ "/" ++
        (h.category ++ "/" ++ h.article ++ "/" ++ LocalHandler.filename url resp)) ∧
    (¬ (h.category ≠ "" ∧ h.article ≠ "") → '\\' ∉ (LocalHandler.filename url resp).data →
      u = h.urlPrefix ++ "/" ++ LocalHandler.filename url resp) := by
  obtain ⟨hstored, hu⟩ := LocalHandler_SaveMedia_ok env h url u resp hget hok
  have hctx : (h.category ≠ "" ∧ h.article ≠ "") →
      h.relativePath (LocalHandler.filename url resp) =
        filepathJoin [h.category, h.article, LocalHandler.filename url resp] := by
    intro hc
    simp only [LocalHandler.relativePath, hc, ne_eq, not_false_eq_true, and_self, if_true]
  have hnoctx : ¬ (h.category ≠ "" ∧ h.article ≠ "") →
      h.relativePath (LocalHandler.filename url resp) = LocalHandler.filename url resp := by
    intro hc
    simp only [LocalHandler.relativePath, hc, if_false]
  refine ⟨?_, ?_, ?_, ?_, ?_⟩
  · intro hc
    rw [← hctx hc]
    exact ⟨hstored, hu⟩
  · intro hc
    rw [← hnoctx hc]
    exact ⟨hstored, hu⟩
  · exact ⟨_, hu, replaceChar_not_mem _ '\\' '/' (by decide), rfl⟩
  · intro hc ha hf
    have hc1 := (isName_data _ hc).1
    have ha1 := (isName_data _ ha).1
    have hrel := hctx ⟨hc1, ha1⟩
    rw [filepathJoin_names _ _ _ hc ha hf] at hrel
    have hback : '\\' ∉ (h.category ++ "/" ++ h.article ++ "/" ++
        LocalHandler.filename url resp).data := by
      simp only [String.data_append, List.mem_append, not_or]
      exact ⟨⟨⟨⟨(isName_data _ hc).2.2.1, by decide⟩, (isName_data _ ha).2.2.1⟩, by decide⟩,
        (isName_data _ hf).2.2.1⟩
    rw [hrel] at hstored hu
    rw [replaceChar_of_not_mem _ _ _ hback] at hu
    exact ⟨hstored, hu⟩
  · intro hc hback
    rw [hnoctx hc, replaceChar_of_not_mem _ _ _ hback] at hu
    exact hu

/-- Witness of C24, amended: a hosted image saved under category `tech` and
article `post`. -/
theorem C24_local_save_path_and_url_witness :
    pngServer.httpGet signedURL = .ok { contentType := "image/png" } ∧
    (exampleLocal.SaveMedia pngServer signedURL).result = .ok "/media/tech/post/name.png" ∧
    (exampleLocal.SaveMedia pngServer signedURL).stored = some "static/tech/post/name.png" ∧
    isName exampleLocal.category = true ∧ isName exampleLocal.article = true ∧
    isName (LocalHandler.filename signedURL { contentType := "image/png" }) = true ∧
    "/media/tech/post/name.png" = exampleLocal.urlPrefix ++ "/" ++
      (exampleLocal.category ++ "/" ++ exampleLocal.article ++ "/" ++
        LocalHandler.filename signedURL { contentType := "image/png" }) :=
  have hget : pngServer.httpGet signedURL = .ok { contentType := "image/png" } := rfl
  have hok : (exampleLocal.SaveMedia pngServer signedURL).result =
      .ok "/media/tech/post/name.png" := by decide
  have hc : isName exampleLocal.category = true := by decide
  have ha : isName exampleLocal.article = true := by decide
  have hf : isName (LocalHandler.filename signedURL { contentType := "image/png" }) = true := by
    decide
  have hall := C24_local_save_path_and_url pngServer exampleLocal signedURL
    "/media/tech/post/name.png" { contentType := "image/png" } hget hok
  ⟨hget, hok, by decide, hc, ha, hf, (hall.2.2.2.1 hc ha hf).2⟩

end Notion2Hugo
